import Mathlib

set_option maxHeartbeats 1000000
set_option maxRecDepth 100000

/-!
Verification of the sharkDB storage core against its specification.

The development shallowly embeds the two verified subsystems:

* the in-memory B+ tree of `internal/bptree/bptree.go` (order 4, string keys
  and values, upsert insert with a preemptive root split, delete without
  rebalancing), together with an instrumented variant that tracks the leaf
  forward-link (`Next`) pointers;
* the paged file store of `internal/pager2/pager.go` (page-chain blobs, LIFO
  free list, write-ahead log, replay on open), modelled as a pure state
  machine over a list of fixed-size pages with an explicit event trace.

Go strings are byte strings, modelled as `List Nat`; machine integers are
modelled as `Nat` (no arithmetic in the embedded code overflows: page ids,
lengths and counts stay far below 2^32 in every execution considered).
Functions that can hit a Go panic (out-of-range index) or an I/O error
return `Option`, `none` marking the abnormal exit.
-/

namespace SharkDB

/-- Byte strings: Go `string` values are modelled as lists of byte values. -/
abbrev Str := List Nat

/-- Lexicographic comparison of byte strings, Go's `<` on `string`. -/
def strLtB : Str → Str → Bool
  | [], [] => false
  | [], _ :: _ => true
  | _ :: _, [] => false
  | a :: as, b :: bs => if a < b then true else if b < a then false else strLtB as bs

/-- Go `sort.Search` loop, made structural with an explicit iteration budget.
The budget supplied by `goSearch` always suffices (the gap `j - i` shrinks at
every iteration), so this is exactly the Go binary search. -/
def goSearchAux (f : Nat → Bool) : Nat → Nat → Nat → Nat
  | 0, i, _ => i
  | fuel+1, i, j =>
    if i < j then
      if f ((i + j) / 2) then goSearchAux f fuel i ((i + j) / 2)
      else goSearchAux f fuel ((i + j) / 2 + 1) j
    else i

/-- Go `sort.Search(n, f)`: the smallest index in `[0, n)` where `f` holds,
or `n` when there is none (for a monotone `f`). -/
def goSearch (f : Nat → Bool) (n : Nat) : Nat := goSearchAux f n 0 n

/-- Go `upperBound(keys, key)` from bptree.go: first index with `keys[i] > key`. -/
def upperBound (keys : List Str) (key : Str) : Nat :=
  goSearch (fun i => strLtB key (keys.getD i [])) keys.length

/-- Go `sort.SearchStrings(keys, key)`: first index with `keys[i] >= key`. -/
def searchStrings (keys : List Str) (key : Str) : Nat :=
  goSearch (fun i => ! strLtB (keys.getD i []) key) keys.length

/-- Go `insertString` / `insertNode` on plain lists: insert at position `i`.
The Go code is only ever called with `i ≤ len` (a `sort.Search` result), where
it has exactly this effect. -/
def listInsertAt (l : List α) (i : Nat) (a : α) : List α := l.take i ++ a :: l.drop i

/-- Order of the B+ tree (`bptree.Order`). -/
def Order : Nat := 4

mutual
/-- Go `bptree.Node`. A leaf holds keys with aligned values; an internal node
holds keys and children. The `Next` leaf pointer is modelled separately by the
instrumented variant `NodeL` below. -/
inductive Node where
  | leaf (keys : List Str) (values : List Str)
  | internal (keys : List Str) (children : NodeList)
  deriving DecidableEq
/-- Children of an internal node (`[]*Node` in Go). -/
inductive NodeList where
  | nil
  | cons (c : Node) (rest : NodeList)
  deriving DecidableEq
end

def NodeList.length : NodeList → Nat
  | .nil => 0
  | .cons _ rest => rest.length + 1

def NodeList.get? : NodeList → Nat → Option Node
  | .nil, _ => none
  | .cons c _, 0 => some c
  | .cons _ rest, n+1 => rest.get? n

def NodeList.insertAt : NodeList → Nat → Node → NodeList
  | cs, 0, x => .cons x cs
  | .nil, _+1, x => .cons x .nil
  | .cons c rest, n+1, x => .cons c (rest.insertAt n x)

def NodeList.take : NodeList → Nat → NodeList
  | _, 0 => .nil
  | .nil, _+1 => .nil
  | .cons c rest, n+1 => .cons c (rest.take n)

def NodeList.drop : NodeList → Nat → NodeList
  | cs, 0 => cs
  | .nil, _+1 => .nil
  | .cons _ rest, n+1 => rest.drop n

/-- Go `bptree.BPTree`: a possibly nil root pointer. -/
structure BPTree where
  root : Option Node
  deriving DecidableEq

/-- Go `bptree.New()`. -/
def BPTree.new : BPTree := ⟨some (.leaf [] [])⟩

mutual
/-- Go `(*BPTree).Get` descent loop: descend by `upperBound`, then binary-search
the leaf. `none` marks a Go panic (index out of range). -/
def getNode : Node → Str → Option (Str × Bool)
  | .leaf ks vs, key =>
    let i := searchStrings ks key
    if i < ks.length ∧ ks.getD i [] = key then
      match vs[i]? with
      | some v => some (v, true)
      | none => none
    else some ([], false)
  | .internal ks cs, key => getChild cs (upperBound ks key) key
/-- Indexing step of the `Get` descent (`n = n.Children[idx]`). -/
def getChild : NodeList → Nat → Str → Option (Str × Bool)
  | .nil, _, _ => none
  | .cons c _, 0, key => getNode c key
  | .cons _ rest, n+1, key => getChild rest n key
end

def BPTree.get (t : BPTree) (key : Str) : Option (Str × Bool) :=
  match t.root with
  | none => some ([], false)
  | some r => getNode r key

/-- Go `splitLeaf`: split at `mid = len/2`, the right half becomes a new leaf
and its first key is the separator. `none` marks a Go panic. -/
def splitLeafGo (ks vs : List Str) : Option (Node × Str × Node) :=
  let mid := ks.length / 2
  if mid ≤ vs.length then
    match (ks.drop mid)[0]? with
    | some sep => some (.leaf (ks.take mid) (vs.take mid), sep, .leaf (ks.drop mid) (vs.drop mid))
    | none => none
  else none

/-- Go `splitInternalReturnRight`: promote the key at `mid = len/2`; it is kept
in neither half, and its right neighbourhood becomes the new right node. -/
def splitInternalGo (ks : List Str) (cs : NodeList) : Option (Node × Option (Node × Str)) :=
  let mid := ks.length / 2
  match ks[mid]? with
  | some sep =>
    if mid + 1 ≤ cs.length then
      some (.internal (ks.take mid) (cs.take (mid+1)),
            some (.internal (ks.drop (mid+1)) (cs.drop (mid+1)), sep))
    else none
  | none => none

mutual
/-- Go `insertRecursive`: returns the updated node and, when the node split,
the new right sibling with the promoted separator. -/
def insertRec : Node → Str → Str → Option (Node × Option (Node × Str))
  | .leaf ks vs, key, val =>
    let i := searchStrings ks key
    if i < ks.length ∧ ks.getD i [] = key then
      match vs[i]? with
      | some _ => some (.leaf ks (vs.set i val), none)
      | none => none
    else
      let ks2 := listInsertAt ks i key
      let vs2 := listInsertAt vs i val
      if ks2.length ≤ Order - 1 then some (.leaf ks2 vs2, none)
      else
        match splitLeafGo ks2 vs2 with
        | some (l, sep, r) => some (l, some (r, sep))
        | none => none
  | .internal ks cs, key, val =>
    let idx := upperBound ks key
    match insertChild cs idx key val with
    | none => none
    | some (cs2, none) => some (.internal ks cs2, none)
    | some (cs2, some (right, sep)) =>
      let ks2 := listInsertAt ks idx sep
      let cs3 := cs2.insertAt (idx+1) right
      if ks2.length ≤ Order - 1 then some (.internal ks2 cs3, none)
      else splitInternalGo ks2 cs3
/-- Indexing step of `insertRecursive` (`child := n.Children[idx]`, mutate in
place, then insert the separator). -/
def insertChild : NodeList → Nat → Str → Str → Option (NodeList × Option (Node × Str))
  | .nil, _, _, _ => none
  | .cons c rest, 0, key, val =>
    match insertRec c key val with
    | none => none
    | some (c2, grow) => some (.cons c2 rest, grow)
  | .cons c rest, n+1, key, val =>
    match insertChild rest n key val with
    | none => none
    | some (rest2, grow) => some (.cons c rest2, grow)
end

/-- Tail of Go `(*BPTree).Insert`: the recursive insertion into the (possibly
pre-split) root, growing a new root when the recursion reports a split. -/
def insertFinish (root1 : Node) (key val : Str) : Option BPTree :=
  match insertRec root1 key val with
  | none => none
  | some (root2, none) => some ⟨some root2⟩
  | some (root2, some (right, sep)) =>
    some ⟨some (.internal [sep] (.cons root2 (.cons right .nil)))⟩

/-- Go `(*BPTree).Insert` (upsert): replace the root by a fresh leaf when nil,
preemptively split a full leaf root, insert recursively, and grow the root if
the recursion split it. -/
def BPTree.insert (t : BPTree) (key val : Str) : Option BPTree :=
  match t.root.getD (.leaf [] []) with
  | .leaf ks vs =>
    if Order - 1 ≤ ks.length then
      match splitLeafGo ks vs with
      | some (l, sep, r) => insertFinish (.internal [sep] (.cons l (.cons r .nil))) key val
      | none => none
    else insertFinish (.leaf ks vs) key val
  | .internal ks cs => insertFinish (.internal ks cs) key val

mutual
/-- Go `(*BPTree).Delete` descent loop: remove the key from its leaf if present;
no rebalancing. -/
def deleteNode : Node → Str → Option (Node × Bool)
  | .leaf ks vs, key =>
    let i := searchStrings ks key
    if i < ks.length ∧ ks.getD i [] = key then
      if i < vs.length then
        some (.leaf (ks.take i ++ ks.drop (i+1)) (vs.take i ++ vs.drop (i+1)), true)
      else none
    else some (.leaf ks vs, false)
  | .internal ks cs, key =>
    match deleteChild cs (upperBound ks key) key with
    | none => none
    | some (cs2, b) => some (.internal ks cs2, b)
/-- Indexing step of the `Delete` descent. -/
def deleteChild : NodeList → Nat → Str → Option (NodeList × Bool)
  | .nil, _, _ => none
  | .cons c rest, 0, key =>
    match deleteNode c key with
    | none => none
    | some (c2, b) => some (.cons c2 rest, b)
  | .cons c rest, n+1, key =>
    match deleteChild rest n key with
    | none => none
    | some (rest2, b) => some (.cons c rest2, b)
end

def BPTree.delete (t : BPTree) (key : Str) : Option (BPTree × Bool) :=
  match t.root with
  | none => some (t, false)
  | some r =>
    match deleteNode r key with
    | none => none
    | some (r2, b) => some (⟨some r2⟩, b)

mutual
/-- Key/value pairs of a subtree in left-to-right order. -/
def nodePairs : Node → List (Str × Str)
  | .leaf ks vs => ks.zip vs
  | .internal _ cs => nodeListPairs cs
def nodeListPairs : NodeList → List (Str × Str)
  | .nil => []
  | .cons c rest => nodePairs c ++ nodeListPairs rest
end

def treePairs (t : BPTree) : List (Str × Str) :=
  match t.root with
  | none => []
  | some r => nodePairs r

mutual
/-- Modelled from the spec: `Height` is absent from the provided sources (only
`Stats` calls it); the spec defines it as the number of edges from the root
down to a leaf, 0 for a single-leaf tree. -/
def nodeHeight : Node → Nat
  | .leaf _ _ => 0
  | .internal _ cs => nodeListHeight cs + 1
def nodeListHeight : NodeList → Nat
  | .nil => 0
  | .cons c _ => nodeHeight c
end

def BPTree.height (t : BPTree) : Nat :=
  match t.root with
  | none => 0
  | some r => nodeHeight r

/-- Modelled from the spec: `RangeFrom` is absent from the provided sources
(only the engine calls it); its contract is to produce the pairs with
`key >= start` in ascending key order, `limit = 0` meaning unbounded. -/
def BPTree.rangeFrom (t : BPTree) (start : Str) (limit : Nat) : List (Str × Str) :=
  let all := (treePairs t).filter (fun p => ! strLtB p.1 start)
  if limit = 0 then all else all.take limit

/-- Number of keys held by the root node. -/
def rootKeyCount (t : BPTree) : Nat :=
  match t.root with
  | none => 0
  | some (.leaf ks _) => ks.length
  | some (.internal ks _) => ks.length

/-! ## Instrumented tree: leaf identities and the `Next` forward links

Go leaves carry a `Next` pointer. The instrumented model gives every leaf
object an identity (allocation order) and keeps the `Next` pointers in a
side table, so the forward chain can be observed. -/

mutual
/-- Instrumented `bptree.Node`: leaves carry the identity of the Go object
they model. -/
inductive NodeL where
  | leaf (lid : Nat) (keys : List Str) (values : List Str)
  | internal (keys : List Str) (children : NodeListL)
  deriving DecidableEq
/-- Children of an instrumented internal node. -/
inductive NodeListL where
  | nil
  | cons (c : NodeL) (rest : NodeListL)
  deriving DecidableEq
end

def NodeListL.length : NodeListL → Nat
  | .nil => 0
  | .cons _ rest => rest.length + 1

def NodeListL.insertAt : NodeListL → Nat → NodeL → NodeListL
  | cs, 0, x => .cons x cs
  | .nil, _+1, x => .cons x .nil
  | .cons c rest, n+1, x => .cons c (rest.insertAt n x)

def NodeListL.take : NodeListL → Nat → NodeListL
  | _, 0 => .nil
  | .nil, _+1 => .nil
  | .cons c rest, n+1 => .cons c (rest.take n)

def NodeListL.drop : NodeListL → Nat → NodeListL
  | cs, 0 => cs
  | .nil, _+1 => .nil
  | .cons _ rest, n+1 => rest.drop n

/-- Allocation state of the instrumented model: `nxt` maps a leaf identity to
the identity its `Next` pointer refers to (no entry = Go `nil`); `ctr` is the
next fresh identity. -/
structure LState where
  nxt : List (Nat × Nat)
  ctr : Nat
  deriving DecidableEq

def nxtLookup (m : List (Nat × Nat)) (i : Nat) : Option Nat :=
  (m.find? (fun e => e.1 == i)).map (fun e => e.2)

def nxtSet (m : List (Nat × Nat)) (i : Nat) : Option Nat → List (Nat × Nat)
  | none => m.filter (fun e => e.1 != i)
  | some w =>
    if m.any (fun e => e.1 == i) then m.map (fun e => if e.1 == i then (i, w) else e)
    else m ++ [(i, w)]

/-- Instrumented Go `splitLeaf`: allocates the identity of the new right
leaf. Note that it touches no `Next` pointer: the fresh right leaf has
`Next = nil`, and the left keeps whatever `Next` it had. -/
def splitLeafL (lid : Nat) (ks vs : List Str) (st : LState) :
    Option (NodeL × Str × NodeL × LState) :=
  let mid := ks.length / 2
  if mid ≤ vs.length then
    match (ks.drop mid)[0]? with
    | some sep =>
      some (.leaf lid (ks.take mid) (vs.take mid), sep,
            .leaf st.ctr (ks.drop mid) (vs.drop mid), { st with ctr := st.ctr + 1 })
    | none => none
  else none

/-- Instrumented Go `splitLeafReturnRight`: split, then link the new right
leaf after the split one (`right.Next = n.Next; n.Next = right`). -/
def splitLeafRR (lid : Nat) (ks vs : List Str) (st : LState) :
    Option (NodeL × Str × NodeL × LState) :=
  match splitLeafL lid ks vs st with
  | none => none
  | some (l, sep, r, st1) =>
    let rid := st.ctr
    let nxt1 := nxtSet st1.nxt rid (nxtLookup st1.nxt lid)
    let nxt2 := nxtSet nxt1 lid (some rid)
    some (l, sep, r, { st1 with nxt := nxt2 })

/-- Instrumented Go `splitInternalReturnRight` (no leaf is created). -/
def splitInternalL (ks : List Str) (cs : NodeListL) (st : LState) :
    Option (NodeL × Option (NodeL × Str) × LState) :=
  let mid := ks.length / 2
  match ks[mid]? with
  | some sep =>
    if mid + 1 ≤ cs.length then
      some (.internal (ks.take mid) (cs.take (mid+1)),
            some (.internal (ks.drop (mid+1)) (cs.drop (mid+1)), sep), st)
    else none
  | none => none

mutual
/-- Instrumented Go `insertRecursive`, threading the allocation state. -/
def insertRecL : NodeL → Str → Str → LState → Option (NodeL × Option (NodeL × Str) × LState)
  | .leaf lid ks vs, key, val, st =>
    let i := searchStrings ks key
    if i < ks.length ∧ ks.getD i [] = key then
      match vs[i]? with
      | some _ => some (.leaf lid ks (vs.set i val), none, st)
      | none => none
    else
      let ks2 := listInsertAt ks i key
      let vs2 := listInsertAt vs i val
      if ks2.length ≤ Order - 1 then some (.leaf lid ks2 vs2, none, st)
      else
        match splitLeafRR lid ks2 vs2 st with
        | none => none
        | some (l, sep, r, st1) => some (l, some (r, sep), st1)
  | .internal ks cs, key, val, st =>
    let idx := upperBound ks key
    match insertChildL cs idx key val st with
    | none => none
    | some (cs2, none, st1) => some (.internal ks cs2, none, st1)
    | some (cs2, some (right, sep), st1) =>
      let ks2 := listInsertAt ks idx sep
      let cs3 := cs2.insertAt (idx+1) right
      if ks2.length ≤ Order - 1 then some (.internal ks2 cs3, none, st1)
      else splitInternalL ks2 cs3 st1
/-- Indexing step of the instrumented `insertRecursive`. -/
def insertChildL : NodeListL → Nat → Str → Str → LState →
    Option (NodeListL × Option (NodeL × Str) × LState)
  | .nil, _, _, _, _ => none
  | .cons c rest, 0, key, val, st =>
    match insertRecL c key val st with
    | none => none
    | some (c2, grow, st1) => some (.cons c2 rest, grow, st1)
  | .cons c rest, n+1, key, val, st =>
    match insertChildL rest n key val st with
    | none => none
    | some (rest2, grow, st1) => some (.cons c rest2, grow, st1)
end

/-- Instrumented `bptree.BPTree`: root plus allocation state. `New()` makes
one leaf object, identity 0. -/
structure BPTreeL where
  root : Option NodeL
  st : LState
  deriving DecidableEq

def BPTreeL.new : BPTreeL := ⟨some (.leaf 0 [] []), ⟨[], 1⟩⟩

/-- Instrumented Go `(*BPTree).Insert`: the preemptive split of a full leaf
root uses the plain `splitLeaf` — no `Next` pointer is written on that path. -/
def BPTreeL.insert (t : BPTreeL) (key val : Str) : Option BPTreeL :=
  let rootSt : NodeL × LState :=
    match t.root with
    | some r => (r, t.st)
    | none => (.leaf t.st.ctr [] [], { t.st with ctr := t.st.ctr + 1 })
  let pre : Option (NodeL × LState) :=
    match rootSt.1 with
    | .leaf lid ks vs =>
      if Order - 1 ≤ ks.length then
        match splitLeafL lid ks vs rootSt.2 with
        | some (l, sep, r, st1) => some (.internal [sep] (.cons l (.cons r .nil)), st1)
        | none => none
      else some (.leaf lid ks vs, rootSt.2)
    | .internal ks cs => some (.internal ks cs, rootSt.2)
  match pre with
  | none => none
  | some (root1, st1) =>
    match insertRecL root1 key val st1 with
    | none => none
    | some (root2, none, st2) => some ⟨some root2, st2⟩
    | some (root2, some (right, sep), st2) =>
      some ⟨some (.internal [sep] (.cons root2 (.cons right .nil))), st2⟩

/-- Identity of the leftmost leaf, where an ascending scan would start. -/
def leftmostLeafId : NodeL → Option Nat
  | .leaf lid _ _ => some lid
  | .internal _ .nil => none
  | .internal _ (.cons c _) => leftmostLeafId c

mutual
/-- Leaf identities in left-to-right (ascending-key) tree order. -/
def leafIdsOf : NodeL → List Nat
  | .leaf lid _ _ => [lid]
  | .internal _ cs => leafIdsOfList cs
def leafIdsOfList : NodeListL → List Nat
  | .nil => []
  | .cons c rest => leafIdsOf c ++ leafIdsOfList rest
end

/-- The forward chain of leaf identities reached from `start` by following
`Next` pointers (with a budget large enough for any finite chain). -/
def chainFromL (m : List (Nat × Nat)) : Nat → Nat → List Nat
  | 0, i => [i]
  | fuel+1, i =>
    match nxtLookup m i with
    | none => [i]
    | some j => i :: chainFromL m fuel j

/-- The leaf forward chain of an instrumented tree, from its leftmost leaf. -/
def leafChain (t : BPTreeL) : List Nat :=
  match t.root with
  | none => []
  | some r =>
    match leftmostLeafId r with
    | none => []
    | some lid => chainFromL t.st.nxt t.st.ctr lid

/-- All leaf identities of an instrumented tree, in ascending key order. -/
def treeLeafIds (t : BPTreeL) : List Nat :=
  match t.root with
  | none => []
  | some r => leafIdsOf r

/-! ## Canonical tree encoding (spec §6)

`StoreTree` / `LoadTree` in the sources delegate to the Go standard library
gob codec, which is not part of the repository. The codec below is modelled
from the spec: a deterministic, self-delimiting, length-prefixed framing
(leaf flag, u32 key count, u32-length-prefixed keys, then values for a leaf
or the children for an internal node); spec §6 leaves the exact format
implementation-defined up to the round-trip property. -/

/-- Self-delimiting framing of a count or length field, as the gob codec
frames unsigned integers: 7-bit groups, little-endian, with a continuation
bit (structural via a budget that always suffices). -/
def encVarAux : Nat → Nat → List Nat
  | 0, n => [n % 128]
  | fuel+1, n => if n < 128 then [n] else (n % 128 + 128) :: encVarAux fuel (n / 128)

def encVar (n : Nat) : List Nat := encVarAux n n

def decVar : List Nat → Option (Nat × List Nat)
  | [] => none
  | b :: rest =>
    if b < 128 then some (b, rest)
    else (decVar rest).map (fun p => (b - 128 + 128 * p.1, p.2))

/-- Modelled from the spec: length-prefixed string. -/
def encStr (s : Str) : List Nat := encVar s.length ++ s

def decStr (l : List Nat) : Option (Str × List Nat) :=
  (decVar l).bind fun p =>
    if p.1 ≤ p.2.length then some (p.2.take p.1, p.2.drop p.1) else none

def decStrs : Nat → List Nat → Option (List Str × List Nat)
  | 0, l => some ([], l)
  | c+1, l =>
    (decStr l).bind fun p =>
      (decStrs c p.2).bind fun q => some (p.1 :: q.1, q.2)

mutual
/-- Modelled from the spec: canonical encoding of one node (pre-order). -/
def encNode : Node → List Nat
  | .leaf ks vs =>
    0 :: encVar ks.length ++ (ks.map encStr).flatten ++ (vs.map encStr).flatten
  | .internal ks cs =>
    1 :: encVar ks.length ++ (ks.map encStr).flatten ++ encNodeList cs
def encNodeList : NodeList → List Nat
  | .nil => []
  | .cons c rest => encNode c ++ encNodeList rest
end

mutual
/-- Decoder for `encNode`, structural on a budget (every recursive call
spends one unit; `decTree` supplies a budget that always suffices). -/
def decNode : Nat → List Nat → Option (Node × List Nat)
  | 0, _ => none
  | fuel+1, l =>
    match l with
    | 0 :: l1 =>
      (decVar l1).bind fun c =>
        (decStrs c.1 c.2).bind fun ks =>
          (decStrs c.1 ks.2).bind fun vs => some (.leaf ks.1 vs.1, vs.2)
    | 1 :: l1 =>
      (decVar l1).bind fun c =>
        (decStrs c.1 c.2).bind fun ks =>
          (decNodes fuel (c.1+1) ks.2).bind fun cs => some (.internal ks.1 cs.1, cs.2)
    | _ => none
/-- Decode a fixed number of consecutive nodes. -/
def decNodes : Nat → Nat → List Nat → Option (NodeList × List Nat)
  | _, 0, l => some (.nil, l)
  | 0, _+1, _ => none
  | fuel+1, c+1, l =>
    (decNode fuel l).bind fun p =>
      (decNodes fuel c p.2).bind fun q => some (.cons p.1 q.1, q.2)
end

/-- Modelled from the spec: blob encoding of a whole tree (a nil root gets
its own marker byte, distinct from both node flags). -/
def encTree (t : BPTree) : List Nat :=
  match t.root with
  | none => [2]
  | some r => encNode r

/-- Modelled from the spec: decoding of a tree blob; the whole blob must be
consumed. -/
def decTree (l : List Nat) : Option BPTree :=
  if l = [2] then some ⟨none⟩
  else
    (decNode (l.length + 1) l).bind fun p =>
      if p.2.isEmpty then some ⟨some p.1⟩ else none

/-- Trees reachable from `New()` by successful `Insert` / `Delete` calls. -/
inductive TreeReach : BPTree → Prop where
  | new : TreeReach BPTree.new
  | ins {t t2 : BPTree} {k v : Str} :
      TreeReach t → BPTree.insert t k v = some t2 → TreeReach t2
  | del {t t2 : BPTree} {k : Str} {b : Bool} :
      TreeReach t → BPTree.delete t k = some (t2, b) → TreeReach t2

/-! ## The paged store (`internal/pager2/pager.go`) -/

/-- Page size in bytes (`pager2.PageSize`). -/
def PageSize : Nat := 4096

/-- Chain-page header: next pointer (8 bytes) plus payload length (4 bytes). -/
def headerSize : Nat := 12

/-- Payload capacity of one chain page. -/
def capPerPage : Nat := PageSize - headerSize

/-- One page of the data file, with the chain header decoded: Go keeps a raw
4096-byte buffer whose bytes 0..8 hold the little-endian next pointer, bytes
8..12 the little-endian payload length, and bytes 12.. the body; the
fixed-width little-endian round trip is implicit in this representation. -/
structure Page where
  next : Nat
  dataLen : Nat
  body : List Nat
  deriving DecidableEq

/-- One record of the write-ahead log. Go frames records as a 17-byte header
plus payload; the byte framing is abstracted and records kept structured
(no claim here concerns partially written records). -/
inductive WalRec where
  | store (tableID : Nat) (blob : List Nat)
  | delete (tableID : Nat)
  deriving DecidableEq

/-- Observable effects of a pager call, in execution order. A `metaFlush` is
Go `flushMeta` (which ends in a data-file fsync, hence is always followed by
`dataFsync` here); `walFsync` is `walSync`; `walTruncate` is `truncateWAL`. -/
inductive Ev where
  | walAppendStore (tableID : Nat) (blobLen : Nat)
  | walAppendDelete (tableID : Nat)
  | walFsync
  | walTruncate
  | pageWrite (pid : Nat)
  | fileExtend
  | metaFlush
  | dataFsync
  deriving DecidableEq

/-- State of a `pager2.Pager`: the page file, the decoded metadata held on
page 0, and the WAL. The LRU cache is omitted: it is write-through and returns
copies, so it never changes any result (the spec gives it no correctness
role). -/
structure PagerS where
  pages : List Page
  tables : List (Str × Nat)
  nextTableID : Nat
  tableHead : List (Nat × Nat)
  freeList : Nat
  wal : List WalRec
  deriving DecidableEq

/-- Go map read `m[tid]` on `TableHead`: zero when the key is absent. -/
def headLookup (th : List (Nat × Nat)) (tid : Nat) : Nat :=
  match th.find? (fun e => e.1 == tid) with
  | some e => e.2
  | none => 0

/-- Go map write `m[tid] = v`. -/
def headSet (th : List (Nat × Nat)) (tid v : Nat) : List (Nat × Nat) :=
  if th.any (fun e => e.1 == tid) then
    th.map (fun e => if e.1 == tid then (tid, v) else e)
  else th ++ [(tid, v)]

/-- Go map `delete(m, tid)`. -/
def headDel (th : List (Nat × Nat)) (tid : Nat) : List (Nat × Nat) :=
  th.filter (fun e => e.1 != tid)

/-- Go `readPage` without the cache: a read past EOF is an I/O error. -/
def readPage (s : PagerS) (pid : Nat) : Option Page := s.pages[pid]?

/-- Go `writePage`: overwrite one page in place. -/
def writePage (s : PagerS) (pid : Nat) (pg : Page) : Option PagerS :=
  if pid < s.pages.length then some { s with pages := s.pages.set pid pg } else none

/-- A fresh all-zero page, as produced by extending the file. -/
def zeroPage : Page := { next := 0, dataLen := 0, body := List.replicate capPerPage 0 }

/-- Go `freeChain`, with an explicit iteration budget: the Go loop runs until
the next pointer is zero, and under the store invariant every chain is shorter
than the page count, so the budget callers supply is never exhausted. Each
visited page is pushed onto the free list head-first (LIFO). -/
def freeChainF : Nat → PagerS → Nat → Option (PagerS × List Ev)
  | _, s, 0 => some (s, [])
  | 0, _, _ => none
  | fuel+1, s, pid =>
    match readPage s pid with
    | none => none
    | some pg =>
      match writePage s pid { pg with next := s.freeList } with
      | none => none
      | some s1 =>
        match freeChainF fuel { s1 with freeList := pid } pg.next with
        | none => none
        | some (s2, tr) => some (s2, Ev.pageWrite pid :: tr)

/-- Go `allocPage`: pop the free-list head, or extend the file by one page. -/
def allocPage (s : PagerS) : Option (PagerS × Nat × List Ev) :=
  if s.freeList ≠ 0 then
    match readPage s s.freeList with
    | none => none
    | some pg =>
      match writePage { s with freeList := pg.next } s.freeList { pg with next := 0 } with
      | none => none
      | some s1 => some (s1, s.freeList, [Ev.pageWrite s.freeList])
  else
    some ({ s with pages := s.pages ++ [zeroPage] }, s.pages.length, [Ev.fileExtend])

/-- Body of a freshly written chain page: the chunk padded with zero bytes to
the page capacity (Go copies the chunk into a zeroed 4096-byte buffer). -/
def padChunk (c : List Nat) : List Nat := c ++ List.replicate (capPerPage - c.length) 0

/-- The chunking of `StoreTableBlob`: split the blob into pieces of at most
`capPerPage` bytes (structural via a budget that always suffices). -/
def chunkListAux : Nat → List Nat → List (List Nat)
  | _, [] => []
  | 0, _ => []
  | fuel+1, b => b.take capPerPage :: chunkListAux fuel (b.drop capPerPage)

def chunkList (b : List Nat) : List (List Nat) := chunkListAux b.length b

/-- The allocation-and-write loop of `StoreTableBlob`: allocate one page per
chunk and write it, next pointer still zero (linking happens afterwards). -/
def writeBlobPages : PagerS → List (List Nat) → Option (PagerS × List Nat × List Ev)
  | s, [] => some (s, [], [])
  | s, c :: cs =>
    match allocPage s with
    | none => none
    | some (s1, pid, tr1) =>
      match writePage s1 pid { next := 0, dataLen := c.length, body := padChunk c } with
      | none => none
      | some s2 =>
        match writeBlobPages s2 cs with
        | none => none
        | some (s3, pids, tr) => some (s3, pid :: pids, tr1 ++ Ev.pageWrite pid :: tr)

/-- The linking loop of `StoreTableBlob`: rewrite each written page with the
next pointer to its successor (zero for the last). -/
def linkPages : PagerS → List Nat → Option (PagerS × List Ev)
  | s, [] => some (s, [])
  | s, pid :: rest =>
    let nxt := match rest with | [] => 0 | q :: _ => q
    match readPage s pid with
    | none => none
    | some pg =>
      match writePage s pid { pg with next := nxt } with
      | none => none
      | some s1 =>
        match linkPages s1 rest with
        | none => none
        | some (s2, tr) => some (s2, Ev.pageWrite pid :: tr)

/-- The chain-freeing prologue shared by `StoreTableBlob` and the `STORE`
branch of `replayWAL`: when the table has a chain, free it and reset its
head to zero. -/
def storeFree (s : PagerS) (tid : Nat) : Option (PagerS × List Ev) :=
  if headLookup s.tableHead tid ≠ 0 then
    match freeChainF s.pages.length s (headLookup s.tableHead tid) with
    | none => none
    | some (s1, tr1) => some ({ s1 with tableHead := headSet s1.tableHead tid 0 }, tr1)
  else some (s, [])

/-- Shared body of `StoreTableBlob` and the `STORE` branch of `replayWAL`:
free the previous chain (resetting its head to zero), then, for a non-empty
blob, write and link a new chain and point `TableHead` at it. The meta
flushes and syncs of the two callers differ and are appended by them. -/
def storeCore (s : PagerS) (tid : Nat) (blob : List Nat) : Option (PagerS × List Ev) :=
  match storeFree s tid with
  | none => none
  | some (s1, tr1) =>
    if blob.isEmpty then some (s1, tr1)
    else
      match writeBlobPages s1 (chunkList blob) with
      | none => none
      | some (s2, pids, tr2) =>
        match linkPages s2 pids with
        | none => none
        | some (s3, tr3) =>
          match pids with
          | [] => none
          | p0 :: _ =>
            some ({ s3 with tableHead := headSet s3.tableHead tid p0 }, tr1 ++ tr2 ++ tr3)

/-- Go `StoreTableBlob`: append a `STORE` record to the WAL, free the old
chain, write and link the new one, flush the meta page (which itself fsyncs
the data file), fsync the data file, and finally fsync — not truncate — the
WAL. On the empty-blob path the call returns right after the meta flush and
the WAL fsync. -/
def storeTableBlob (s : PagerS) (tid : Nat) (blob : List Nat) : Option (PagerS × List Ev) :=
  match storeCore { s with wal := s.wal ++ [WalRec.store tid blob] } tid blob with
  | none => none
  | some (s1, trm) =>
    some (s1, Ev.walAppendStore tid blob.length :: trm ++
      (if blob.isEmpty then [Ev.metaFlush, Ev.dataFsync, Ev.walFsync]
       else [Ev.metaFlush, Ev.dataFsync, Ev.dataFsync, Ev.walFsync]))

/-- Go `DeleteTableBlob`: append a `DELETE` record, and when a chain exists
free it, remove the `TableHead` entry and flush meta; fsync the WAL last. -/
def deleteTableBlob (s : PagerS) (tid : Nat) : Option (PagerS × List Ev) :=
  let s0 : PagerS := { s with wal := s.wal ++ [WalRec.delete tid] }
  if headLookup s0.tableHead tid = 0 then
    some (s0, [Ev.walAppendDelete tid, Ev.walFsync])
  else
    match freeChainF s0.pages.length s0 (headLookup s0.tableHead tid) with
    | none => none
    | some (s1, tr1) =>
      some ({ s1 with tableHead := headDel s1.tableHead tid },
            Ev.walAppendDelete tid :: tr1 ++ [Ev.metaFlush, Ev.dataFsync, Ev.walFsync])

/-- The chain walk of `LoadTableBlob`, with an explicit budget: the Go loop
has no bound at all, so an exhausted budget (`none`) means the walk is still
running after visiting that many pages — on a cyclic chain this holds for
every budget. `some none` is Go's `(nil, false)` return (used both for an
absent blob and for a bad payload length or read error); `some (some b)` is
`(b, true)`. -/
def walkChain (ps : List Page) : Nat → Nat → Option (Option (List Nat))
  | _, 0 => some (some [])
  | 0, _ => none
  | fuel+1, pid =>
    match ps[pid]? with
    | none => some none
    | some pg =>
      if PageSize < headerSize + pg.dataLen then some none
      else
        match walkChain ps fuel pg.next with
        | none => none
        | some none => some none
        | some (some rest) => some (some (pg.body.take pg.dataLen ++ rest))

/-- Go `LoadTableBlob` with an explicit walk budget. -/
def loadTableBlobF (s : PagerS) (tid : Nat) (fuel : Nat) : Option (Option (List Nat)) :=
  if headLookup s.tableHead tid = 0 then some none
  else walkChain s.pages fuel (headLookup s.tableHead tid)

/-- Go `LoadTableBlob`; the budget `pages.length` suffices for every chain
the store invariant allows. -/
def loadTableBlob (s : PagerS) (tid : Nat) : Option (Option (List Nat)) :=
  loadTableBlobF s tid s.pages.length

/-- The `STORE` branch of Go `replayWAL`: apply the record without logging,
then flush meta. -/
def applyStore (s : PagerS) (tid : Nat) (blob : List Nat) : Option (PagerS × List Ev) :=
  match storeCore s tid blob with
  | none => none
  | some (s1, tr) => some (s1, tr ++ [Ev.metaFlush, Ev.dataFsync])

/-- The `DELETE` branch of Go `replayWAL`: free the chain when present, always
remove the `TableHead` entry, then flush meta. -/
def applyDelete (s : PagerS) (tid : Nat) : Option (PagerS × List Ev) :=
  let freed : Option (PagerS × List Ev) :=
    if headLookup s.tableHead tid ≠ 0 then
      freeChainF s.pages.length s (headLookup s.tableHead tid)
    else some (s, [])
  match freed with
  | none => none
  | some (s1, tr1) =>
    some ({ s1 with tableHead := headDel s1.tableHead tid }, tr1 ++ [Ev.metaFlush, Ev.dataFsync])

/-- The record loop of Go `replayWAL`. -/
def replayRecs : PagerS → List WalRec → Option (PagerS × List Ev)
  | s, [] => some (s, [])
  | s, r :: rs =>
    let step := match r with
      | WalRec.store tid blob => applyStore s tid blob
      | WalRec.delete tid => applyDelete s tid
    match step with
    | none => none
    | some (s1, tr1) =>
      match replayRecs s1 rs with
      | none => none
      | some (s2, tr2) => some (s2, tr1 ++ tr2)

/-- Go `Open` on an existing database file: the meta image is loaded (already
present in the state here), the WAL replayed, then truncated. -/
def reopen (s : PagerS) : Option (PagerS × List Ev) :=
  match replayRecs s s.wal with
  | none => none
  | some (s1, tr) => some ({ s1 with wal := [] }, tr ++ [Ev.walTruncate])

/-- Go `Open` on a fresh file (shorter than one page): one zero page with an
empty meta image; no replay happens on this path. -/
def initState : PagerS :=
  { pages := [zeroPage], tables := [], nextTableID := 0, tableHead := [],
    freeList := 0, wal := [] }

/-- Chain of page ids starting at `head`, when it reaches the terminating
zero within the budget. -/
def chainListF (ps : List Page) : Nat → Nat → Option (List Nat)
  | _, 0 => some []
  | 0, _ => none
  | fuel+1, pid =>
    match ps[pid]? with
    | none => none
    | some pg =>
      match chainListF ps fuel pg.next with
      | none => none
      | some l => some (pid :: l)

/-- Table-head entries that point at a chain. -/
def liveHeads (s : PagerS) : List Nat :=
  (s.tableHead.filter (fun e => e.2 != 0)).map (fun e => e.2)

/-- Free-list conservation (spec §8, property 3): the free-list pages and the
pages of the table chains are pairwise distinct and, together with meta
page 0, exhaust exactly the pages of the file. -/
def pagePartitionHolds (s : PagerS) : Bool :=
  match chainListF s.pages s.pages.length s.freeList,
        (liveHeads s).mapM (chainListF s.pages s.pages.length) with
  | some fl, some cls =>
    let owned := fl ++ cls.flatten
    decide owned.Nodup &&
      (List.range s.pages.length).all (fun p => decide ((p ∈ owned) ↔ p ≠ 0))
  | _, _ => false

/-- States reachable from a freshly opened store by successful
`StoreTableBlob` / `DeleteTableBlob` calls. -/
inductive Reachable : PagerS → Prop where
  | init : Reachable initState
  | store {s s2 : PagerS} {tid : Nat} {blob : List Nat} {tr : List Ev} :
      Reachable s → storeTableBlob s tid blob = some (s2, tr) → Reachable s2
  | delete {s s2 : PagerS} {tid : Nat} {tr : List Ev} :
      Reachable s → deleteTableBlob s tid = some (s2, tr) → Reachable s2

/-! ## Chain structure predicates and the store invariant -/

/-- The page-id chain starting at `head`: follow `next` pointers down to the
zero terminator. -/
inductive Chain (ps : List Page) : Nat → List Nat → Prop where
  | nil : Chain ps 0 []
  | cons {pid : Nat} {pg : Page} {rest : List Nat} :
      pid ≠ 0 → ps[pid]? = some pg → Chain ps pg.next rest → Chain ps pid (pid :: rest)

/-- A chain whose pages hold the given payload chunks. -/
inductive ChainData (ps : List Page) : Nat → List (List Nat) → Prop where
  | nil : ChainData ps 0 []
  | cons {pid : Nat} {pg : Page} {c : List Nat} {cs : List (List Nat)} :
      pid ≠ 0 → ps[pid]? = some pg → pg.dataLen = c.length →
      pg.body.take pg.dataLen = c → headerSize + pg.dataLen ≤ PageSize →
      ChainData ps pg.next cs → ChainData ps pid (c :: cs)

/-- Ownership partition of the pages: the free list and the per-table chains
are disjoint, made of valid non-meta page ids, and cover all of them. -/
def PartitionW (s : PagerS) (fl : List Nat) (cf : Nat → List Nat) : Prop :=
  Chain s.pages s.freeList fl ∧
  (∀ tid, Chain s.pages (headLookup s.tableHead tid) (cf tid)) ∧
  fl.Nodup ∧ (∀ tid, (cf tid).Nodup) ∧
  (∀ tid p, p ∈ fl → p ∈ cf tid → False) ∧
  (∀ tid tid2, tid ≠ tid2 → ∀ p, p ∈ cf tid → p ∈ cf tid2 → False) ∧
  (∀ p, (p ∈ fl ∨ ∃ tid, p ∈ cf tid) ↔ (p ≠ 0 ∧ p < s.pages.length))

/-- The store invariant: page 0 exists, page bodies have the page capacity,
the `TableHead` keys are unique, and the ownership partition holds. -/
def Inv (s : PagerS) : Prop :=
  0 < s.pages.length ∧
  (∀ pg ∈ s.pages, pg.body.length = capPerPage) ∧
  (s.tableHead.map Prod.fst).Nodup ∧
  ∃ fl cf, PartitionW s fl cf

/-- Mid-store ownership partition: like `PartitionW` but with a further set
`extra` of pages already carved out of the free list (or freshly appended)
for the chain being written, not yet pointed to by any head. -/
def Partition2 (s : PagerS) (fl : List Nat) (cf : Nat → List Nat) (extra : List Nat) : Prop :=
  Chain s.pages s.freeList fl ∧
  (∀ tid, Chain s.pages (headLookup s.tableHead tid) (cf tid)) ∧
  fl.Nodup ∧ (∀ tid, (cf tid).Nodup) ∧ extra.Nodup ∧
  (∀ tid p, p ∈ fl → p ∈ cf tid → False) ∧
  (∀ tid tid2, tid ≠ tid2 → ∀ p, p ∈ cf tid → p ∈ cf tid2 → False) ∧
  (∀ p, p ∈ extra → p ∈ fl → False) ∧
  (∀ tid p, p ∈ extra → p ∈ cf tid → False) ∧
  (∀ p, (p ∈ fl ∨ p ∈ extra ∨ ∃ tid, p ∈ cf tid) ↔ (p ≠ 0 ∧ p < s.pages.length))

/-! ## Concrete objects used by witnesses and counterexamples -/

/-- Insert a list of pairs in order, stopping on a panic. -/
def insertAll (t : BPTree) : List (Str × Str) → Option BPTree
  | [] => some t
  | (k, v) :: rest =>
    match t.insert k v with
    | none => none
    | some t2 => insertAll t2 rest

/-- Instrumented version of `insertAll`. -/
def insertAllL (t : BPTreeL) : List (Str × Str) → Option BPTreeL
  | [] => some t
  | (k, v) :: rest =>
    match t.insert k v with
    | none => none
    | some t2 => insertAllL t2 rest

/-- The keys `a b c d e` of spec scenario B, with values `A B C D E`. -/
def scenarioB : List (Str × Str) :=
  [([97], [65]), ([98], [66]), ([99], [67]), ([100], [68]), ([101], [69])]

/-- The tree after inserting scenario B in order. -/
def treeAfter5 : BPTree := (insertAll BPTree.new scenarioB).getD ⟨none⟩

/-- The tree after inserting `a b c` in order (a full leaf root). -/
def treeAfter3 : BPTree := (insertAll BPTree.new (scenarioB.take 3)).getD ⟨none⟩

/-- The instrumented tree after inserting `a b c d` in order. -/
def treeAfter4L : BPTreeL := (insertAllL BPTreeL.new (scenarioB.take 4)).getD BPTreeL.new

/-- A state whose table 1 chain declares an oversized payload length. -/
def corruptState : PagerS :=
  { pages := [zeroPage, { next := 0, dataLen := capPerPage + 1, body := [] }],
    tables := [], nextTableID := 0, tableHead := [(1, 1)], freeList := 0, wal := [] }

/-- A state whose table 1 chain is a self-loop: page 1 points at itself. -/
def cyclicState : PagerS :=
  { pages := [zeroPage, { next := 1, dataLen := 0, body := [] }],
    tables := [], nextTableID := 0, tableHead := [(1, 1)], freeList := 0, wal := [] }

/-- Result of storing the two-byte blob `[7, 8]` for table 1 on a fresh store. -/
def storeDemo : PagerS × List Ev := (storeTableBlob initState 1 [7, 8]).getD (initState, [])

/-- Keys strictly increasing along a list (the per-node key invariant). -/
def sortedB : List Str → Bool
  | [] => true
  | [_] => true
  | a :: b :: r => strLtB a b && sortedB (b :: r)

mutual
/-- Structural length invariant: a leaf has as many values as keys, an
internal node one more child than keys. -/
def lenOKN : Node → Bool
  | .leaf ks vs => ks.length == vs.length
  | .internal ks cs => (cs.length == ks.length + 1) && lenOKL cs
def lenOKL : NodeList → Bool
  | .nil => true
  | .cons c rest => lenOKN c && lenOKL rest
end

mutual
/-- Keys strictly increasing within every node of a subtree. -/
def sortedKeysN : Node → Bool
  | .leaf ks _ => sortedB ks
  | .internal ks cs => sortedB ks && sortedKeysL cs
def sortedKeysL : NodeList → Bool
  | .nil => true
  | .cons c rest => sortedKeysN c && sortedKeysL rest
end

def treeLenOK (t : BPTree) : Bool :=
  match t.root with
  | none => true
  | some r => lenOKN r

def treeSortedKeys (t : BPTree) : Bool :=
  match t.root with
  | none => true
  | some r => sortedKeysN r

mutual
/-- Size measure used for the totality induction. -/
def sizeN : Node → Nat
  | .leaf _ _ => 1
  | .internal _ cs => sizeL cs + 1
def sizeL : NodeList → Nat
  | .nil => 0
  | .cons c rest => sizeN c + sizeL rest + 1
end

/-- Lower bound check: `lo ≤ key` (a `none` bound is unbounded). -/
def loOK : Option Str → Str → Bool
  | none, _ => true
  | some lo, k => ! strLtB k lo

/-- Upper bound check: `key < hi` (a `none` bound is unbounded). -/
def hiOK : Option Str → Str → Bool
  | none, _ => true
  | some hi, k => strLtB k hi

mutual
/-- Search-tree invariant (spec §4.3) with explicit bounds: all keys of the
subtree lie in `[lo, hi)`, node keys are strictly increasing, lengths match,
and child `i` is keyed between the neighbouring separators. -/
def boundedN : Option Str → Option Str → Node → Bool
  | lo, hi, .leaf ks vs =>
    (ks.length == vs.length) && sortedB ks &&
    ks.all (fun k => loOK lo k && hiOK hi k)
  | lo, hi, .internal ks cs =>
    (cs.length == ks.length + 1) && sortedB ks &&
    ks.all (fun k => loOK lo k && hiOK hi k) && boundedC lo hi ks cs
/-- Child bounds: `c₀ ∈ [lo, k₀)`, `cᵢ₊₁ ∈ [kᵢ, kᵢ₊₁)`, last child in
`[k_last, hi)`. -/
def boundedC : Option Str → Option Str → List Str → NodeList → Bool
  | lo, hi, [], .cons c .nil => boundedN lo hi c
  | lo, hi, k :: ks, .cons c rest => boundedN lo (some k) c && boundedC (some k) hi ks rest
  | _, _, _, _ => false
end

def treeBounded (t : BPTree) : Bool :=
  match t.root with
  | none => true
  | some r => boundedN none none r

mutual
/-- Shape of a node: everything except the stored values. -/
def stripN : Node → Node
  | .leaf ks _ => .leaf ks []
  | .internal ks cs => .internal ks (stripL cs)
def stripL : NodeList → NodeList
  | .nil => .nil
  | .cons c rest => .cons (stripN c) (stripL rest)
end

/-- Shape of a tree: its nodes and keys, with the values erased. -/
def stripT (t : BPTree) : BPTree :=
  match t.root with
  | none => ⟨none⟩
  | some r => ⟨some (stripN r)⟩

/-- Replace the value bound to `key`, leaving every other pair unchanged. -/
def replacePair (key val : Str) (l : List (Str × Str)) : List (Str × Str) :=
  l.map (fun p => if p.1 = key then (key, val) else p)

/-- Keys of the subtree, in order. -/
def nodeKeysN (n : Node) : List Str := (nodePairs n).map Prod.fst

/-- Keys below a child list, in order. -/
def nodeKeysL (cs : NodeList) : List Str := (nodeListPairs cs).map Prod.fst

/-- Is the root a full leaf (the preemptive-split trigger of `Insert`)? -/
def rootFullLeaf (t : BPTree) : Bool :=
  match t.root with
  | some (.leaf ks _) => Order - 1 ≤ ks.length
  | _ => false

/-! ## Order lemmas for the byte-string comparison -/

theorem strLtB_irrefl : ∀ a : Str, strLtB a a = false := by
  intro a
  induction a with
  | nil => rfl
  | cons x xs ih => simp [strLtB, ih]

theorem strLtB_trans : ∀ a b c : Str,
    strLtB a b = true → strLtB b c = true → strLtB a c = true := by
  intro a
  induction a with
  | nil =>
    intro b c hab hbc
    cases b with
    | nil => simp [strLtB] at hab
    | cons y ys =>
      cases c with
      | nil => simp [strLtB] at hbc
      | cons z zs => simp [strLtB]
  | cons x xs ih =>
    intro b c hab hbc
    cases b with
    | nil => simp [strLtB] at hab
    | cons y ys =>
      cases c with
      | nil => simp [strLtB] at hbc
      | cons z zs =>
        simp only [strLtB] at hab hbc ⊢
        rcases Nat.lt_trichotomy x y with h1 | h1 | h1
        · rcases Nat.lt_trichotomy y z with h2 | h2 | h2
          · simp [Nat.lt_trans h1 h2]
          · subst h2; simp [h1]
          · simp [h1, Nat.lt_asymm h1] at hab ⊢
            simp [h2, Nat.lt_asymm h2] at hbc
        · subst h1
          simp [Nat.lt_irrefl] at hab ⊢
          rcases Nat.lt_trichotomy x z with h2 | h2 | h2
          · simp [h2]
          · subst h2; simp [Nat.lt_irrefl] at hbc ⊢; exact ih _ _ hab hbc
          · simp [h2, Nat.lt_asymm h2] at hbc
        · simp [Nat.lt_asymm h1, h1] at hab

theorem strLtB_eq_of_not : ∀ a b : Str,
    strLtB a b = false → strLtB b a = false → a = b := by
  intro a
  induction a with
  | nil =>
    intro b hab _
    cases b with
    | nil => rfl
    | cons y ys => simp [strLtB] at hab
  | cons x xs ih =>
    intro b hab hba
    cases b with
    | nil => simp [strLtB] at hba
    | cons y ys =>
      simp only [strLtB] at hab hba
      rcases Nat.lt_trichotomy x y with h1 | h1 | h1
      · simp [h1] at hab
      · subst h1
        simp [Nat.lt_irrefl] at hab hba
        exact congrArg (x :: ·) (ih ys hab hba)
      · simp [h1, Nat.lt_asymm h1] at hba

theorem strLtB_asymm {a b : Str} (h : strLtB a b = true) : strLtB b a = false := by
  cases hx : strLtB b a with
  | false => rfl
  | true =>
    have := strLtB_trans a b a h hx
    rw [strLtB_irrefl] at this
    exact Bool.noConfusion this

theorem strLtB_not_trans {a b c : Str}
    (hab : strLtB a b = false) (hbc : strLtB b c = false) : strLtB a c = false := by
  cases hac : strLtB a c with
  | false => rfl
  | true =>
    cases hx : strLtB c b with
    | false =>
      cases hy : strLtB b a with
      | false =>
        have hcb := strLtB_eq_of_not _ _ hbc hx
        have hba := strLtB_eq_of_not _ _ hab hy
        subst hcb hba
        rw [strLtB_irrefl] at hac
        exact Bool.noConfusion hac
      | true =>
        have := strLtB_trans b a c hy hac
        rw [this] at hbc
        exact Bool.noConfusion hbc
    | true =>
      have := strLtB_trans a c b hac hx
      rw [this] at hab
      exact Bool.noConfusion hab

theorem strLtB_lt_of_lt_of_not {a b c : Str}
    (hab : strLtB a b = true) (hcb : strLtB c b = false) : strLtB a c = true := by
  cases hx : strLtB a c with
  | true => rfl
  | false =>
    have := strLtB_not_trans hx hcb
    rw [hab] at this
    exact Bool.noConfusion this

/-! ## Binary-search lemmas -/

theorem goSearchAux_le (f : Nat → Bool) :
    ∀ fuel i j, i ≤ j → goSearchAux f fuel i j ≤ j := by
  intro fuel
  induction fuel with
  | zero => intro i j h; simpa [goSearchAux]
  | succ fuel ih =>
    intro i j h
    simp only [goSearchAux]
    by_cases hij : i < j
    · simp only [hij, if_true]
      by_cases hf : f ((i + j) / 2)
      · simp only [hf, if_true]
        exact Nat.le_trans (ih i ((i + j) / 2) (by omega)) (by omega)
      · simp only [hf, if_false]
        exact ih ((i + j) / 2 + 1) j (by omega)
    · simpa [hij]

theorem goSearchAux_spec (f : Nat → Bool) (n : Nat)
    (hm : ∀ a b, a ≤ b → b < n → f a = true → f b = true) :
    ∀ fuel i j, i ≤ j → j ≤ n → j - i ≤ fuel →
      (∀ m, m < i → f m = false) → (j < n → f j = true) →
      (∀ m, m < goSearchAux f fuel i j → f m = false) ∧
      (goSearchAux f fuel i j < n → f (goSearchAux f fuel i j) = true) ∧
      i ≤ goSearchAux f fuel i j ∧ goSearchAux f fuel i j ≤ j := by
  intro fuel
  induction fuel with
  | zero =>
    intro i j hij hjn hfuel hlo hhi
    have hij2 : i = j := by omega
    subst hij2
    simp only [goSearchAux]
    exact ⟨hlo, hhi, Nat.le_refl i, Nat.le_refl i⟩
  | succ fuel ih =>
    intro i j hij hjn hfuel hlo hhi
    simp only [goSearchAux]
    by_cases h : i < j
    · simp only [h, if_true]
      by_cases hf : f ((i + j) / 2)
      · simp only [hf, if_true]
        have hr := ih i ((i + j) / 2) (by omega) (by omega) (by omega) hlo (fun _ => hf)
        exact ⟨hr.1, hr.2.1, hr.2.2.1, Nat.le_trans hr.2.2.2 (by omega)⟩
      · simp only [hf, if_false]
        have hf2 : f ((i + j) / 2) = false := by
          cases hx : f ((i + j) / 2) with
          | false => rfl
          | true => exact absurd hx hf
        have hlo2 : ∀ m, m < (i + j) / 2 + 1 → f m = false := by
          intro m hm2
          by_cases hmi : m < i
          · exact hlo m hmi
          · cases hfm : f m with
            | false => rfl
            | true =>
              have := hm m ((i + j) / 2) (by omega) (by omega) hfm
              rw [this] at hf2
              exact Bool.noConfusion hf2
        have hr := ih ((i + j) / 2 + 1) j (by omega) hjn (by omega) hlo2 hhi
        exact ⟨hr.1, hr.2.1, Nat.le_trans (by omega) hr.2.2.1, hr.2.2.2⟩
    · simp only [h, if_false]
      have hij2 : i = j := by omega
      subst hij2
      exact ⟨hlo, hhi, Nat.le_refl i, Nat.le_refl i⟩

theorem goSearch_le (f : Nat → Bool) (n : Nat) : goSearch f n ≤ n :=
  goSearchAux_le f n 0 n (Nat.zero_le n)

theorem goSearch_spec (f : Nat → Bool) (n : Nat)
    (hm : ∀ a b, a ≤ b → b < n → f a = true → f b = true) :
    (∀ m, m < goSearch f n → f m = false) ∧
    (goSearch f n < n → f (goSearch f n) = true) := by
  have := goSearchAux_spec f n hm n 0 n (Nat.zero_le n) (Nat.le_refl n)
    (by omega) (fun m hm2 => absurd hm2 (Nat.not_lt_zero m)) (fun h => absurd h (Nat.lt_irrefl n))
  exact ⟨this.1, this.2.1⟩

/-! ## Sortedness lemmas -/

theorem sortedB_tail : ∀ {x : Str} {l : List Str}, sortedB (x :: l) = true →
    sortedB l = true ∧ ∀ j, j < l.length → strLtB x (l.getD j []) = true := by
  intro x l
  induction l generalizing x with
  | nil =>
    intro _
    exact ⟨rfl, fun j hj => absurd hj (by simp)⟩
  | cons y ys ih =>
    intro h
    simp only [sortedB, Bool.and_eq_true] at h
    obtain ⟨hxy, hrest⟩ := h
    refine ⟨hrest, ?_⟩
    intro j hj
    cases j with
    | zero => simpa using hxy
    | succ j =>
      have := (ih hrest).2 j (by simp at hj; omega)
      simp only [List.getD_cons_succ]
      exact strLtB_trans _ _ _ hxy this

theorem sortedB_pairwise : ∀ {l : List Str}, sortedB l = true →
    ∀ i j, i < j → j < l.length → strLtB (l.getD i []) (l.getD j []) = true := by
  intro l
  induction l with
  | nil => intro _ i j _ hj; simp at hj
  | cons x xs ih =>
    intro h i j hij hj
    obtain ⟨hxs, hhead⟩ := sortedB_tail h
    cases i with
    | zero =>
      cases j with
      | zero => omega
      | succ j =>
        simp only [List.getD_cons_zero, List.getD_cons_succ]
        exact hhead j (by simp at hj; omega)
    | succ i =>
      cases j with
      | zero => omega
      | succ j =>
        simp only [List.getD_cons_succ]
        exact ih hxs i j (by omega) (by simp at hj; omega)

/-! ## Search lemmas for the tree descent -/

theorem upperBound_le (ks : List Str) (key : Str) : upperBound ks key ≤ ks.length :=
  goSearch_le _ _

theorem upperBound_mono {ks : List Str} {key : Str} (hs : sortedB ks = true) :
    ∀ a b, a ≤ b → b < ks.length →
      strLtB key (ks.getD a []) = true → strLtB key (ks.getD b []) = true := by
  intro a b hab hb hfa
  rcases Nat.lt_or_ge a b with h | h
  · exact strLtB_trans _ _ _ hfa (sortedB_pairwise hs a b h hb)
  · have : a = b := by omega
    subst this; exact hfa

theorem upperBound_lo {ks : List Str} {key : Str} (hs : sortedB ks = true) :
    ∀ m, m < upperBound ks key → strLtB key (ks.getD m []) = false :=
  (goSearch_spec _ _ (upperBound_mono hs)).1

theorem upperBound_hi {ks : List Str} {key : Str} (hs : sortedB ks = true) :
    upperBound ks key < ks.length →
      strLtB key (ks.getD (upperBound ks key) []) = true :=
  (goSearch_spec _ _ (upperBound_mono hs)).2

theorem searchStrings_le (ks : List Str) (key : Str) : searchStrings ks key ≤ ks.length :=
  goSearch_le _ _

theorem searchStrings_mono {ks : List Str} {key : Str} (hs : sortedB ks = true) :
    ∀ a b, a ≤ b → b < ks.length →
      (! strLtB (ks.getD a []) key) = true → (! strLtB (ks.getD b []) key) = true := by
  intro a b hab hb hfa
  simp only [Bool.not_eq_eq_eq_not, Bool.not_true] at hfa ⊢
  cases hfb : strLtB (ks.getD b []) key with
  | false => rfl
  | true =>
    rcases Nat.lt_or_ge a b with h | h
    · have := strLtB_trans _ _ _ (sortedB_pairwise hs a b h hb) hfb
      rw [this] at hfa
      exact Bool.noConfusion hfa
    · have : a = b := by omega
      subst this
      rw [hfb] at hfa
      exact Bool.noConfusion hfa

theorem searchStrings_lo {ks : List Str} {key : Str} (hs : sortedB ks = true) :
    ∀ m, m < searchStrings ks key → strLtB (ks.getD m []) key = true := by
  intro m hmlt
  have h2 : (! strLtB (ks.getD m []) key) = false :=
    (goSearch_spec _ _ (searchStrings_mono hs)).1 m hmlt
  cases hx : strLtB (ks.getD m []) key with
  | true => rfl
  | false =>
    rw [hx] at h2
    exact Bool.noConfusion h2

theorem searchStrings_hi {ks : List Str} {key : Str} (hs : sortedB ks = true) :
    searchStrings ks key < ks.length →
      strLtB (ks.getD (searchStrings ks key) []) key = false := by
  intro h
  have h2 : (! strLtB (ks.getD (searchStrings ks key) []) key) = true :=
    (goSearch_spec _ _ (searchStrings_mono hs)).2 h
  cases hx : strLtB (ks.getD (searchStrings ks key) []) key with
  | false => rfl
  | true =>
    rw [hx] at h2
    exact Bool.noConfusion h2

/-- A present key is found by `sort.SearchStrings` at a valid index. -/
theorem searchStrings_found {ks : List Str} {key : Str}
    (hs : sortedB ks = true) (hmem : key ∈ ks) :
    searchStrings ks key < ks.length ∧ ks.getD (searchStrings ks key) [] = key := by
  obtain ⟨j, hj, hjeq⟩ := List.mem_iff_getElem.mp hmem
  have hjget : ks.getD j [] = key := by
    rw [List.getD_eq_getElem?_getD, List.getElem?_eq_getElem hj, Option.getD_some, hjeq]
  have hjle : searchStrings ks key ≤ j := by
    by_contra hc
    have hlo := @searchStrings_lo ks key hs j (by omega)
    rw [hjget, strLtB_irrefl] at hlo
    exact Bool.noConfusion hlo
  have hlt : searchStrings ks key < ks.length := by omega
  have hhi := searchStrings_hi hs hlt
  refine ⟨hlt, ?_⟩
  rcases Nat.lt_or_ge (searchStrings ks key) j with h | h
  · have hpw := sortedB_pairwise hs _ j h hj
    rw [hjget] at hpw
    rw [hpw] at hhi
    exact Bool.noConfusion hhi
  · have hje : searchStrings ks key = j := by omega
    rw [hje, hjget]

/-- An absent key is never found: at the `sort.SearchStrings` index the key
differs. -/
theorem searchStrings_not_found {ks : List Str} {key : Str}
    (hmem : key ∉ ks) (h : searchStrings ks key < ks.length) :
    ks.getD (searchStrings ks key) [] ≠ key := by
  intro he
  apply hmem
  rw [← he, List.getD_eq_getElem?_getD, List.getElem?_eq_getElem h, Option.getD_some]
  exact List.getElem_mem h

/-! ## Totality of the tree operations under the structural invariants -/

theorem listInsertAt_length {l : List α} {i : Nat} (a : α) (h : i ≤ l.length) :
    (listInsertAt l i a).length = l.length + 1 := by
  simp [listInsertAt]
  omega

theorem nodeListInsertAt_length : ∀ (cs : NodeList) (i : Nat) (x : Node),
    (cs.insertAt i x).length = cs.length + 1
  | .nil, 0, _ => rfl
  | .cons _ _, 0, _ => rfl
  | .nil, _+1, _ => rfl
  | .cons c rest, i+1, x => by
    simp [NodeList.insertAt, NodeList.length, nodeListInsertAt_length rest i x]

theorem insertChild_length : ∀ (cs : NodeList) (i : Nat) (key val : Str)
    (cs2 : NodeList) (g : Option (Node × Str)),
    insertChild cs i key val = some (cs2, g) → cs2.length = cs.length
  | .nil, i, key, val, cs2, g => by
    intro h
    simp [insertChild] at h
  | .cons c rest, 0, key, val, cs2, g => by
    intro h
    simp only [insertChild] at h
    cases h2 : insertRec c key val with
    | none => rw [h2] at h; exact Option.noConfusion h
    | some p =>
      rw [h2] at h
      cases h
      rfl
  | .cons c rest, i+1, key, val, cs2, g => by
    intro h
    simp only [insertChild] at h
    cases h2 : insertChild rest i key val with
    | none => rw [h2] at h; exact Option.noConfusion h
    | some p =>
      rw [h2] at h
      cases h
      simp [NodeList.length, insertChild_length rest i key val p.1 p.2 h2]

theorem splitLeafGo_isSome {ks vs : List Str}
    (hne : ks.length ≠ 0) (hkv : vs.length = ks.length) :
    (splitLeafGo ks vs).isSome := by
  have hmid : ks.length / 2 < ks.length := by omega
  have hlt : 0 < (ks.drop (ks.length / 2)).length := by
    rw [List.length_drop]
    omega
  have hsep := List.getElem?_eq_getElem hlt
  simp only [splitLeafGo, hsep]
  rw [if_pos (by omega)]
  rfl

theorem splitInternalGo_isSome {ks : List Str} {cs : NodeList}
    (hne : ks.length ≠ 0) (hlen : ks.length + 1 ≤ cs.length) :
    (splitInternalGo ks cs).isSome := by
  have hmid : ks.length / 2 < ks.length := by omega
  have hsep := List.getElem?_eq_getElem hmid
  simp only [splitInternalGo, hsep]
  rw [if_pos (by omega)]
  rfl

theorem tree_ops_total (key val : Str) :
    ∀ m : Nat,
      (∀ n : Node, sizeN n ≤ m → lenOKN n = true →
        (getNode n key).isSome ∧ (insertRec n key val).isSome ∧ (deleteNode n key).isSome) ∧
      (∀ cs : NodeList, sizeL cs ≤ m → lenOKL cs = true → ∀ i, i < cs.length →
        (getChild cs i key).isSome ∧ (insertChild cs i key val).isSome ∧
        (deleteChild cs i key).isSome) := by
  intro m
  induction m with
  | zero =>
    constructor
    · intro n hsz
      cases n with
      | leaf ks vs => simp [sizeN] at hsz
      | internal ks cs => simp [sizeN] at hsz
    · intro cs hsz hlen i hi
      cases cs with
      | nil => simp [NodeList.length] at hi
      | cons c rest => simp [sizeL] at hsz
  | succ m ih =>
    constructor
    · intro n hsz hlen
      cases n with
      | leaf ks vs =>
        have hkv : ks.length = vs.length := by
          simpa [lenOKN] using hlen
        refine ⟨?_, ?_, ?_⟩
        · simp only [getNode]
          by_cases hcond : searchStrings ks key < ks.length ∧
              ks.getD (searchStrings ks key) [] = key
          · rw [if_pos hcond]
            have hv := List.getElem?_eq_getElem
              (show searchStrings ks key < vs.length by omega)
            rw [hv]
            rfl
          · rw [if_neg hcond]
            rfl
        · simp only [insertRec]
          by_cases hcond : searchStrings ks key < ks.length ∧
              ks.getD (searchStrings ks key) [] = key
          · rw [if_pos hcond]
            have hv := List.getElem?_eq_getElem
              (show searchStrings ks key < vs.length by omega)
            rw [hv]
            rfl
          · rw [if_neg hcond]
            have hle : searchStrings ks key ≤ ks.length := searchStrings_le ks key
            have hlk : (listInsertAt ks (searchStrings ks key) key).length =
                ks.length + 1 := listInsertAt_length key hle
            have hlv : (listInsertAt vs (searchStrings ks key) val).length =
                vs.length + 1 := listInsertAt_length val (by omega)
            by_cases hfull : (listInsertAt ks (searchStrings ks key) key).length ≤ Order - 1
            · rw [if_pos hfull]
              rfl
            · rw [if_neg hfull]
              have := @splitLeafGo_isSome (listInsertAt ks (searchStrings ks key) key)
                (listInsertAt vs (searchStrings ks key) val)
                (by omega) (by omega)
              obtain ⟨⟨l, sep, r⟩, hx⟩ := Option.isSome_iff_exists.mp this
              rw [hx]
              rfl
        · simp only [deleteNode]
          by_cases hcond : searchStrings ks key < ks.length ∧
              ks.getD (searchStrings ks key) [] = key
          · rw [if_pos hcond, if_pos (by omega)]
            rfl
          · rw [if_neg hcond]
            rfl
      | internal ks cs =>
        have hsz2 : sizeL cs ≤ m := by
          simp only [sizeN] at hsz
          omega
        have hlen2 : cs.length = ks.length + 1 ∧ lenOKL cs = true := by
          simpa [lenOKN] using hlen
        have hidx : upperBound ks key < cs.length := by
          have := upperBound_le ks key
          omega
        have hch := (ih.2 cs hsz2 hlen2.2 (upperBound ks key) hidx)
        refine ⟨?_, ?_, ?_⟩
        · simp only [getNode]
          exact hch.1
        · simp only [insertRec]
          obtain ⟨⟨cs2, g⟩, hx⟩ := Option.isSome_iff_exists.mp hch.2.1
          simp only [hx]
          cases g with
          | none => rfl
          | some rs =>
            obtain ⟨right, sep⟩ := rs
            have hcs2 : cs2.length = cs.length := insertChild_length _ _ _ _ _ _ hx
            have hlk : (listInsertAt ks (upperBound ks key) sep).length = ks.length + 1 :=
              listInsertAt_length sep (upperBound_le ks key)
            show (if (listInsertAt ks (upperBound ks key) sep).length ≤ Order - 1 then
                some (Node.internal (listInsertAt ks (upperBound ks key) sep)
                  (cs2.insertAt (upperBound ks key + 1) right), (none : Option (Node × Str)))
              else splitInternalGo (listInsertAt ks (upperBound ks key) sep)
                (cs2.insertAt (upperBound ks key + 1) right)).isSome = true
            by_cases hfull : (listInsertAt ks (upperBound ks key) sep).length ≤ Order - 1
            · rw [if_pos hfull]
              rfl
            · rw [if_neg hfull]
              have := @splitInternalGo_isSome
                (listInsertAt ks (upperBound ks key) sep)
                (cs2.insertAt (upperBound ks key + 1) right)
                (by omega) (by rw [nodeListInsertAt_length]; omega)
              obtain ⟨p, hp⟩ := Option.isSome_iff_exists.mp this
              rw [hp]
              rfl
        · simp only [deleteNode]
          obtain ⟨⟨cs2, b⟩, hx⟩ := Option.isSome_iff_exists.mp hch.2.2
          rw [hx]
          rfl
    · intro cs hsz hlen i hi
      cases cs with
      | nil => simp [NodeList.length] at hi
      | cons c rest =>
        have hsz2 : sizeN c ≤ m ∧ sizeL rest ≤ m := by
          simp only [sizeL] at hsz
          omega
        have hlen2 : lenOKN c = true ∧ lenOKL rest = true := by
          simpa [lenOKL] using hlen
        cases i with
        | zero =>
          have hc := ih.1 c hsz2.1 hlen2.1
          refine ⟨?_, ?_, ?_⟩
          · simp only [getChild]
            exact hc.1
          · simp only [insertChild]
            obtain ⟨⟨c2, g⟩, hx⟩ := Option.isSome_iff_exists.mp hc.2.1
            rw [hx]
            rfl
          · simp only [deleteChild]
            obtain ⟨⟨c2, b⟩, hx⟩ := Option.isSome_iff_exists.mp hc.2.2
            rw [hx]
            rfl
        | succ i =>
          have hi2 : i < rest.length := by
            simp only [NodeList.length] at hi
            omega
          have hr := ih.2 rest hsz2.2 hlen2.2 i hi2
          refine ⟨?_, ?_, ?_⟩
          · simp only [getChild]
            exact hr.1
          · simp only [insertChild]
            obtain ⟨⟨rest2, g⟩, hx⟩ := Option.isSome_iff_exists.mp hr.2.1
            rw [hx]
            rfl
          · simp only [deleteChild]
            obtain ⟨⟨rest2, b⟩, hx⟩ := Option.isSome_iff_exists.mp hr.2.2
            rw [hx]
            rfl

/-! ## Lemmas about bounds, keys and the descent index -/

theorem sortedB_head_mem {k : Str} {ks : List Str} (hs : sortedB (k :: ks) = true) :
    ∀ k0 ∈ ks, strLtB k k0 = true := by
  intro k0 hk0
  obtain ⟨j, hj, hjeq⟩ := List.mem_iff_getElem.mp hk0
  have := (sortedB_tail hs).2 j hj
  rw [List.getD_eq_getElem?_getD, List.getElem?_eq_getElem hj, Option.getD_some, hjeq] at this
  exact this

theorem nodeKeysL_cons (c : Node) (rest : NodeList) :
    nodeKeysL (.cons c rest) = nodeKeysN c ++ nodeKeysL rest := by
  simp [nodeKeysL, nodeKeysN, nodeListPairs]

theorem nodeKeysN_leaf {ks vs : List Str} (h : ks.length = vs.length) :
    nodeKeysN (.leaf ks vs) = ks := by
  simp only [nodeKeysN, nodePairs]
  exact List.map_fst_zip ks vs (by omega)

mutual
theorem boundedN_keys : ∀ (n : Node) (lo hi : Option Str), boundedN lo hi n = true →
    ∀ k, k ∈ nodeKeysN n → loOK lo k = true ∧ hiOK hi k = true
  | .leaf ks vs, lo, hi => by
    intro h k hk
    simp only [boundedN, Bool.and_eq_true] at h
    obtain ⟨⟨hlen, hsort⟩, hall⟩ := h
    have hkks : k ∈ ks := by
      simp only [nodeKeysN, nodePairs] at hk
      obtain ⟨⟨a, b⟩, hab, heq⟩ := List.mem_map.mp hk
      exact heq ▸ (List.of_mem_zip hab).1
    have := List.all_eq_true.mp hall k hkks
    simpa [Bool.and_eq_true] using this
  | .internal ks cs, lo, hi => by
    intro h k hk
    simp only [boundedN, Bool.and_eq_true] at h
    obtain ⟨⟨⟨hlen, hsort⟩, hall⟩, hbc⟩ := h
    refine boundedC_keys cs ks lo hi hbc hsort ?_ k hk
    intro k0 hk0
    have := List.all_eq_true.mp hall k0 hk0
    simpa [Bool.and_eq_true] using this
theorem boundedC_keys : ∀ (cs : NodeList) (ks : List Str) (lo hi : Option Str),
    boundedC lo hi ks cs = true → sortedB ks = true →
    (∀ k0 ∈ ks, loOK lo k0 = true ∧ hiOK hi k0 = true) →
    ∀ k, k ∈ nodeKeysL cs → loOK lo k = true ∧ hiOK hi k = true
  | .nil, ks, lo, hi => by
    intro h
    cases ks <;> simp [boundedC] at h
  | .cons c .nil, [], lo, hi => by
    intro h _ _ k hk
    rw [nodeKeysL_cons] at hk
    rcases List.mem_append.mp hk with hk | hk
    · exact boundedN_keys c lo hi (by simpa [boundedC] using h) k hk
    · simp [nodeKeysL, nodeListPairs] at hk
  | .cons c (.cons c2 rest), [], lo, hi => by
    intro h
    simp [boundedC] at h
  | .cons c rest, k0 :: ks, lo, hi => by
    intro h hsort hbnds k hk
    simp only [boundedC, Bool.and_eq_true] at h
    obtain ⟨hc, hrest⟩ := h
    have hk0b := hbnds k0 (List.mem_cons_self k0 ks)
    rw [nodeKeysL_cons] at hk
    rcases List.mem_append.mp hk with hk | hk
    · have := boundedN_keys c lo (some k0) hc k hk
      refine ⟨this.1, ?_⟩
      cases hi with
      | none => rfl
      | some h2 =>
        have hkk0 : strLtB k k0 = true := this.2
        have hk0h : strLtB k0 h2 = true := hk0b.2
        exact strLtB_trans _ _ _ hkk0 hk0h
    · have := boundedC_keys rest ks (some k0) hi hrest (sortedB_tail hsort).1 ?_ k hk
      · refine ⟨?_, this.2⟩
        cases lo with
        | none => rfl
        | some l2 =>
          have hk0lo : (! strLtB k0 l2) = true := hk0b.1
          have hkk0 : (! strLtB k k0) = true := this.1
          simp only [Bool.not_eq_eq_eq_not, Bool.not_true] at hk0lo hkk0
          show (! strLtB k l2) = true
          simp [strLtB_not_trans hkk0 hk0lo]
      · intro k1 hk1
        constructor
        · have := sortedB_head_mem hsort k1 hk1
          simpa [loOK] using strLtB_asymm this
        · exact (hbnds k1 (List.mem_cons_of_mem k0 hk1)).2
end

/-- A monotone search has a unique fixed specification value. -/
theorem goSearch_unique (f : Nat → Bool) (n : Nat)
    (hm : ∀ a b, a ≤ b → b < n → f a = true → f b = true) (u : Nat)
    (hu1 : u ≤ n) (hu2 : ∀ m, m < u → f m = false) (hu3 : u < n → f u = true) :
    goSearch f n = u := by
  have hle := goSearch_le f n
  have hspec := goSearch_spec f n hm
  rcases Nat.lt_trichotomy (goSearch f n) u with h | h | h
  · have h1 := hspec.2 (by omega)
    have h2 := hu2 _ h
    rw [h1] at h2
    exact Bool.noConfusion h2
  · exact h
  · have h1 := hspec.1 u h
    have h2 := hu3 (by omega)
    rw [h2] at h1
    exact Bool.noConfusion h1

/-- The descent index past a smaller head key: with `key < k` refuted, the
`upperBound` of `k :: ks` is one past the `upperBound` of `ks`. -/
theorem upperBound_cons_ge {k key : Str} {ks : List Str}
    (hge : strLtB key k = false) (hs : sortedB (k :: ks) = true) :
    upperBound (k :: ks) key = upperBound ks key + 1 := by
  apply goSearch_unique _ _ (upperBound_mono hs)
  · have h1 := upperBound_le ks key
    simp only [List.length_cons]
    omega
  · intro m hm
    cases m with
    | zero => simpa using hge
    | succ m =>
      have := @upperBound_lo ks key (sortedB_tail hs).1 m (by omega)
      simpa using this
  · intro hlt
    have := @upperBound_hi ks key (sortedB_tail hs).1 (by simp at hlt; omega)
    simpa using this

/-- The descent index below a larger head key: with `key < k`, the
`upperBound` of `k :: ks` is zero. -/
theorem upperBound_cons_lt {k key : Str} {ks : List Str}
    (hlt : strLtB key k = true) (hs : sortedB (k :: ks) = true) :
    upperBound (k :: ks) key = 0 := by
  apply goSearch_unique _ _ (upperBound_mono hs)
  · omega
  · intro m hm
    omega
  · intro _
    simpa using hlt

/-! ## Replacement of a present key -/

theorem replacePair_append (key val : Str) (a b : List (Str × Str)) :
    replacePair key val (a ++ b) = replacePair key val a ++ replacePair key val b :=
  List.map_append _ a b

theorem replacePair_of_not_mem {key : Str} (val : Str) {l : List (Str × Str)}
    (h : key ∉ l.map Prod.fst) : replacePair key val l = l := by
  induction l with
  | nil => rfl
  | cons p rest ih =>
    simp only [List.map_cons, List.mem_cons, not_or] at h
    simp only [replacePair, List.map_cons]
    rw [if_neg (fun he => h.1 he.symm)]
    have := ih h.2
    simp only [replacePair] at this
    rw [this]

theorem zip_set_replacePair : ∀ (ks vs : List Str) (i : Nat) (key val : Str),
    ks.length = vs.length → i < ks.length → ks.getD i [] = key →
    (∀ j, j < ks.length → j ≠ i → ks.getD j [] ≠ key) →
    ks.zip (vs.set i val) = replacePair key val (ks.zip vs) := by
  intro ks
  induction ks with
  | nil =>
    intro vs i key val _ hi
    simp at hi
  | cons k ks ih =>
    intro vs i key val hlen hi hkey hothers
    cases vs with
    | nil => simp at hlen
    | cons v vs =>
      cases i with
      | zero =>
        simp only [List.getD_cons_zero] at hkey
        subst hkey
        simp only [List.set_cons_zero, List.zip_cons_cons, replacePair, List.map_cons]
        rw [if_pos trivial]
        have hnm : k ∉ (ks.zip vs).map Prod.fst := by
          intro hmem
          obtain ⟨⟨a, b⟩, hab, heq⟩ := List.mem_map.mp hmem
          have hain : a ∈ ks := (List.of_mem_zip hab).1
          obtain ⟨j, hj, hjeq⟩ := List.mem_iff_getElem.mp hain
          refine hothers (j+1) (by simp; omega) (by omega) ?_
          rw [List.getD_cons_succ, List.getD_eq_getElem?_getD,
            List.getElem?_eq_getElem hj, Option.getD_some, hjeq]
          exact heq
        have := replacePair_of_not_mem val hnm
        simp only [replacePair] at this
        rw [this]
      | succ i =>
        have hk : k ≠ key := hothers 0 (by simp) (by omega)
        simp only [List.set_cons_succ, List.zip_cons_cons, replacePair, List.map_cons]
        rw [if_neg (by simpa using hk)]
        have := ih vs i key val (by simpa using hlen) (by simp at hi; omega)
          (by simpa using hkey)
          (by
            intro j hj hji
            have := hothers (j+1) (by simp; omega) (by omega)
            simpa using this)
        simp only [replacePair] at this
        rw [this]

/-- In a leaf with sorted keys, the found index is the unique occurrence. -/
theorem sorted_unique_key {ks : List Str} {key : Str} {i : Nat}
    (hs : sortedB ks = true) (hi : i < ks.length) (hkey : ks.getD i [] = key) :
    ∀ j, j < ks.length → j ≠ i → ks.getD j [] ≠ key := by
  intro j hj hji he
  rcases Nat.lt_trichotomy j i with h | h | h
  · have := sortedB_pairwise hs j i h hi
    rw [he, hkey, strLtB_irrefl] at this
    exact Bool.noConfusion this
  · exact hji h
  · have := sortedB_pairwise hs i j h hj
    rw [he, hkey, strLtB_irrefl] at this
    exact Bool.noConfusion this

mutual
/-- Go `insertRecursive` on a key already present in a bounded subtree:
no split, the shape is unchanged, and only the value bound to the key is
replaced in the pair sequence. -/
theorem insertRec_present : ∀ (n : Node) (lo hi : Option Str) (key val : Str),
    boundedN lo hi n = true → key ∈ nodeKeysN n →
    ∃ n2, insertRec n key val = some (n2, none) ∧ stripN n2 = stripN n ∧
      nodePairs n2 = replacePair key val (nodePairs n)
  | .leaf ks vs, lo, hi, key, val => by
    intro hb hmem
    simp only [boundedN, Bool.and_eq_true] at hb
    obtain ⟨⟨hlen, hsort⟩, _⟩ := hb
    have hlen2 : ks.length = vs.length := by simpa using hlen
    have hmem2 : key ∈ ks := by rwa [nodeKeysN_leaf hlen2] at hmem
    obtain ⟨hflt, hfeq⟩ := searchStrings_found hsort hmem2
    simp only [insertRec]
    rw [if_pos ⟨hflt, hfeq⟩]
    have hv := List.getElem?_eq_getElem (show searchStrings ks key < vs.length by omega)
    rw [hv]
    refine ⟨_, rfl, rfl, ?_⟩
    show ks.zip (vs.set (searchStrings ks key) val) = replacePair key val (ks.zip vs)
    exact zip_set_replacePair ks vs _ key val hlen2 hflt hfeq
      (sorted_unique_key hsort hflt hfeq)
  | .internal ks cs, lo, hi, key, val => by
    intro hb hmem
    simp only [boundedN, Bool.and_eq_true] at hb
    obtain ⟨⟨⟨hlen, hsort⟩, hall⟩, hbc⟩ := hb
    have hbnds : ∀ k0 ∈ ks, loOK lo k0 = true ∧ hiOK hi k0 = true := by
      intro k0 hk0
      have := List.all_eq_true.mp hall k0 hk0
      simpa [Bool.and_eq_true] using this
    obtain ⟨cs2, heq, hstrip, hpairs⟩ :=
      insertChild_present cs ks lo hi key val hbc hsort hbnds hmem
    simp only [insertRec]
    rw [heq]
    refine ⟨_, rfl, ?_, ?_⟩
    · simp only [stripN]
      rw [hstrip]
    · simpa only [nodePairs] using hpairs
/-- Go indexing step for a present key: the `upperBound` descent enters the
unique child that can hold the key. -/
theorem insertChild_present : ∀ (cs : NodeList) (ks : List Str) (lo hi : Option Str)
    (key val : Str),
    boundedC lo hi ks cs = true → sortedB ks = true →
    (∀ k0 ∈ ks, loOK lo k0 = true ∧ hiOK hi k0 = true) →
    key ∈ nodeKeysL cs →
    ∃ cs2, insertChild cs (upperBound ks key) key val = some (cs2, none) ∧
      stripL cs2 = stripL cs ∧
      nodeListPairs cs2 = replacePair key val (nodeListPairs cs)
  | .nil, ks, lo, hi, key, val => by
    intro hb
    cases ks <;> simp [boundedC] at hb
  | .cons c .nil, [], lo, hi, key, val => by
    intro hb _ _ hmem
    have hbn : boundedN lo hi c = true := by simpa [boundedC] using hb
    have hmem2 : key ∈ nodeKeysN c := by
      rw [nodeKeysL_cons] at hmem
      rcases List.mem_append.mp hmem with h | h
      · exact h
      · simp [nodeKeysL, nodeListPairs] at h
    obtain ⟨c2, heq, hstrip, hpairs⟩ := insertRec_present c lo hi key val hbn hmem2
    refine ⟨.cons c2 .nil, ?_, ?_, ?_⟩
    · show insertChild (.cons c .nil) 0 key val = some (.cons c2 .nil, none)
      simp only [insertChild]
      rw [heq]
    · simp only [stripL]
      rw [hstrip]
    · simp only [nodeListPairs, List.append_nil]
      exact hpairs
  | .cons c (.cons c2 rest), [], lo, hi, key, val => by
    intro hb
    simp [boundedC] at hb
  | .cons c rest, k0 :: ks, lo, hi, key, val => by
    intro hb hsort hbnds hmem
    simp only [boundedC, Bool.and_eq_true] at hb
    obtain ⟨hc, hrest⟩ := hb
    have hbndsrest : ∀ k1 ∈ ks, loOK (some k0) k1 = true ∧ hiOK hi k1 = true := by
      intro k1 hk1
      refine ⟨?_, (hbnds k1 (List.mem_cons_of_mem k0 hk1)).2⟩
      have := sortedB_head_mem hsort k1 hk1
      simpa [loOK] using strLtB_asymm this
    rw [nodeKeysL_cons] at hmem
    cases hx : strLtB key k0 with
    | true =>
      have hmem2 : key ∈ nodeKeysN c := by
        rcases List.mem_append.mp hmem with h | h
        · exact h
        · have := (boundedC_keys rest ks (some k0) hi hrest (sortedB_tail hsort).1
            hbndsrest key h).1
          simp only [loOK, hx] at this
          exact Bool.noConfusion this
      have hnotr : key ∉ nodeKeysL rest := by
        intro h
        have := (boundedC_keys rest ks (some k0) hi hrest (sortedB_tail hsort).1
          hbndsrest key h).1
        simp only [loOK, hx] at this
        exact Bool.noConfusion this
      obtain ⟨c2, heq, hstrip, hpairs⟩ := insertRec_present c lo (some k0) key val hc hmem2
      rw [upperBound_cons_lt hx hsort]
      refine ⟨.cons c2 rest, ?_, ?_, ?_⟩
      · simp only [insertChild]
        rw [heq]
      · simp only [stripL]
        rw [hstrip]
      · simp only [nodeListPairs]
        rw [hpairs, replacePair_append]
        rw [replacePair_of_not_mem val hnotr]
    | false =>
      have hnotc : key ∉ nodeKeysN c := by
        intro h
        have := (boundedN_keys c lo (some k0) hc key h).2
        simp only [hiOK] at this
        rw [this] at hx
        exact Bool.noConfusion hx
      have hmem2 : key ∈ nodeKeysL rest := by
        rcases List.mem_append.mp hmem with h | h
        · exact absurd h hnotc
        · exact h
      obtain ⟨cs2, heq, hstrip, hpairs⟩ := insertChild_present rest ks (some k0) hi key val
        hrest (sortedB_tail hsort).1 hbndsrest hmem2
      rw [upperBound_cons_ge hx hsort]
      refine ⟨.cons c cs2, ?_, ?_, ?_⟩
      · simp only [insertChild]
        rw [heq]
      · simp only [stripL]
        rw [hstrip]
      · simp only [nodeListPairs]
        rw [hpairs, replacePair_append]
        rw [replacePair_of_not_mem val hnotc]
end

/-! ## The preemptive root split -/

theorem sortedB_take : ∀ (m : Nat) (l : List Str), sortedB l = true →
    sortedB (l.take m) = true
  | 0, _, _ => rfl
  | _+1, [], _ => rfl
  | m+1, [a], _ => by cases m <;> rfl
  | m+1, a :: b :: r, h => by
    cases m with
    | zero => rfl
    | succ m =>
      simp only [sortedB, Bool.and_eq_true] at h
      show sortedB (a :: b :: List.take m r) = true
      have := sortedB_take (m+1) (b :: r) h.2
      simp only [sortedB, Bool.and_eq_true]
      exact ⟨h.1, this⟩

theorem sortedB_drop : ∀ (m : Nat) (l : List Str), sortedB l = true →
    sortedB (l.drop m) = true
  | 0, _, h => h
  | _+1, [], _ => rfl
  | m+1, _ :: r, h => sortedB_drop m r (sortedB_tail h).1

theorem splitLeafGo_eq {ks vs : List Str} (hne : ks.length ≠ 0)
    (hlen : vs.length = ks.length) :
    splitLeafGo ks vs = some (.leaf (ks.take (ks.length/2)) (vs.take (ks.length/2)),
      (ks.drop (ks.length/2)).getD 0 [],
      .leaf (ks.drop (ks.length/2)) (vs.drop (ks.length/2))) := by
  have hlt : 0 < (ks.drop (ks.length/2)).length := by
    rw [List.length_drop]; omega
  have hsep := List.getElem?_eq_getElem hlt
  have hg : (ks.drop (ks.length/2)).getD 0 [] = (ks.drop (ks.length/2))[0] := by
    rw [List.getD_eq_getElem?_getD, List.getElem?_eq_getElem hlt, Option.getD_some]
  simp only [splitLeafGo, hsep]
  rw [if_pos (by omega), hg]

theorem zip_take_drop : ∀ (m : Nat) (ks vs : List Str), ks.length = vs.length →
    (ks.take m).zip (vs.take m) ++ (ks.drop m).zip (vs.drop m) = ks.zip vs
  | 0, ks, vs, _ => rfl
  | _+1, [], vs, h => by
    have : vs = [] := by
      cases vs with
      | nil => rfl
      | cons v vs => simp at h
    subst this
    rfl
  | m+1, k :: ks, vs, h => by
    cases vs with
    | nil => simp at h
    | cons v vs =>
      simp only [List.take_succ_cons, List.drop_succ_cons, List.zip_cons_cons,
        List.cons_append]
      rw [zip_take_drop m ks vs (by simpa using h)]

/-- The root produced by the preemptive split of a full sorted leaf is a
bounded search tree. -/
theorem preemptive_bounded {ks vs : List Str} (hne : ks.length ≠ 0)
    (hlen : ks.length = vs.length) (hsort : sortedB ks = true) :
    boundedN none none (.internal [(ks.drop (ks.length/2)).getD 0 []]
      (.cons (.leaf (ks.take (ks.length/2)) (vs.take (ks.length/2)))
        (.cons (.leaf (ks.drop (ks.length/2)) (vs.drop (ks.length/2))) .nil))) = true := by
  have hmid : ks.length / 2 < ks.length := by omega
  have hg : (ks.drop (ks.length/2)).getD 0 [] = ks[ks.length/2] := by
    have hlt : 0 < (ks.drop (ks.length/2)).length := by
      rw [List.length_drop]; omega
    rw [List.getD_eq_getElem?_getD, List.getElem?_eq_getElem hlt, Option.getD_some]
    simp [List.getElem_drop]
  simp only [boundedN, boundedC, Bool.and_eq_true]
  refine ⟨⟨⟨rfl, rfl⟩, by simp [loOK, hiOK]⟩,
    ⟨⟨by simp [List.length_take]; omega, sortedB_take _ _ hsort⟩, ?_⟩,
    ⟨⟨by simp [List.length_drop]; omega, sortedB_drop _ _ hsort⟩, ?_⟩⟩
  · -- left leaf keys lie below the separator
    rw [List.all_eq_true]
    intro k hk
    obtain ⟨j, hj, hjeq⟩ := List.mem_iff_getElem.mp hk
    have hjlt : j < ks.length / 2 := by
      have := hj
      rw [List.length_take] at this
      omega
    have hb2 : j < ks.length := by omega
    have hjk : (ks.take (ks.length/2))[j] = ks[j] := List.getElem_take ..
    simp only [loOK, hiOK, Bool.true_and, hg]
    rw [← hjeq, hjk]
    have := sortedB_pairwise hsort j (ks.length/2) hjlt hmid
    rw [List.getD_eq_getElem?_getD, List.getElem?_eq_getElem (by omega : j < ks.length),
      Option.getD_some, List.getD_eq_getElem?_getD, List.getElem?_eq_getElem hmid,
      Option.getD_some] at this
    exact this
  · -- right leaf keys lie at or above the separator
    rw [List.all_eq_true]
    intro k hk
    obtain ⟨j, hj, hjeq⟩ := List.mem_iff_getElem.mp hk
    have hjlt : ks.length / 2 + j < ks.length := by
      have := hj
      rw [List.length_drop] at this
      omega
    have hjk : (ks.drop (ks.length/2))[j] = ks[ks.length/2 + j] :=
      List.getElem_drop ..
    simp only [loOK, hiOK, Bool.and_true, hg]
    rw [← hjeq, hjk]
    cases j with
    | zero =>
      simp only [Nat.add_zero]
      simp [strLtB_irrefl]
    | succ j =>
      have := sortedB_pairwise hsort (ks.length/2) (ks.length/2 + (j+1)) (by omega) hjlt
      rw [List.getD_eq_getElem?_getD, List.getElem?_eq_getElem hmid,
        Option.getD_some, List.getD_eq_getElem?_getD, List.getElem?_eq_getElem hjlt,
        Option.getD_some] at this
      simp [strLtB_asymm this]

/-! ## Round trip of the canonical tree codec -/

theorem decVar_encVarAux : ∀ (fuel n : Nat) (rest : List Nat), n ≤ fuel →
    decVar (encVarAux fuel n ++ rest) = some (n, rest) := by
  intro fuel
  induction fuel with
  | zero =>
    intro n rest h
    have hn : n = 0 := by omega
    subst hn
    rfl
  | succ fuel ih =>
    intro n rest h
    simp only [encVarAux]
    by_cases hn : n < 128
    · rw [if_pos hn]
      simp [decVar, hn]
    · rw [if_neg hn]
      simp only [List.cons_append, decVar, List.append_eq]
      rw [if_neg (by omega), ih (n / 128) rest (by omega)]
      simp
      omega

theorem decVar_encVar (n : Nat) (rest : List Nat) :
    decVar (encVar n ++ rest) = some (n, rest) :=
  decVar_encVarAux n n rest (Nat.le_refl n)

theorem decStr_encStr (s : Str) (rest : List Nat) :
    decStr (encStr s ++ rest) = some (s, rest) := by
  simp only [encStr, List.append_assoc, decStr, decVar_encVar, Option.some_bind]
  rw [if_pos (by simp)]
  rw [List.take_left, List.drop_left]

theorem decStrs_encStrs : ∀ (ss : List Str) (rest : List Nat),
    decStrs ss.length ((ss.map encStr).flatten ++ rest) = some (ss, rest) := by
  intro ss
  induction ss with
  | nil => intro rest; rfl
  | cons s ss ih =>
    intro rest
    simp only [List.map_cons, List.flatten_cons, List.append_assoc, List.length_cons,
      decStrs, decStr_encStr, Option.some_bind, ih]

theorem decNode_encNode : ∀ fuel : Nat,
    (∀ (n : Node) (rest : List Nat), sizeN n ≤ fuel → lenOKN n = true →
      decNode fuel (encNode n ++ rest) = some (n, rest)) ∧
    (∀ (cs : NodeList) (rest : List Nat), sizeL cs ≤ fuel → lenOKL cs = true →
      decNodes fuel cs.length (encNodeList cs ++ rest) = some (cs, rest)) := by
  intro fuel
  induction fuel with
  | zero =>
    constructor
    · intro n rest hsz
      cases n <;> simp [sizeN] at hsz
    · intro cs rest hsz hlen
      cases cs with
      | nil => rfl
      | cons c r => simp [sizeL] at hsz
  | succ fuel ih =>
    constructor
    · intro n rest hsz hlen
      cases n with
      | leaf ks vs =>
        have hkv : ks.length = vs.length := by simpa [lenOKN] using hlen
        simp only [encNode, List.cons_append, List.append_assoc, decNode]
        simp only [decVar_encVar, Option.some_bind, decStrs_encStrs]
        rw [hkv, decStrs_encStrs, Option.some_bind]
      | internal ks cs =>
        have hlen2 : cs.length = ks.length + 1 ∧ lenOKL cs = true := by
          simpa [lenOKN] using hlen
        have hsz2 : sizeL cs ≤ fuel := by
          simp only [sizeN] at hsz
          omega
        simp only [encNode, List.cons_append, List.append_assoc, decNode]
        simp only [decVar_encVar, Option.some_bind, decStrs_encStrs]
        rw [← hlen2.1, (ih.2 cs rest hsz2 hlen2.2), Option.some_bind]
    · intro cs rest hsz hlen
      cases cs with
      | nil => rfl
      | cons c r =>
        have hsz2 : sizeN c ≤ fuel ∧ sizeL r ≤ fuel := by
          simp only [sizeL] at hsz
          omega
        have hlen2 : lenOKN c = true ∧ lenOKL r = true := by
          simpa [lenOKL] using hlen
        show decNodes (fuel+1) (r.length + 1) ((encNode c ++ encNodeList r) ++ rest) =
          some (.cons c r, rest)
        simp only [List.append_assoc, decNodes]
        rw [ih.1 c (encNodeList r ++ rest) hsz2.1 hlen2.1, Option.some_bind,
          ih.2 r rest hsz2.2 hlen2.2, Option.some_bind]

theorem encVarAux_length_pos : ∀ (fuel n : Nat), 0 < (encVarAux fuel n).length
  | 0, n => by simp [encVarAux]
  | fuel+1, n => by
    simp only [encVarAux]
    by_cases hn : n < 128
    · rw [if_pos hn]; simp
    · rw [if_neg hn]; simp

mutual
theorem sizeN_lt_encNode : ∀ n : Node, sizeN n + 1 ≤ (encNode n).length
  | .leaf ks vs => by
    have := encVarAux_length_pos ks.length ks.length
    simp only [sizeN, encNode, List.length_cons, List.length_append, encVar]
    omega
  | .internal ks cs => by
    have h1 := encVarAux_length_pos ks.length ks.length
    have h2 := sizeL_le_encNodeList cs
    simp only [sizeN, encNode, List.length_cons, List.length_append, encVar]
    omega
theorem sizeL_le_encNodeList : ∀ cs : NodeList, sizeL cs ≤ (encNodeList cs).length
  | .nil => Nat.le_refl _
  | .cons c r => by
    have h1 := sizeN_lt_encNode c
    have h2 := sizeL_le_encNodeList r
    simp only [sizeL, encNodeList, List.length_append]
    omega
end

/-- Round trip of the modelled canonical codec on any tree whose node
lengths are consistent. -/
theorem decTree_encTree {t : BPTree} (h : treeLenOK t = true) :
    decTree (encTree t) = some t := by
  obtain ⟨root⟩ := t
  cases root with
  | none => rfl
  | some r =>
    have hlen : lenOKN r = true := h
    have hfuel : sizeN r ≤ (encNode r).length + 1 := by
      have := sizeN_lt_encNode r
      omega
    have hdec := (decNode_encNode ((encNode r).length + 1)).1 r [] hfuel hlen
    rw [List.append_nil] at hdec
    show decTree (encNode r) = some ⟨some r⟩
    have hne : encNode r ≠ [2] := by
      cases r <;> simp [encNode]
    rw [decTree, if_neg hne, hdec, Option.some_bind]
    simp

/-! ## The length invariant is preserved by insert and delete -/

theorem nodeListTake_length : ∀ (cs : NodeList) (m : Nat),
    (cs.take m).length = min m cs.length
  | _, 0 => by simp [NodeList.take, NodeList.length]
  | .nil, m+1 => by simp [NodeList.take, NodeList.length]
  | .cons c rest, m+1 => by
    simp [NodeList.take, NodeList.length, nodeListTake_length rest m]
    omega

theorem nodeListDrop_length : ∀ (cs : NodeList) (m : Nat),
    (cs.drop m).length = cs.length - m
  | _, 0 => by simp [NodeList.drop]
  | .nil, m+1 => by simp [NodeList.drop, NodeList.length]
  | .cons c rest, m+1 => by
    simp [NodeList.drop, NodeList.length, nodeListDrop_length rest m]

theorem lenOKL_take : ∀ (cs : NodeList) (m : Nat), lenOKL cs = true →
    lenOKL (cs.take m) = true
  | .nil, 0, _ => rfl
  | .cons _ _, 0, _ => rfl
  | .nil, _+1, _ => rfl
  | .cons c rest, m+1, h => by
    simp only [lenOKL, Bool.and_eq_true] at h
    simp only [NodeList.take, lenOKL, Bool.and_eq_true]
    exact ⟨h.1, lenOKL_take rest m h.2⟩

theorem lenOKL_drop : ∀ (cs : NodeList) (m : Nat), lenOKL cs = true →
    lenOKL (cs.drop m) = true
  | .nil, 0, h => h
  | .cons _ _, 0, h => h
  | .nil, _+1, _ => rfl
  | .cons c rest, m+1, h => by
    simp only [lenOKL, Bool.and_eq_true] at h
    exact lenOKL_drop rest m h.2

theorem lenOKL_insertAt : ∀ (cs : NodeList) (m : Nat) (x : Node),
    lenOKL cs = true → lenOKN x = true → lenOKL (cs.insertAt m x) = true
  | .nil, 0, x, h, hx => by
    simp only [NodeList.insertAt, lenOKL, Bool.and_eq_true]
    exact ⟨hx, trivial⟩
  | .cons _ _, 0, x, h, hx => by
    simp only [NodeList.insertAt, lenOKL, Bool.and_eq_true]
    exact ⟨hx, by simpa [lenOKL, Bool.and_eq_true] using h⟩
  | .nil, _+1, x, h, hx => by
    simp only [NodeList.insertAt, lenOKL, Bool.and_eq_true]
    exact ⟨hx, trivial⟩
  | .cons c rest, m+1, x, h, hx => by
    simp only [lenOKL, Bool.and_eq_true] at h
    simp only [NodeList.insertAt, lenOKL, Bool.and_eq_true]
    exact ⟨h.1, lenOKL_insertAt rest m x h.2 hx⟩

theorem splitLeafGo_lenOK {ks vs : List Str} {l r : Node} {sep : Str}
    (hkv : ks.length = vs.length) (h : splitLeafGo ks vs = some (l, sep, r)) :
    lenOKN l = true ∧ lenOKN r = true := by
  have hne : ks.length ≠ 0 := by
    intro h0
    have hk : ks = [] := List.length_eq_zero.mp h0
    subst hk
    simp [splitLeafGo] at h
  rw [splitLeafGo_eq hne hkv.symm] at h
  cases h
  constructor <;> simp [lenOKN, List.length_take, List.length_drop] <;> omega

theorem splitInternalGo_lenOK {ks : List Str} {cs : NodeList} {n2 r : Node} {sep : Str}
    (hlen : cs.length = ks.length + 1) (hcl : lenOKL cs = true)
    (h : splitInternalGo ks cs = some (n2, some (r, sep))) :
    lenOKN n2 = true ∧ lenOKN r = true := by
  cases hx : ks[ks.length / 2]? with
  | none => simp [splitInternalGo, hx] at h
  | some sep2 =>
    have hmid : ks.length / 2 < ks.length := by
      by_contra hc
      rw [List.getElem?_eq_none (by omega)] at hx
      exact Option.noConfusion hx
    simp only [splitInternalGo, hx] at h
    by_cases hguard : ks.length / 2 + 1 ≤ cs.length
    · rw [if_pos hguard] at h
      have h2 : (some ((Node.internal (ks.take (ks.length/2)) (cs.take (ks.length/2 + 1)),
          some (Node.internal (ks.drop (ks.length/2 + 1)) (cs.drop (ks.length/2 + 1)), sep2)) :
          Node × Option (Node × Str))) = some (n2, some (r, sep)) := h
      cases h2
      constructor
      · simp only [lenOKN, Bool.and_eq_true]
        refine ⟨?_, lenOKL_take cs _ hcl⟩
        rw [nodeListTake_length]
        simp [List.length_take]
        omega
      · simp only [lenOKN, Bool.and_eq_true]
        refine ⟨?_, lenOKL_drop cs _ hcl⟩
        rw [nodeListDrop_length]
        simp [List.length_drop]
        omega
    · rw [if_neg hguard] at h
      exact Option.noConfusion h

theorem splitInternalGo_grow {ks : List Str} {cs : NodeList}
    {p : Node × Option (Node × Str)} (h : splitInternalGo ks cs = some p) :
    ∃ r sep, p.2 = some (r, sep) := by
  cases hx : ks[ks.length/2]? with
  | none => simp [splitInternalGo, hx] at h
  | some sep =>
    simp only [splitInternalGo, hx] at h
    by_cases hg : ks.length/2 + 1 ≤ cs.length
    · rw [if_pos hg] at h
      have h2 : (some ((Node.internal (ks.take (ks.length/2)) (cs.take (ks.length/2 + 1)),
          some (Node.internal (ks.drop (ks.length/2 + 1)) (cs.drop (ks.length/2 + 1)), sep)) :
          Node × Option (Node × Str))) = some p := h
      cases h2
      exact ⟨_, _, rfl⟩
    · rw [if_neg hg] at h
      exact Option.noConfusion h

mutual
theorem insertRec_lenOK : ∀ (n : Node) (key val : Str) (n2 : Node)
    (g : Option (Node × Str)),
    lenOKN n = true → insertRec n key val = some (n2, g) →
    lenOKN n2 = true ∧ (∀ r sep, g = some (r, sep) → lenOKN r = true)
  | .leaf ks vs, key, val, n2, g => by
    intro hn h
    have hkv : ks.length = vs.length := by simpa [lenOKN] using hn
    simp only [insertRec] at h
    by_cases hcond : searchStrings ks key < ks.length ∧
        ks.getD (searchStrings ks key) [] = key
    · rw [if_pos hcond] at h
      have hv := List.getElem?_eq_getElem (show searchStrings ks key < vs.length by omega)
      rw [hv] at h
      have h2 : (some ((Node.leaf ks (vs.set (searchStrings ks key) val) : Node),
          (none : Option (Node × Str)))) = some (n2, g) := h
      cases h2
      refine ⟨?_, fun r sep hg => Option.noConfusion hg⟩
      simp only [lenOKN, List.length_set]
      simp [hkv]
    · rw [if_neg hcond] at h
      have hle := searchStrings_le ks key
      by_cases hfull : (listInsertAt ks (searchStrings ks key) key).length ≤ Order - 1
      · rw [if_pos hfull] at h
        have h2 : (some ((Node.leaf (listInsertAt ks (searchStrings ks key) key)
            (listInsertAt vs (searchStrings ks key) val) : Node),
            (none : Option (Node × Str)))) = some (n2, g) := h
        cases h2
        refine ⟨?_, fun r sep hg => Option.noConfusion hg⟩
        simp only [lenOKN]
        rw [listInsertAt_length key hle, listInsertAt_length val (by omega)]
        simp [hkv]
      · rw [if_neg hfull] at h
        cases hx : splitLeafGo (listInsertAt ks (searchStrings ks key) key)
            (listInsertAt vs (searchStrings ks key) val) with
        | none => rw [hx] at h; exact Option.noConfusion h
        | some p =>
          obtain ⟨l, sep, r⟩ := p
          rw [hx] at h
          have h2 : (some (l, some (r, sep))) = some (n2, g) := h
          cases h2
          have hsp := splitLeafGo_lenOK
            (by rw [listInsertAt_length key hle, listInsertAt_length val (by omega)]; omega) hx
          exact ⟨hsp.1, fun r2 sep2 hg => by cases hg; exact hsp.2⟩
  | .internal ks cs, key, val, n2, g => by
    intro hn h
    have hlencs : cs.length = ks.length + 1 ∧ lenOKL cs = true := by
      simpa [lenOKN] using hn
    simp only [insertRec] at h
    cases hx : insertChild cs (upperBound ks key) key val with
    | none => rw [hx] at h; exact Option.noConfusion h
    | some p =>
      obtain ⟨cs2, g2⟩ := p
      rw [hx] at h
      have hic := insertChild_lenOK cs (upperBound ks key) key val cs2 g2 hlencs.2 hx
      have hlcs2 : cs2.length = cs.length := insertChild_length _ _ _ _ _ _ hx
      cases g2 with
      | none =>
        have h2 : (some ((Node.internal ks cs2 : Node), (none : Option (Node × Str)))) =
            some (n2, g) := h
        cases h2
        refine ⟨?_, fun r sep hg => Option.noConfusion hg⟩
        simp only [lenOKN, Bool.and_eq_true]
        exact ⟨by simp [hlcs2, hlencs.1], hic.1⟩
      | some rs =>
        obtain ⟨right, sep⟩ := rs
        have hrOK : lenOKN right = true := hic.2 right sep rfl
        have hle := upperBound_le ks key
        have h2 : (if (listInsertAt ks (upperBound ks key) sep).length ≤ Order - 1 then
            some ((Node.internal (listInsertAt ks (upperBound ks key) sep)
              (cs2.insertAt (upperBound ks key + 1) right) : Node),
              (none : Option (Node × Str)))
          else splitInternalGo (listInsertAt ks (upperBound ks key) sep)
            (cs2.insertAt (upperBound ks key + 1) right)) = some (n2, g) := h
        clear h
        by_cases hfull : (listInsertAt ks (upperBound ks key) sep).length ≤ Order - 1
        · rw [if_pos hfull] at h2
          have h3 : (some ((Node.internal (listInsertAt ks (upperBound ks key) sep)
              (cs2.insertAt (upperBound ks key + 1) right) : Node),
              (none : Option (Node × Str)))) = some (n2, g) := h2
          cases h3
          refine ⟨?_, fun r sep2 hg => Option.noConfusion hg⟩
          simp only [lenOKN, Bool.and_eq_true]
          constructor
          · rw [nodeListInsertAt_length, listInsertAt_length sep hle]
            simp [hlcs2, hlencs.1]
          · exact lenOKL_insertAt cs2 _ right hic.1 hrOK
        · rw [if_neg hfull] at h2
          obtain ⟨r2, sep2, hp2⟩ := splitInternalGo_grow h2
          have hg2 : g = some (r2, sep2) := hp2
          subst hg2
          have hsi := splitInternalGo_lenOK
            (by rw [nodeListInsertAt_length, listInsertAt_length sep hle]; simp [hlcs2, hlencs.1])
            (lenOKL_insertAt cs2 _ right hic.1 hrOK) h2
          exact ⟨hsi.1, fun r3 sep3 hg3 => by cases hg3; exact hsi.2⟩
theorem insertChild_lenOK : ∀ (cs : NodeList) (i : Nat) (key val : Str)
    (cs2 : NodeList) (g : Option (Node × Str)),
    lenOKL cs = true → insertChild cs i key val = some (cs2, g) →
    lenOKL cs2 = true ∧ (∀ r sep, g = some (r, sep) → lenOKN r = true)
  | .nil, i, key, val, cs2, g => by
    intro _ h
    simp [insertChild] at h
  | .cons c rest, 0, key, val, cs2, g => by
    intro hl h
    have hl2 : lenOKN c = true ∧ lenOKL rest = true := by
      simpa [lenOKL] using hl
    simp only [insertChild] at h
    cases hx : insertRec c key val with
    | none => rw [hx] at h; exact Option.noConfusion h
    | some p =>
      obtain ⟨c2, g2⟩ := p
      rw [hx] at h
      have h2 : (some ((NodeList.cons c2 rest : NodeList), g2)) = some (cs2, g) := h
      cases h2
      have hc := insertRec_lenOK c key val c2 g hl2.1 hx
      refine ⟨?_, hc.2⟩
      simp only [lenOKL, Bool.and_eq_true]
      exact ⟨hc.1, hl2.2⟩
  | .cons c rest, i+1, key, val, cs2, g => by
    intro hl h
    have hl2 : lenOKN c = true ∧ lenOKL rest = true := by
      simpa [lenOKL] using hl
    simp only [insertChild] at h
    cases hx : insertChild rest i key val with
    | none => rw [hx] at h; exact Option.noConfusion h
    | some p =>
      obtain ⟨rest2, g2⟩ := p
      rw [hx] at h
      have h2 : (some ((NodeList.cons c rest2 : NodeList), g2)) = some (cs2, g) := h
      cases h2
      have hr := insertChild_lenOK rest i key val rest2 g hl2.2 hx
      refine ⟨?_, hr.2⟩
      simp only [lenOKL, Bool.and_eq_true]
      exact ⟨hl2.1, hr.1⟩
end

mutual
theorem deleteNode_lenOK : ∀ (n : Node) (key : Str) (n2 : Node) (b : Bool),
    lenOKN n = true → deleteNode n key = some (n2, b) → lenOKN n2 = true
  | .leaf ks vs, key, n2, b => by
    intro hn h
    have hkv : ks.length = vs.length := by simpa [lenOKN] using hn
    simp only [deleteNode] at h
    by_cases hcond : searchStrings ks key < ks.length ∧
        ks.getD (searchStrings ks key) [] = key
    · rw [if_pos hcond, if_pos (by omega)] at h
      have h2 : (some ((Node.leaf
          (ks.take (searchStrings ks key) ++ ks.drop (searchStrings ks key + 1))
          (vs.take (searchStrings ks key) ++ vs.drop (searchStrings ks key + 1)) : Node),
          true)) = some (n2, b) := h
      cases h2
      simp only [lenOKN, List.length_append, List.length_take, List.length_drop]
      simp
      omega
    · rw [if_neg hcond] at h
      have h2 : (some ((Node.leaf ks vs : Node), false)) = some (n2, b) := h
      cases h2
      exact hn
  | .internal ks cs, key, n2, b => by
    intro hn h
    have hlencs : cs.length = ks.length + 1 ∧ lenOKL cs = true := by
      simpa [lenOKN] using hn
    simp only [deleteNode] at h
    cases hx : deleteChild cs (upperBound ks key) key with
    | none => rw [hx] at h; exact Option.noConfusion h
    | some p =>
      obtain ⟨cs2, b2⟩ := p
      rw [hx] at h
      have h2 : (some ((Node.internal ks cs2 : Node), b2)) = some (n2, b) := h
      cases h2
      have hdc := deleteChild_lenOK cs (upperBound ks key) key cs2 b hlencs.2 hx
      simp only [lenOKN, Bool.and_eq_true]
      exact ⟨by simp [hdc.2, hlencs.1], hdc.1⟩
theorem deleteChild_lenOK : ∀ (cs : NodeList) (i : Nat) (key : Str)
    (cs2 : NodeList) (b : Bool),
    lenOKL cs = true → deleteChild cs i key = some (cs2, b) →
    lenOKL cs2 = true ∧ cs2.length = cs.length
  | .nil, i, key, cs2, b => by
    intro _ h
    simp [deleteChild] at h
  | .cons c rest, 0, key, cs2, b => by
    intro hl h
    have hl2 : lenOKN c = true ∧ lenOKL rest = true := by
      simpa [lenOKL] using hl
    simp only [deleteChild] at h
    cases hx : deleteNode c key with
    | none => rw [hx] at h; exact Option.noConfusion h
    | some p =>
      obtain ⟨c2, b2⟩ := p
      rw [hx] at h
      have h2 : (some ((NodeList.cons c2 rest : NodeList), b2)) = some (cs2, b) := h
      cases h2
      have hc := deleteNode_lenOK c key c2 b hl2.1 hx
      refine ⟨?_, rfl⟩
      simp only [lenOKL, Bool.and_eq_true]
      exact ⟨hc, hl2.2⟩
  | .cons c rest, i+1, key, cs2, b => by
    intro hl h
    have hl2 : lenOKN c = true ∧ lenOKL rest = true := by
      simpa [lenOKL] using hl
    simp only [deleteChild] at h
    cases hx : deleteChild rest i key with
    | none => rw [hx] at h; exact Option.noConfusion h
    | some p =>
      obtain ⟨rest2, b2⟩ := p
      rw [hx] at h
      have h2 : (some ((NodeList.cons c rest2 : NodeList), b2)) = some (cs2, b) := h
      cases h2
      have hr := deleteChild_lenOK rest i key rest2 b hl2.2 hx
      refine ⟨?_, by simp [NodeList.length, hr.2]⟩
      simp only [lenOKL, Bool.and_eq_true]
      exact ⟨hl2.1, hr.1⟩
end

theorem insertFinish_lenOK {root1 : Node} {key val : Str} {t2 : BPTree}
    (h1 : lenOKN root1 = true) (h : insertFinish root1 key val = some t2) :
    treeLenOK t2 = true := by
  simp only [insertFinish] at h
  cases hy : insertRec root1 key val with
  | none => rw [hy] at h; exact Option.noConfusion h
  | some p =>
    obtain ⟨root2, g⟩ := p
    rw [hy] at h
    have hio := insertRec_lenOK root1 key val root2 g h1 hy
    cases g with
    | none =>
      have h3 : (some (⟨some root2⟩ : BPTree)) = some t2 := h
      cases h3
      exact hio.1
    | some rs =>
      obtain ⟨right, sep⟩ := rs
      have h3 : (some (⟨some (Node.internal [sep]
          (NodeList.cons root2 (NodeList.cons right NodeList.nil)))⟩ : BPTree)) = some t2 := h
      cases h3
      have hr := hio.2 right sep rfl
      show lenOKN (Node.internal [sep]
        (NodeList.cons root2 (NodeList.cons right NodeList.nil))) = true
      simp [lenOKN, lenOKL, NodeList.length, hio.1, hr]

theorem insert_lenOK {t t2 : BPTree} {key val : Str}
    (h : treeLenOK t = true) (hins : BPTree.insert t key val = some t2) :
    treeLenOK t2 = true := by
  obtain ⟨root⟩ := t
  cases root with
  | none =>
    have h2 : insertFinish (Node.leaf [] []) key val = some t2 := hins
    exact insertFinish_lenOK (by decide) h2
  | some r =>
    cases r with
    | internal ks cs =>
      have h2 : insertFinish (Node.internal ks cs) key val = some t2 := hins
      exact insertFinish_lenOK (by simpa [treeLenOK] using h) h2
    | leaf ks vs =>
      have hkv : ks.length = vs.length := by
        have := h
        simp only [treeLenOK, lenOKN] at this
        simpa using this
      have h2 : (if Order - 1 ≤ ks.length then
          match splitLeafGo ks vs with
          | some (l, sep, r) =>
            insertFinish (Node.internal [sep]
              (NodeList.cons l (NodeList.cons r NodeList.nil))) key val
          | none => none
        else insertFinish (Node.leaf ks vs) key val) = some t2 := hins
      by_cases hfull : Order - 1 ≤ ks.length
      · rw [if_pos hfull] at h2
        cases hx : splitLeafGo ks vs with
        | none => rw [hx] at h2; exact Option.noConfusion h2
        | some q =>
          obtain ⟨l, sep, r⟩ := q
          rw [hx] at h2
          have h3 : insertFinish (Node.internal [sep]
              (NodeList.cons l (NodeList.cons r NodeList.nil))) key val = some t2 := h2
          have hsl := splitLeafGo_lenOK hkv hx
          refine insertFinish_lenOK ?_ h3
          show lenOKN (Node.internal [sep]
            (NodeList.cons l (NodeList.cons r NodeList.nil))) = true
          simp [lenOKN, lenOKL, NodeList.length, hsl.1, hsl.2]
      · rw [if_neg hfull] at h2
        exact insertFinish_lenOK (by simp [lenOKN, hkv]) h2

theorem delete_lenOK {t t2 : BPTree} {key : Str} {b : Bool}
    (h : treeLenOK t = true) (hdel : BPTree.delete t key = some (t2, b)) :
    treeLenOK t2 = true := by
  obtain ⟨root⟩ := t
  cases root with
  | none =>
    have h2 : (some ((⟨none⟩ : BPTree), false)) = some (t2, b) := hdel
    cases h2
    rfl
  | some r =>
    simp only [BPTree.delete] at hdel
    cases hx : deleteNode r key with
    | none => rw [hx] at hdel; exact Option.noConfusion hdel
    | some p =>
      obtain ⟨r2, b2⟩ := p
      rw [hx] at hdel
      have h2 : (some ((⟨some r2⟩ : BPTree), b2)) = some (t2, b) := hdel
      cases h2
      exact deleteNode_lenOK r key r2 b (by simpa [treeLenOK] using h) hx

theorem treeReach_lenOK {t : BPTree} (h : TreeReach t) : treeLenOK t = true := by
  induction h with
  | new => rfl
  | ins _ hins ih => exact insert_lenOK ih hins
  | del _ hdel ih => exact delete_lenOK ih hdel

theorem getNode_isSome {n : Node} (key : Str) (h : lenOKN n = true) :
    (getNode n key).isSome :=
  ((tree_ops_total key [] (sizeN n)).1 n (Nat.le_refl _) h).1

theorem insertRec_isSome {n : Node} (key val : Str) (h : lenOKN n = true) :
    (insertRec n key val).isSome :=
  ((tree_ops_total key val (sizeN n)).1 n (Nat.le_refl _) h).2.1

theorem deleteNode_isSome {n : Node} (key : Str) (h : lenOKN n = true) :
    (deleteNode n key).isSome :=
  ((tree_ops_total key [] (sizeN n)).1 n (Nat.le_refl _) h).2.2

theorem get_isSome {t : BPTree} (key : Str) (h : treeLenOK t = true) :
    (t.get key).isSome := by
  obtain ⟨root⟩ := t
  cases root with
  | none => rfl
  | some r => exact getNode_isSome key (by simpa [treeLenOK] using h)

theorem insertFinish_isSome {root1 : Node} (key val : Str) (h : lenOKN root1 = true) :
    (insertFinish root1 key val).isSome := by
  cases hx : insertRec root1 key val with
  | none =>
    have := insertRec_isSome key val h
    rw [hx] at this
    simp at this
  | some p =>
    obtain ⟨root2, g⟩ := p
    simp only [insertFinish, hx]
    cases g with
    | none => rfl
    | some rs =>
      obtain ⟨r, sep⟩ := rs
      rfl

theorem insert_isSome {t : BPTree} (key val : Str) (h : treeLenOK t = true) :
    (BPTree.insert t key val).isSome := by
  obtain ⟨root⟩ := t
  cases root with
  | none =>
    show (insertFinish (Node.leaf [] []) key val).isSome = true
    exact insertFinish_isSome key val (by decide)
  | some r =>
    cases r with
    | internal ks cs =>
      show (insertFinish (Node.internal ks cs) key val).isSome = true
      exact insertFinish_isSome key val (by simpa [treeLenOK] using h)
    | leaf ks vs =>
      have hkv : ks.length = vs.length := by
        have := h
        simp only [treeLenOK, lenOKN] at this
        simpa using this
      show (if Order - 1 ≤ ks.length then
          match splitLeafGo ks vs with
          | some (l, sep, r) =>
            insertFinish (Node.internal [sep]
              (NodeList.cons l (NodeList.cons r NodeList.nil))) key val
          | none => none
        else insertFinish (Node.leaf ks vs) key val).isSome = true
      by_cases hfull : Order - 1 ≤ ks.length
      · rw [if_pos hfull]
        cases hx : splitLeafGo ks vs with
        | none =>
          have := splitLeafGo_isSome (by simp [Order] at hfull; omega) hkv.symm
          rw [hx] at this
          simp at this
        | some q =>
          obtain ⟨l, sep, r⟩ := q
          simp only [hx]
          have hsl := splitLeafGo_lenOK hkv hx
          refine insertFinish_isSome key val ?_
          simp [lenOKN, lenOKL, NodeList.length, hsl.1, hsl.2]
      · rw [if_neg hfull]
        exact insertFinish_isSome key val (by simp [lenOKN, hkv])

theorem delete_isSome {t : BPTree} (key : Str) (h : treeLenOK t = true) :
    (t.delete key).isSome := by
  obtain ⟨root⟩ := t
  cases root with
  | none => rfl
  | some r =>
    simp only [BPTree.delete]
    cases hx : deleteNode r key with
    | none =>
      have := deleteNode_isSome key (by simpa [treeLenOK] using h)
      rw [hx] at this
      simp at this
    | some p =>
      obtain ⟨r2, b⟩ := p
      rfl

theorem treeKeys_nil {key : Str} (h : key ∈ (treePairs (⟨none⟩ : BPTree)).map Prod.fst) :
    False := by
  simp [treePairs] at h

/-- Top-level `Insert` on a key already present in a bounded tree: the value
is replaced in the pair sequence, and unless the root is a full leaf (the
preemptive-split trigger) the shape is unchanged too. -/
theorem insert_present {t : BPTree} {key : Str} (val : Str)
    (hb : treeBounded t = true) (hmem : key ∈ (treePairs t).map Prod.fst) :
    ∃ t2, BPTree.insert t key val = some t2 ∧
      treePairs t2 = replacePair key val (treePairs t) ∧
      (rootFullLeaf t = false → stripT t2 = stripT t) := by
  obtain ⟨root⟩ := t
  cases root with
  | none => exact absurd hmem treeKeys_nil
  | some r =>
    have hbn : boundedN none none r = true := by simpa [treeBounded] using hb
    have hmem2 : key ∈ nodeKeysN r := hmem
    cases r with
    | internal ks cs =>
      obtain ⟨n2, heq, hstrip, hpairs⟩ := insertRec_present (.internal ks cs)
        none none key val hbn hmem2
      refine ⟨⟨some n2⟩, ?_, hpairs, fun _ => ?_⟩
      · show insertFinish (Node.internal ks cs) key val = some ⟨some n2⟩
        simp only [insertFinish, heq]
      · show (⟨some (stripN n2)⟩ : BPTree) = ⟨some (stripN (Node.internal ks cs))⟩
        rw [hstrip]
    | leaf ks vs =>
      have hkv : ks.length = vs.length := by
        simp only [boundedN, Bool.and_eq_true] at hbn
        simpa using hbn.1.1
      have hsort : sortedB ks = true := by
        simp only [boundedN, Bool.and_eq_true] at hbn
        exact hbn.1.2
      by_cases hfull : Order - 1 ≤ ks.length
      · -- preemptive split of the full leaf root, then descend
        have hne : ks.length ≠ 0 := by simp [Order] at hfull; omega
        have hx := splitLeafGo_eq hne hkv.symm
        have hzip : nodePairs (Node.internal [(ks.drop (ks.length/2)).getD 0 []]
            (.cons (.leaf (ks.take (ks.length/2)) (vs.take (ks.length/2)))
              (.cons (.leaf (ks.drop (ks.length/2)) (vs.drop (ks.length/2))) .nil))) =
            ks.zip vs := by
          simp only [nodePairs, nodeListPairs, List.append_nil]
          exact zip_take_drop _ ks vs hkv
        have hmem3 : key ∈ nodeKeysN (Node.internal [(ks.drop (ks.length/2)).getD 0 []]
            (.cons (.leaf (ks.take (ks.length/2)) (vs.take (ks.length/2)))
              (.cons (.leaf (ks.drop (ks.length/2)) (vs.drop (ks.length/2))) .nil))) := by
          simp only [nodeKeysN, hzip]
          simpa only [nodeKeysN, nodePairs] using hmem2
        obtain ⟨n2, heq, hstrip, hpairs⟩ := insertRec_present _ none none key val
          (preemptive_bounded hne hkv hsort) hmem3
        refine ⟨⟨some n2⟩, ?_, ?_, fun hrf => ?_⟩
        · show (if Order - 1 ≤ ks.length then
              match splitLeafGo ks vs with
              | some (l, sep, r) =>
                insertFinish (Node.internal [sep]
                  (NodeList.cons l (NodeList.cons r NodeList.nil))) key val
              | none => none
            else insertFinish (Node.leaf ks vs) key val) = some ⟨some n2⟩
          rw [if_pos hfull, hx]
          simp only [insertFinish, heq]
        · show nodePairs n2 = replacePair key val (nodePairs (Node.leaf ks vs))
          rw [hpairs, hzip]
          rfl
        · exact absurd hrf (by simp [rootFullLeaf, hfull])
      · obtain ⟨n2, heq, hstrip, hpairs⟩ := insertRec_present (.leaf ks vs)
          none none key val hbn hmem2
        refine ⟨⟨some n2⟩, ?_, hpairs, fun _ => ?_⟩
        · show (if Order - 1 ≤ ks.length then
              match splitLeafGo ks vs with
              | some (l, sep, r) =>
                insertFinish (Node.internal [sep]
                  (NodeList.cons l (NodeList.cons r NodeList.nil))) key val
              | none => none
            else insertFinish (Node.leaf ks vs) key val) = some ⟨some n2⟩
          rw [if_neg hfull]
          simp only [insertFinish, heq]
        · show (⟨some (stripN n2)⟩ : BPTree) = ⟨some (stripN (Node.leaf ks vs))⟩
          rw [hstrip]

/-! ## Lookup lemmas for the Go maps (`TableHead`, leaf `Next` table) -/

theorem headLookup_cons_eq {e : Nat × Nat} {th : List (Nat × Nat)} {tid : Nat}
    (h : e.1 = tid) : headLookup (e :: th) tid = e.2 := by
  unfold headLookup
  rw [List.find?_cons_of_pos _ (by simp [h])]

theorem headLookup_cons_ne {e : Nat × Nat} {th : List (Nat × Nat)} {tid : Nat}
    (h : e.1 ≠ tid) : headLookup (e :: th) tid = headLookup th tid := by
  unfold headLookup
  rw [List.find?_cons_of_neg _ (by simp [h])]

theorem headLookup_map_set : ∀ (th : List (Nat × Nat)) (tid v : Nat),
    th.any (fun e => e.1 == tid) = true →
    headLookup (th.map (fun e => if e.1 == tid then (tid, v) else e)) tid = v
  | [], tid, v => by intro h; simp at h
  | e :: rest, tid, v => by
    intro h
    simp only [List.map_cons]
    by_cases he : e.1 = tid
    · rw [if_pos (by simpa using he)]
      exact headLookup_cons_eq rfl
    · rw [if_neg (by simpa using he), headLookup_cons_ne he]
      apply headLookup_map_set
      simp only [List.any_cons, Bool.or_eq_true] at h
      rcases h with h | h
      · exact absurd (by simpa using h) he
      · exact h

theorem headLookup_append_set : ∀ (th : List (Nat × Nat)) (tid v : Nat),
    th.any (fun e => e.1 == tid) = false →
    headLookup (th ++ [(tid, v)]) tid = v
  | [], tid, v => by
    intro _
    exact headLookup_cons_eq rfl
  | e :: rest, tid, v => by
    intro h
    simp only [List.any_cons, Bool.or_eq_false_iff] at h
    rw [List.cons_append, headLookup_cons_ne (by simpa using h.1)]
    exact headLookup_append_set rest tid v h.2

theorem headLookup_headSet_self (th : List (Nat × Nat)) (tid v : Nat) :
    headLookup (headSet th tid v) tid = v := by
  unfold headSet
  by_cases hany : th.any (fun e => e.1 == tid) = true
  · rw [if_pos hany]
    exact headLookup_map_set th tid v hany
  · rw [if_neg hany]
    exact headLookup_append_set th tid v (Bool.eq_false_iff.mpr hany)

theorem headLookup_map_set_ne : ∀ (th : List (Nat × Nat)) (tid tid2 v : Nat), tid2 ≠ tid →
    headLookup (th.map (fun e => if e.1 == tid then (tid, v) else e)) tid2 =
      headLookup th tid2
  | [], _, _, _ => by intro _; rfl
  | e :: rest, tid, tid2, v => by
    intro hne
    simp only [List.map_cons]
    by_cases he : e.1 = tid
    · rw [if_pos (by simpa using he)]
      rw [headLookup_cons_ne (show (tid, v).1 ≠ tid2 from Ne.symm hne)]
      rw [headLookup_cons_ne (show e.1 ≠ tid2 by rw [he]; exact Ne.symm hne)]
      exact headLookup_map_set_ne rest tid tid2 v hne
    · rw [if_neg (by simpa using he)]
      by_cases he2 : e.1 = tid2
      · rw [headLookup_cons_eq he2, headLookup_cons_eq he2]
      · rw [headLookup_cons_ne he2, headLookup_cons_ne he2]
        exact headLookup_map_set_ne rest tid tid2 v hne

theorem headLookup_append_ne : ∀ (th : List (Nat × Nat)) (tid tid2 v : Nat), tid2 ≠ tid →
    headLookup (th ++ [(tid, v)]) tid2 = headLookup th tid2
  | [], tid, tid2, v => by
    intro hne
    rw [List.nil_append, headLookup_cons_ne (show (tid, v).1 ≠ tid2 from Ne.symm hne)]
  | e :: rest, tid, tid2, v => by
    intro hne
    rw [List.cons_append]
    by_cases he2 : e.1 = tid2
    · rw [headLookup_cons_eq he2, headLookup_cons_eq he2]
    · rw [headLookup_cons_ne he2, headLookup_cons_ne he2]
      exact headLookup_append_ne rest tid tid2 v hne

theorem headLookup_headSet_ne (th : List (Nat × Nat)) (tid tid2 v : Nat) (hne : tid2 ≠ tid) :
    headLookup (headSet th tid v) tid2 = headLookup th tid2 := by
  unfold headSet
  by_cases hany : th.any (fun e => e.1 == tid) = true
  · rw [if_pos hany]
    exact headLookup_map_set_ne th tid tid2 v hne
  · rw [if_neg hany]
    exact headLookup_append_ne th tid tid2 v hne

theorem headSet_map_keys : ∀ (th : List (Nat × Nat)) (tid v : Nat),
    (th.map (fun e => if e.1 == tid then (tid, v) else e)).map Prod.fst = th.map Prod.fst
  | [], _, _ => rfl
  | e :: rest, tid, v => by
    simp only [List.map_cons]
    by_cases he : e.1 = tid
    · rw [if_pos (by simpa using he), headSet_map_keys rest tid v]
      simp [he]
    · rw [if_neg (by simpa using he), headSet_map_keys rest tid v]

theorem headSet_keys_nodup (th : List (Nat × Nat)) (tid v : Nat)
    (h : (th.map Prod.fst).Nodup) : ((headSet th tid v).map Prod.fst).Nodup := by
  unfold headSet
  by_cases hany : th.any (fun e => e.1 == tid) = true
  · rw [if_pos hany, headSet_map_keys]
    exact h
  · rw [if_neg hany, List.map_append, List.nodup_append]
    refine ⟨h, by simp, ?_⟩
    intro a ha hb
    simp only [List.map_cons, List.map_nil, List.mem_singleton] at hb
    subst hb
    obtain ⟨e, he, hefst⟩ := List.mem_map.mp ha
    exact hany (List.any_eq_true.mpr ⟨e, he, by simp [hefst]⟩)

theorem headLookup_headDel_self (th : List (Nat × Nat)) (tid : Nat) :
    headLookup (headDel th tid) tid = 0 := by
  unfold headLookup headDel
  cases hf : List.find? (fun e => e.1 == tid) (th.filter (fun e => e.1 != tid)) with
  | none => rfl
  | some e =>
    have hmem := List.mem_of_find?_eq_some hf
    have hp := List.find?_some hf
    rw [List.mem_filter] at hmem
    simp only [beq_iff_eq] at hp
    simp only [bne_iff_ne, ne_eq, decide_eq_true_eq] at hmem
    exact absurd hp hmem.2

theorem headLookup_headDel_ne (th : List (Nat × Nat)) (tid tid2 : Nat) (hne : tid2 ≠ tid) :
    headLookup (headDel th tid) tid2 = headLookup th tid2 := by
  unfold headDel
  induction th with
  | nil => rfl
  | cons e rest ih =>
    rw [List.filter_cons]
    by_cases he : e.1 = tid
    · rw [if_neg (by simp [he])]
      rw [headLookup_cons_ne (show e.1 ≠ tid2 by rw [he]; exact Ne.symm hne)]
      exact ih
    · rw [if_pos (by simp [he])]
      by_cases he2 : e.1 = tid2
      · rw [headLookup_cons_eq he2, headLookup_cons_eq he2]
      · rw [headLookup_cons_ne he2, headLookup_cons_ne he2]
        exact ih

theorem headDel_keys_nodup (th : List (Nat × Nat)) (tid : Nat)
    (h : (th.map Prod.fst).Nodup) : ((headDel th tid).map Prod.fst).Nodup :=
  h.sublist ((th.filter_sublist).map Prod.fst)

theorem nxtLookup_cons_eq {e : Nat × Nat} {m : List (Nat × Nat)} {i : Nat}
    (h : e.1 = i) : nxtLookup (e :: m) i = some e.2 := by
  unfold nxtLookup
  rw [List.find?_cons_of_pos _ (by simp [h])]
  rfl

theorem nxtLookup_cons_ne {e : Nat × Nat} {m : List (Nat × Nat)} {i : Nat}
    (h : e.1 ≠ i) : nxtLookup (e :: m) i = nxtLookup m i := by
  unfold nxtLookup
  rw [List.find?_cons_of_neg _ (by simp [h])]

theorem nxtLookup_map_set : ∀ (m : List (Nat × Nat)) (i w : Nat),
    m.any (fun e => e.1 == i) = true →
    nxtLookup (m.map (fun e => if e.1 == i then (i, w) else e)) i = some w
  | [], i, w => by intro h; simp at h
  | e :: rest, i, w => by
    intro h
    simp only [List.map_cons]
    by_cases he : e.1 = i
    · rw [if_pos (by simpa using he)]
      exact nxtLookup_cons_eq rfl
    · rw [if_neg (by simpa using he), nxtLookup_cons_ne he]
      apply nxtLookup_map_set
      simp only [List.any_cons, Bool.or_eq_true] at h
      rcases h with h | h
      · exact absurd (by simpa using h) he
      · exact h

theorem nxtLookup_append_set : ∀ (m : List (Nat × Nat)) (i w : Nat),
    nxtLookup (m ++ [(i, w)]) i = some w ∨
      ∃ e, e ∈ m ∧ e.1 = i ∧ nxtLookup (m ++ [(i, w)]) i = some e.2
  | [], i, w => Or.inl (nxtLookup_cons_eq rfl)
  | e :: rest, i, w => by
    by_cases he : e.1 = i
    · exact Or.inr ⟨e, List.mem_cons_self e rest, he, by
        rw [List.cons_append]; exact nxtLookup_cons_eq he⟩
    · rw [List.cons_append, nxtLookup_cons_ne he]
      rcases nxtLookup_append_set rest i w with h | ⟨e2, he2, hk, hv⟩
      · exact Or.inl h
      · exact Or.inr ⟨e2, List.mem_cons_of_mem e he2, hk, hv⟩

theorem nxtLookup_nxtSet_self (m : List (Nat × Nat)) (i w : Nat) :
    nxtLookup (nxtSet m i (some w)) i = some w := by
  show nxtLookup (if m.any (fun e => e.1 == i) then
    m.map (fun e => if e.1 == i then (i, w) else e) else m ++ [(i, w)]) i = some w
  by_cases hany : m.any (fun e => e.1 == i) = true
  · rw [if_pos hany]
    exact nxtLookup_map_set m i w hany
  · rw [if_neg hany]
    rcases nxtLookup_append_set m i w with h | ⟨e, he, hk, _⟩
    · exact h
    · exact absurd (List.any_eq_true.mpr ⟨e, he, by simp [hk]⟩) hany

theorem nxtLookup_map_set_ne : ∀ (m : List (Nat × Nat)) (i j w : Nat), j ≠ i →
    nxtLookup (m.map (fun e => if e.1 == i then (i, w) else e)) j = nxtLookup m j
  | [], _, _, _ => by intro _; rfl
  | e :: rest, i, j, w => by
    intro hne
    simp only [List.map_cons]
    by_cases he : e.1 = i
    · rw [if_pos (by simpa using he)]
      rw [nxtLookup_cons_ne (show (i, w).1 ≠ j from Ne.symm hne)]
      rw [nxtLookup_cons_ne (show e.1 ≠ j by rw [he]; exact Ne.symm hne)]
      exact nxtLookup_map_set_ne rest i j w hne
    · rw [if_neg (by simpa using he)]
      by_cases he2 : e.1 = j
      · rw [nxtLookup_cons_eq he2, nxtLookup_cons_eq he2]
      · rw [nxtLookup_cons_ne he2, nxtLookup_cons_ne he2]
        exact nxtLookup_map_set_ne rest i j w hne

theorem nxtLookup_append_ne : ∀ (m : List (Nat × Nat)) (i j w : Nat), j ≠ i →
    nxtLookup (m ++ [(i, w)]) j = nxtLookup m j
  | [], i, j, w => by
    intro hne
    rw [List.nil_append, nxtLookup_cons_ne (show (i, w).1 ≠ j from Ne.symm hne)]
  | e :: rest, i, j, w => by
    intro hne
    rw [List.cons_append]
    by_cases he2 : e.1 = j
    · rw [nxtLookup_cons_eq he2, nxtLookup_cons_eq he2]
    · rw [nxtLookup_cons_ne he2, nxtLookup_cons_ne he2]
      exact nxtLookup_append_ne rest i j w hne

theorem nxtLookup_nxtSet_ne (m : List (Nat × Nat)) (i j : Nat) (w : Option Nat)
    (hne : j ≠ i) : nxtLookup (nxtSet m i w) j = nxtLookup m j := by
  cases w with
  | none =>
    show nxtLookup (m.filter (fun e => e.1 != i)) j = nxtLookup m j
    induction m with
    | nil => rfl
    | cons e rest ih =>
      rw [List.filter_cons]
      by_cases he : e.1 = i
      · rw [if_neg (by simp [he])]
        rw [nxtLookup_cons_ne (show e.1 ≠ j by rw [he]; exact Ne.symm hne)]
        exact ih
      · rw [if_pos (by simp [he])]
        by_cases he2 : e.1 = j
        · rw [nxtLookup_cons_eq he2, nxtLookup_cons_eq he2]
        · rw [nxtLookup_cons_ne he2, nxtLookup_cons_ne he2]
          exact ih
  | some w =>
    show nxtLookup (if m.any (fun e => e.1 == i) then
      m.map (fun e => if e.1 == i then (i, w) else e) else m ++ [(i, w)]) j = nxtLookup m j
    by_cases hany : m.any (fun e => e.1 == i) = true
    · rw [if_pos hany]
      exact nxtLookup_map_set_ne m i j w hne
    · rw [if_neg hany]
      exact nxtLookup_append_ne m i j w hne

/-! ## Chain lemmas -/

theorem chain_deterministic {ps : List Page} {h : Nat} {l1 l2 : List Nat}
    (h1 : Chain ps h l1) (h2 : Chain ps h l2) : l1 = l2 := by
  induction h1 generalizing l2 with
  | nil =>
    cases h2 with
    | nil => rfl
    | cons hne _ _ => exact absurd rfl hne
  | cons hne hpg hrest ih =>
    cases h2 with
    | nil => exact absurd rfl hne
    | cons hne2 hpg2 hrest2 =>
      rw [hpg] at hpg2
      cases hpg2
      rw [ih hrest2]

theorem chain_valid {ps : List Page} {h : Nat} {l : List Nat} (hc : Chain ps h l) :
    ∀ p ∈ l, p ≠ 0 ∧ p < ps.length := by
  induction hc with
  | nil => intro p hp; simp at hp
  | cons hne hpg _ ih =>
    intro p hp
    rcases List.mem_cons.mp hp with rfl | hp
    · refine ⟨hne, ?_⟩
      by_contra hge
      rw [List.getElem?_eq_none (by omega)] at hpg
      exact Option.noConfusion hpg
    · exact ih p hp

theorem chain_frame {ps ps2 : List Page} {h : Nat} {l : List Nat}
    (hfr : ∀ p ∈ l, ps2[p]? = ps[p]?) (hc : Chain ps h l) : Chain ps2 h l := by
  induction hc with
  | nil => exact Chain.nil
  | cons hne hpg hrest ih =>
    refine Chain.cons hne ?_ (ih ?_)
    · rw [hfr _ (List.mem_cons_self _ _)]
      exact hpg
    · intro p hp
      exact hfr p (List.mem_cons_of_mem _ hp)

theorem chainData_frame {ps ps2 : List Page} {h : Nat} {cs : List (List Nat)}
    {l : List Nat} (hch : Chain ps h l) (hfr : ∀ p ∈ l, ps2[p]? = ps[p]?)
    (hc : ChainData ps h cs) : ChainData ps2 h cs := by
  induction hc generalizing l with
  | nil => exact ChainData.nil
  | cons hne hpg hdl hbody hfit hrest ih =>
    cases hch with
    | nil => exact absurd rfl hne
    | cons hne2 hpg2 hrest2 =>
      rw [hpg] at hpg2
      cases hpg2
      refine ChainData.cons hne ?_ hdl hbody hfit (ih hrest2 ?_)
      · rw [hfr _ (List.mem_cons_self _ _)]
        exact hpg
      · intro p hp
        exact hfr p (List.mem_cons_of_mem _ hp)

theorem chain_zero {ps : List Page} {l : List Nat} (hc : Chain ps 0 l) : l = [] :=
  chain_deterministic hc Chain.nil

theorem chain_ne_nil {ps : List Page} {h : Nat} {l : List Nat} (hc : Chain ps h l)
    (hne : h ≠ 0) : ∃ rest, l = h :: rest := by
  cases hc with
  | nil => exact absurd rfl hne
  | cons _ _ _ => exact ⟨_, rfl⟩

theorem nodup_bounded_length {l : List Nat} {n : Nat} (hnd : l.Nodup)
    (hb : ∀ p ∈ l, p ≠ 0 ∧ p < n) (hn : 0 < n) : l.length < n := by
  obtain ⟨m, rfl⟩ : ∃ m, n = m + 1 := ⟨n - 1, by omega⟩
  have hsub : l ⊆ (List.range (m + 1)).filter (fun p => p != 0) := by
    intro p hp
    rw [List.mem_filter]
    exact ⟨List.mem_range.mpr (hb p hp).2, by simpa using (hb p hp).1⟩
  have hlen := (hnd.subperm hsub).length_le
  have hfl : ((List.range (m + 1)).filter (fun p => p != 0)).length ≤ m := by
    rw [List.range_succ_eq_map, List.filter_cons]
    rw [if_neg (by simp)]
    calc ((List.map Nat.succ (List.range m)).filter (fun p => p != 0)).length
        ≤ (List.map Nat.succ (List.range m)).length := List.length_filter_le _ _
      _ = m := by simp
  omega

theorem chain_length_lt {ps : List Page} {h : Nat} {l : List Nat} (hc : Chain ps h l)
    (hnd : l.Nodup) (hpos : 0 < ps.length) : l.length < ps.length :=
  nodup_bounded_length hnd (chain_valid hc) hpos

/-! ## Bookkeeping facts: which fields and events each pager helper touches -/

theorem writePage_inv {s : PagerS} {pid : Nat} {pg : Page} {s1 : PagerS}
    (h : writePage s pid pg = some s1) :
    pid < s.pages.length ∧ s1 = { s with pages := s.pages.set pid pg } := by
  simp only [writePage] at h
  by_cases hlt : pid < s.pages.length
  · rw [if_pos hlt] at h
    cases h
    exact ⟨hlt, rfl⟩
  · rw [if_neg hlt] at h
    exact Option.noConfusion h

theorem freeChainF_events : ∀ (fuel : Nat) (s : PagerS) (h : Nat) (s2 : PagerS)
    (tr : List Ev), freeChainF fuel s h = some (s2, tr) →
    s2.tableHead = s.tableHead ∧ s2.wal = s.wal ∧ s2.tables = s.tables ∧
      s2.nextTableID = s.nextTableID ∧ ∀ e ∈ tr, ∃ p, e = Ev.pageWrite p
  | fuel, s, 0, s2, tr => by
    intro h
    have h2 : some (s, ([] : List Ev)) = some (s2, tr) := by cases fuel <;> exact h
    cases h2
    exact ⟨rfl, rfl, rfl, rfl, by intro e he; simp at he⟩
  | 0, s, pid+1, s2, tr => by
    intro h
    exact Option.noConfusion h
  | fuel+1, s, pid+1, s2, tr => by
    intro h
    simp only [freeChainF] at h
    cases hr : readPage s (pid+1) with
    | none => rw [hr] at h; exact Option.noConfusion h
    | some pg =>
      rw [hr] at h
      have h3 : (match writePage s (pid+1) { pg with next := s.freeList } with
        | none => none
        | some s1 =>
          match freeChainF fuel { s1 with freeList := pid + 1 } pg.next with
          | none => none
          | some (s2, tr) => some (s2, Ev.pageWrite (pid+1) :: tr)) = some (s2, tr) := h
      clear h
      cases hw : writePage s (pid+1) { pg with next := s.freeList } with
      | none => rw [hw] at h3; exact Option.noConfusion h3
      | some s1 =>
        rw [hw] at h3
        have h4 : (match freeChainF fuel { s1 with freeList := pid + 1 } pg.next with
          | none => none
          | some (s2, tr) => some (s2, Ev.pageWrite (pid+1) :: tr)) = some (s2, tr) := h3
        clear h3
        cases hf : freeChainF fuel { s1 with freeList := pid+1 } pg.next with
        | none => rw [hf] at h4; exact Option.noConfusion h4
        | some p =>
          obtain ⟨s2', tr'⟩ := p
          rw [hf] at h4
          have h5 : some (s2', Ev.pageWrite (pid+1) :: tr') = some (s2, tr) := h4
          cases h5
          have ih := freeChainF_events fuel _ _ _ _ hf
          obtain ⟨hlt, rfl⟩ := writePage_inv hw
          refine ⟨ih.1, ih.2.1, ih.2.2.1, ih.2.2.2.1, ?_⟩
          intro e he
          rcases List.mem_cons.mp he with rfl | he
          · exact ⟨pid+1, rfl⟩
          · exact ih.2.2.2.2 e he

theorem allocPage_events {s s1 : PagerS} {pid : Nat} {tr : List Ev}
    (h : allocPage s = some (s1, pid, tr)) :
    s1.tableHead = s.tableHead ∧ s1.wal = s.wal ∧ s1.tables = s.tables ∧
      s1.nextTableID = s.nextTableID ∧
      ∀ e ∈ tr, e = Ev.fileExtend ∨ ∃ p, e = Ev.pageWrite p := by
  simp only [allocPage] at h
  by_cases hfl : s.freeList ≠ 0
  · rw [if_pos hfl] at h
    cases hr : readPage s s.freeList with
    | none => rw [hr] at h; exact Option.noConfusion h
    | some pg =>
      rw [hr] at h
      have h3 : (match writePage { s with freeList := pg.next } s.freeList
          { pg with next := 0 } with
        | none => none
        | some s1 => some (s1, s.freeList, [Ev.pageWrite s.freeList])) =
          some (s1, pid, tr) := h
      clear h
      cases hw : writePage { s with freeList := pg.next } s.freeList { pg with next := 0 } with
      | none => rw [hw] at h3; exact Option.noConfusion h3
      | some s2 =>
        rw [hw] at h3
        have h2 : some (s2, s.freeList, [Ev.pageWrite s.freeList]) = some (s1, pid, tr) := h3
        cases h2
        obtain ⟨hlt, rfl⟩ := writePage_inv hw
        refine ⟨rfl, rfl, rfl, rfl, ?_⟩
        intro e he
        rcases List.mem_cons.mp he with rfl | he
        · exact Or.inr ⟨s.freeList, rfl⟩
        · simp at he
  · rw [if_neg hfl] at h
    have h2 : some (({ s with pages := s.pages ++ [zeroPage] } : PagerS),
        s.pages.length, [Ev.fileExtend]) = some (s1, pid, tr) := h
    cases h2
    refine ⟨rfl, rfl, rfl, rfl, ?_⟩
    intro e he
    rcases List.mem_cons.mp he with rfl | he
    · exact Or.inl rfl
    · simp at he

theorem writeBlobPages_events : ∀ (cs : List (List Nat)) (s s3 : PagerS)
    (pids : List Nat) (tr : List Ev), writeBlobPages s cs = some (s3, pids, tr) →
    s3.tableHead = s.tableHead ∧ s3.wal = s.wal ∧ s3.tables = s.tables ∧
      s3.nextTableID = s.nextTableID ∧
      ∀ e ∈ tr, e = Ev.fileExtend ∨ ∃ p, e = Ev.pageWrite p
  | [], s, s3, pids, tr => by
    intro h
    have h2 : some (s, ([] : List Nat), ([] : List Ev)) = some (s3, pids, tr) := h
    cases h2
    exact ⟨rfl, rfl, rfl, rfl, by intro e he; simp at he⟩
  | c :: cs, s, s3, pids, tr => by
    intro h
    simp only [writeBlobPages] at h
    cases ha : allocPage s with
    | none => rw [ha] at h; exact Option.noConfusion h
    | some p1 =>
      obtain ⟨s1, pid, tr1⟩ := p1
      rw [ha] at h
      have h3 : (match writePage s1 pid
          { next := 0, dataLen := c.length, body := padChunk c } with
        | none => none
        | some s2 =>
          match writeBlobPages s2 cs with
          | none => none
          | some (s3, pids, tr) => some (s3, pid :: pids, tr1 ++ Ev.pageWrite pid :: tr)) =
          some (s3, pids, tr) := h
      clear h
      cases hw : writePage s1 pid { next := 0, dataLen := c.length, body := padChunk c } with
      | none => rw [hw] at h3; exact Option.noConfusion h3
      | some s2 =>
        rw [hw] at h3
        have h4 : (match writeBlobPages s2 cs with
          | none => none
          | some (s3, pids, tr) => some (s3, pid :: pids, tr1 ++ Ev.pageWrite pid :: tr)) =
            some (s3, pids, tr) := h3
        clear h3
        cases hb : writeBlobPages s2 cs with
        | none => rw [hb] at h4; exact Option.noConfusion h4
        | some p2 =>
          obtain ⟨s3', pids', tr'⟩ := p2
          rw [hb] at h4
          have h2 : some (s3', pid :: pids', tr1 ++ Ev.pageWrite pid :: tr') =
              some (s3, pids, tr) := h4
          cases h2
          have iha := allocPage_events ha
          obtain ⟨hlt, rfl⟩ := writePage_inv hw
          have ihb := writeBlobPages_events cs _ _ _ _ hb
          refine ⟨ihb.1.trans iha.1, ihb.2.1.trans iha.2.1, ihb.2.2.1.trans iha.2.2.1,
            ihb.2.2.2.1.trans iha.2.2.2.1, ?_⟩
          intro e he
          rcases List.mem_append.mp he with he | he
          · exact iha.2.2.2.2 e he
          · rcases List.mem_cons.mp he with rfl | he
            · exact Or.inr ⟨pid, rfl⟩
            · exact ihb.2.2.2.2 e he

theorem linkPages_events : ∀ (pids : List Nat) (s s2 : PagerS) (tr : List Ev),
    linkPages s pids = some (s2, tr) →
    s2.tableHead = s.tableHead ∧ s2.wal = s.wal ∧ s2.tables = s.tables ∧
      s2.nextTableID = s.nextTableID ∧ s2.freeList = s.freeList ∧
      ∀ e ∈ tr, ∃ p, e = Ev.pageWrite p
  | [], s, s2, tr => by
    intro h
    have h2 : some (s, ([] : List Ev)) = some (s2, tr) := h
    cases h2
    exact ⟨rfl, rfl, rfl, rfl, rfl, by intro e he; simp at he⟩
  | pid :: rest, s, s2, tr => by
    intro h
    simp only [linkPages] at h
    obtain ⟨nxt, hnxt⟩ : ∃ n, (match rest with | [] => 0 | q :: _ => q) = n := ⟨_, rfl⟩
    rw [hnxt] at h
    cases hr : readPage s pid with
    | none => rw [hr] at h; exact Option.noConfusion h
    | some pg =>
      rw [hr] at h
      have h3 : (match writePage s pid { pg with next := nxt } with
        | none => none
        | some s1 =>
          match linkPages s1 rest with
          | none => none
          | some (s2, tr) => some (s2, Ev.pageWrite pid :: tr)) = some (s2, tr) := h
      clear h
      cases hw : writePage s pid { pg with next := nxt } with
      | none => rw [hw] at h3; exact Option.noConfusion h3
      | some s1 =>
        rw [hw] at h3
        have h4 : (match linkPages s1 rest with
          | none => none
          | some (s2, tr) => some (s2, Ev.pageWrite pid :: tr)) = some (s2, tr) := h3
        clear h3
        cases hl : linkPages s1 rest with
        | none => rw [hl] at h4; exact Option.noConfusion h4
        | some p =>
          obtain ⟨s2', tr'⟩ := p
          rw [hl] at h4
          have h2 : some (s2', Ev.pageWrite pid :: tr') = some (s2, tr) := h4
          cases h2
          have ih := linkPages_events rest _ _ _ hl
          obtain ⟨hlt, rfl⟩ := writePage_inv hw
          refine ⟨ih.1, ih.2.1, ih.2.2.1, ih.2.2.2.1, ih.2.2.2.2.1, ?_⟩
          intro e he
          rcases List.mem_cons.mp he with rfl | he
          · exact ⟨pid, rfl⟩
          · exact ih.2.2.2.2.2 e he

theorem storeCore_events_tail {s1' : PagerS} {tid : Nat} {blob : List Nat}
    {tr1 : List Ev} {s1 : PagerS} {tr : List Ev} {w : List WalRec}
    {tb : List (Str × Nat)} {ntid : Nat}
    (hw : s1'.wal = w) (htb : s1'.tables = tb) (hni : s1'.nextTableID = ntid)
    (htr1 : ∀ e ∈ tr1, e = Ev.fileExtend ∨ ∃ p, e = Ev.pageWrite p)
    (h : (if blob.isEmpty then some (s1', tr1)
      else match writeBlobPages s1' (chunkList blob) with
        | none => none
        | some (s2, pids, tr2) =>
          match linkPages s2 pids with
          | none => none
          | some (s3, tr3) =>
            match pids with
            | [] => none
            | p0 :: _ => some ({ s3 with tableHead := headSet s3.tableHead tid p0 },
                tr1 ++ tr2 ++ tr3)) = some (s1, tr)) :
    s1.wal = w ∧ s1.tables = tb ∧ s1.nextTableID = ntid ∧
    ∀ e ∈ tr, e = Ev.fileExtend ∨ ∃ p, e = Ev.pageWrite p := by
  by_cases hemp : blob.isEmpty
  · rw [if_pos hemp] at h
    have h2 : some (s1', tr1) = some (s1, tr) := h
    cases h2
    exact ⟨hw, htb, hni, htr1⟩
  · rw [if_neg hemp] at h
    cases hb : writeBlobPages s1' (chunkList blob) with
    | none => rw [hb] at h; exact Option.noConfusion h
    | some p =>
      obtain ⟨s2, pids, tr2⟩ := p
      rw [hb] at h
      cases pids with
      | nil => exact Option.noConfusion h
      | cons p0 prest =>
        have h3 : (match linkPages s2 (p0 :: prest) with
          | none => none
          | some (s3, tr3) => some ({ s3 with tableHead := headSet s3.tableHead tid p0 },
              tr1 ++ tr2 ++ tr3)) = some (s1, tr) := h
        clear h
        cases hl : linkPages s2 (p0 :: prest) with
        | none => rw [hl] at h3; exact Option.noConfusion h3
        | some q =>
          obtain ⟨s3, tr3⟩ := q
          rw [hl] at h3
          have h2 : some (({ s3 with tableHead := headSet s3.tableHead tid p0 } : PagerS),
              tr1 ++ tr2 ++ tr3) = some (s1, tr) := h3
          cases h2
          have hbe := writeBlobPages_events _ _ _ _ _ hb
          have hle := linkPages_events _ _ _ _ hl
          refine ⟨?_, ?_, ?_, ?_⟩
          · show s3.wal = w
            rw [hle.2.1, hbe.2.1, hw]
          · show s3.tables = tb
            rw [hle.2.2.1, hbe.2.2.1, htb]
          · show s3.nextTableID = ntid
            rw [hle.2.2.2.1, hbe.2.2.2.1, hni]
          · intro e he
            rcases List.mem_append.mp he with he | he
            · rcases List.mem_append.mp he with he | he
              · exact htr1 e he
              · exact hbe.2.2.2.2 e he
            · exact Or.inr (hle.2.2.2.2.2 e he)

theorem storeFree_events {s : PagerS} {tid : Nat} {s1 : PagerS} {tr : List Ev}
    (h : storeFree s tid = some (s1, tr)) :
    s1.wal = s.wal ∧ s1.tables = s.tables ∧ s1.nextTableID = s.nextTableID ∧
    ∀ e ∈ tr, ∃ p, e = Ev.pageWrite p := by
  simp only [storeFree] at h
  by_cases hh : headLookup s.tableHead tid ≠ 0
  · rw [if_pos hh] at h
    cases hf : freeChainF s.pages.length s (headLookup s.tableHead tid) with
    | none => rw [hf] at h; exact Option.noConfusion h
    | some p =>
      obtain ⟨sA, tr1⟩ := p
      rw [hf] at h
      have h2 : some (({ sA with tableHead := headSet sA.tableHead tid 0 } : PagerS), tr1) =
          some (s1, tr) := h
      cases h2
      have hfe := freeChainF_events _ _ _ _ _ hf
      exact ⟨hfe.2.1, hfe.2.2.1, hfe.2.2.2.1, hfe.2.2.2.2⟩
  · rw [if_neg hh] at h
    have h2 : some (s, ([] : List Ev)) = some (s1, tr) := h
    cases h2
    exact ⟨rfl, rfl, rfl, by intro e he; simp at he⟩

theorem storeCore_events {s : PagerS} {tid : Nat} {blob : List Nat} {s1 : PagerS}
    {tr : List Ev} (h : storeCore s tid blob = some (s1, tr)) :
    s1.wal = s.wal ∧ s1.tables = s.tables ∧ s1.nextTableID = s.nextTableID ∧
    ∀ e ∈ tr, e = Ev.fileExtend ∨ ∃ p, e = Ev.pageWrite p := by
  simp only [storeCore] at h
  cases hsf : storeFree s tid with
  | none => rw [hsf] at h; exact Option.noConfusion h
  | some p =>
    obtain ⟨sF, trF⟩ := p
    rw [hsf] at h
    have hse := storeFree_events hsf
    have h2 : (if blob.isEmpty then some (sF, trF)
      else match writeBlobPages sF (chunkList blob) with
        | none => none
        | some (s2, pids, tr2) =>
          match linkPages s2 pids with
          | none => none
          | some (s3, tr3) =>
            match pids with
            | [] => none
            | p0 :: _ => some ({ s3 with tableHead := headSet s3.tableHead tid p0 },
                trF ++ tr2 ++ tr3)) = some (s1, tr) := h
    exact storeCore_events_tail hse.1 hse.2.1 hse.2.2.1
      (fun e he => Or.inr (hse.2.2.2 e he)) h2

/-! ## The blob chunking -/

theorem capPerPage_pos : 0 < capPerPage := by decide

theorem chunkListAux_flatten : ∀ (fuel : Nat) (b : List Nat), b.length ≤ fuel →
    (chunkListAux fuel b).flatten = b
  | fuel, [], _ => by cases fuel <;> rfl
  | 0, x :: xs, h => by simp at h
  | fuel+1, x :: xs, h => by
    show ((x :: xs).take capPerPage :: chunkListAux fuel ((x :: xs).drop capPerPage)).flatten
      = x :: xs
    rw [List.flatten_cons]
    rw [chunkListAux_flatten fuel _ (by
      have hcap := capPerPage_pos
      simp only [List.length_drop, List.length_cons]
      simp only [List.length_cons] at h
      omega)]
    exact List.take_append_drop capPerPage (x :: xs)

theorem chunkList_flatten (b : List Nat) : (chunkList b).flatten = b :=
  chunkListAux_flatten b.length b (Nat.le_refl _)

theorem chunkListAux_lengths : ∀ (fuel : Nat) (b c : List Nat),
    c ∈ chunkListAux fuel b → c.length ≤ capPerPage
  | fuel, [], c => by
    cases fuel <;> (intro h; simp [chunkListAux] at h)
  | 0, x :: xs, c => by
    intro h
    simp [chunkListAux] at h
  | fuel+1, x :: xs, c => by
    intro h
    have h2 : c ∈ (x :: xs).take capPerPage :: chunkListAux fuel ((x :: xs).drop capPerPage) := h
    rcases List.mem_cons.mp h2 with rfl | h2
    · simp [List.length_take]
    · exact chunkListAux_lengths fuel _ c h2

theorem chunkList_lengths (b : List Nat) : ∀ c ∈ chunkList b, c.length ≤ capPerPage :=
  fun c hc => chunkListAux_lengths b.length b c hc

theorem chunkList_ne_nil {b : List Nat} (h : b ≠ []) : chunkList b ≠ [] := by
  cases b with
  | nil => exact absurd rfl h
  | cons x xs =>
    show chunkListAux (xs.length + 1) (x :: xs) ≠ []
    simp [chunkListAux]

theorem padChunk_length {c : List Nat} (h : c.length ≤ capPerPage) :
    (padChunk c).length = capPerPage := by
  simp [padChunk]
  omega

theorem padChunk_take (c : List Nat) : (padChunk c).take c.length = c :=
  List.take_left c _

/-! ## The chain walk of `LoadTableBlob` -/

theorem walkChain_zero (ps : List Page) (fuel : Nat) : walkChain ps fuel 0 = some (some []) := by
  cases fuel <;> rfl

theorem walkChain_succ_some {ps : List Page} {q f : Nat} {pg : Page}
    (hpg : ps[q+1]? = some pg) :
    walkChain ps (f+1) (q+1) = (if PageSize < headerSize + pg.dataLen then some none
      else match walkChain ps f pg.next with
        | none => none
        | some none => some none
        | some (some rest) => some (some (pg.body.take pg.dataLen ++ rest))) := by
  show (match ps[q+1]? with
    | none => some none
    | some pg => if PageSize < headerSize + pg.dataLen then some none
      else match walkChain ps f pg.next with
        | none => none
        | some none => some none
        | some (some rest) => some (some (pg.body.take pg.dataLen ++ rest))) = _
  rw [hpg]

theorem walkChain_of_chainData {ps : List Page} : ∀ (cs : List (List Nat)) (h : Nat),
    ChainData ps h cs → ∀ (fuel : Nat), cs.length ≤ fuel →
    walkChain ps fuel h = some (some cs.flatten)
  | [], h, hc, fuel, _ => by
    cases hc
    exact walkChain_zero ps fuel
  | c :: cs, h, hc, fuel, hfuel => by
    cases hc with
    | cons hne hpg hdl hbody hfit hrest =>
      cases fuel with
      | zero => simp at hfuel
      | succ f =>
        obtain ⟨q, rfl⟩ : ∃ q, h = q + 1 := ⟨h - 1, by omega⟩
        rw [walkChain_succ_some hpg, if_neg (by omega)]
        rw [walkChain_of_chainData cs _ hrest f (by simpa using hfuel)]
        show some (some (_ ++ cs.flatten)) = some (some ((c :: cs).flatten))
        rw [hbody, List.flatten_cons]

theorem walkChain_total_of_chain {ps : List Page} : ∀ (l : List Nat) (h : Nat),
    Chain ps h l → ∀ (fuel : Nat), l.length ≤ fuel → ∃ r, walkChain ps fuel h = some r
  | [], h, hc, fuel, _ => by
    cases hc
    exact ⟨some [], walkChain_zero ps fuel⟩
  | p :: l, h, hc, fuel, hfuel => by
    cases hc with
    | cons hne hpg hrest =>
      rename_i pg
      cases fuel with
      | zero => simp at hfuel
      | succ f =>
        obtain ⟨q, rfl⟩ : ∃ q, p = q + 1 := ⟨p - 1, by omega⟩
        rw [walkChain_succ_some hpg]
        by_cases hcor : PageSize < headerSize + pg.dataLen
        · rw [if_pos hcor]
          exact ⟨none, rfl⟩
        · rw [if_neg hcor]
          obtain ⟨r, hr⟩ := walkChain_total_of_chain l _ hrest f (by simpa using hfuel)
          rw [hr]
          cases r with
          | none => exact ⟨none, rfl⟩
          | some rest => exact ⟨some (pg.body.take pg.dataLen ++ rest), rfl⟩

theorem walkChain_cycle {ps : List Page} {p : Nat} {pg : Page} (hne : p ≠ 0)
    (hpg : ps[p]? = some pg) (hloop : pg.next = p)
    (hfit : headerSize + pg.dataLen ≤ PageSize) :
    ∀ fuel, walkChain ps fuel p = none := by
  intro fuel
  induction fuel with
  | zero =>
    obtain ⟨q, hq⟩ : ∃ q, p = q + 1 := ⟨p - 1, by omega⟩
    rw [hq]
    rfl
  | succ f ih =>
    obtain ⟨q, hq⟩ : ∃ q, p = q + 1 := ⟨p - 1, by omega⟩
    rw [hq] at hpg hloop ih ⊢
    rw [walkChain_succ_some hpg, if_neg (by omega)]
    rw [hloop, ih]

theorem loadTableBlob_absent {s : PagerS} {tid : Nat}
    (h : headLookup s.tableHead tid = 0) : loadTableBlob s tid = some none := by
  unfold loadTableBlob loadTableBlobF
  rw [if_pos h]

theorem loadTableBlob_corrupt {s : PagerS} {tid : Nat} {pg : Page}
    (hne : headLookup s.tableHead tid ≠ 0)
    (hpg : s.pages[headLookup s.tableHead tid]? = some pg)
    (hbad : PageSize < headerSize + pg.dataLen) :
    loadTableBlob s tid = some none := by
  unfold loadTableBlob loadTableBlobF
  rw [if_neg hne]
  have hlt : headLookup s.tableHead tid < s.pages.length := by
    by_contra hge
    rw [List.getElem?_eq_none (by omega)] at hpg
    exact Option.noConfusion hpg
  obtain ⟨q, hq⟩ : ∃ q, headLookup s.tableHead tid = q + 1 :=
    ⟨headLookup s.tableHead tid - 1, by omega⟩
  rw [hq] at hpg ⊢
  obtain ⟨f, hf⟩ : ∃ f, s.pages.length = f + 1 := ⟨s.pages.length - 1, by omega⟩
  rw [hf]
  rw [walkChain_succ_some hpg, if_pos hbad]

theorem loadTableBlobF_cycle {s : PagerS} {tid : Nat} {pg : Page}
    (hne : headLookup s.tableHead tid ≠ 0)
    (hpg : s.pages[headLookup s.tableHead tid]? = some pg)
    (hloop : pg.next = headLookup s.tableHead tid)
    (hfit : headerSize + pg.dataLen ≤ PageSize) :
    ∀ fuel, loadTableBlobF s tid fuel = none := by
  intro fuel
  unfold loadTableBlobF
  rw [if_neg hne]
  exact walkChain_cycle hne hpg hloop hfit fuel

/-! ## The chain-freeing loop -/

theorem getElemSet_self {α : Type} {l : List α} {i : Nat} {a : α} (h : i < l.length) :
    (l.set i a)[i]? = some a := by
  rw [List.getElem?_set, if_pos rfl, if_pos h]

theorem freeChainF_spec : ∀ (l : List Nat) (fuel : Nat) (s : PagerS) (h : Nat)
    (fl : List Nat),
    Chain s.pages h l → l.Nodup → Chain s.pages s.freeList fl →
    (∀ p ∈ l, p ∈ fl → False) → l.length ≤ fuel →
    ∃ s2 tr, freeChainF fuel s h = some (s2, tr) ∧
      s2.pages.length = s.pages.length ∧
      (∀ q, q ∉ l → s2.pages[q]? = s.pages[q]?) ∧
      (∀ (q : Nat) (pg2 : Page), s2.pages[q]? = some pg2 →
        ∃ pg : Page, s.pages[q]? = some pg ∧
          pg2.body = pg.body ∧ pg2.dataLen = pg.dataLen) ∧
      Chain s2.pages s2.freeList (l.reverse ++ fl)
  | [], fuel, s, h, fl => by
    intro hc hnd hfl hdisj hfuel
    cases hc
    refine ⟨s, [], by cases fuel <;> rfl, rfl, fun q _ => rfl, ?_, ?_⟩
    · intro q pg2 hq
      exact ⟨pg2, hq, rfl, rfl⟩
    · simpa using hfl
  | p :: l, fuel, s, h, fl => by
    intro hc hnd hfl hdisj hfuel
    cases hc with
    | cons hne hpg hrest =>
      rename_i pg
      cases fuel with
      | zero => simp at hfuel
      | succ f =>
        obtain ⟨q0, rfl⟩ : ∃ q0, p = q0 + 1 := ⟨p - 1, by omega⟩
        have hlt : q0 + 1 < s.pages.length := by
          by_contra hge
          rw [List.getElem?_eq_none (by omega)] at hpg
          exact Option.noConfusion hpg
        have hred1 : freeChainF (f+1) s (q0+1) =
            (match writePage s (q0+1) { pg with next := s.freeList } with
              | none => none
              | some sW =>
                match freeChainF f { sW with freeList := q0+1 } pg.next with
                | none => none
                | some (s2, tr) => some (s2, Ev.pageWrite (q0+1) :: tr)) := by
          show (match readPage s (q0+1) with
            | none => none
            | some pgx =>
              match writePage s (q0+1) { pgx with next := s.freeList } with
              | none => none
              | some sW =>
                match freeChainF f { sW with freeList := q0+1 } pgx.next with
                | none => none
                | some (s2, tr) => some (s2, Ev.pageWrite (q0+1) :: tr)) = _
          rw [show readPage s (q0+1) = some pg from hpg]
        have hW : writePage s (q0+1) { pg with next := s.freeList } =
            some { s with pages := s.pages.set (q0+1) { pg with next := s.freeList } } := by
          simp only [writePage]
          rw [if_pos hlt]
        rw [hW] at hred1
        set sR : PagerS := { s with pages := (s.pages.set (q0+1) ({ pg with next := s.freeList })), freeList := q0 + 1 } with hsR
        have hred2 : freeChainF (f+1) s (q0+1) =
            (match freeChainF f sR pg.next with
              | none => none
              | some (s2, tr) => some (s2, Ev.pageWrite (q0+1) :: tr)) := hred1
        have hch1 : Chain (s.pages.set (q0+1) { pg with next := s.freeList }) pg.next l := by
          refine chain_frame ?_ hrest
          intro r hr
          have hne2 : q0 + 1 ≠ r :=
            fun he => (List.nodup_cons.mp hnd).1 (by rw [he]; exact hr)
          exact List.getElem?_set_ne hne2
        have hch2 : Chain (s.pages.set (q0+1) { pg with next := s.freeList }) (q0+1)
            ((q0+1) :: fl) := by
          refine Chain.cons hne (getElemSet_self hlt) ?_
          refine chain_frame ?_ hfl
          intro r hr
          have hne2 : q0 + 1 ≠ r :=
            fun he => hdisj (q0+1) (List.mem_cons_self _ _) (by rw [he]; exact hr)
          exact List.getElem?_set_ne hne2
        obtain ⟨s2, tr, hrec, hlen, hframe, hbody, hchain⟩ :=
          freeChainF_spec l f sR pg.next ((q0+1) :: fl)
            hch1 (List.nodup_cons.mp hnd).2 hch2
            (fun r hr hmem => by
              rcases List.mem_cons.mp hmem with rfl | hmem2
              · exact (List.nodup_cons.mp hnd).1 hr
              · exact hdisj r (List.mem_cons_of_mem _ hr) hmem2)
            (by simpa using hfuel)
        refine ⟨s2, Ev.pageWrite (q0+1) :: tr, by rw [hred2, hrec], ?_, ?_, ?_, ?_⟩
        · rw [hlen]
          exact List.length_set s.pages _ _
        · intro r hrnotin
          have hr1 : r ∉ l := fun hh => hrnotin (List.mem_cons_of_mem _ hh)
          have hr2 : r ≠ q0+1 := fun hh => hrnotin (hh ▸ List.mem_cons_self _ _)
          rw [hframe r hr1]
          exact List.getElem?_set_ne (Ne.symm hr2)
        · intro r pg2 hq
          obtain ⟨pgm, hm, hb, hd⟩ := hbody r pg2 hq
          by_cases hr : r = q0+1
          · subst hr
            have hm2 : (s.pages.set (q0+1) ({ pg with next := s.freeList }))[q0+1]? =
                some pgm := hm
            rw [getElemSet_self hlt] at hm2
            cases hm2
            exact ⟨pg, hpg, hb, hd⟩
          · have hm2 : (s.pages.set (q0+1) { pg with next := s.freeList })[r]? =
                some pgm := hm
            rw [List.getElem?_set_ne (fun he => hr he.symm)] at hm2
            exact ⟨pgm, hm2, hb, hd⟩
        · rw [List.reverse_cons, List.append_assoc]
          exact hchain

/-! ## Page allocation -/

theorem chain_head {ps : List Page} {h : Nat} {l : List Nat} (hc : Chain ps h l)
    (hne : h ≠ 0) :
    ∃ pg rest, ps[h]? = some pg ∧ Chain ps pg.next rest ∧ l = h :: rest := by
  cases hc with
  | nil => exact absurd rfl hne
  | cons hne2 hpg hrest => exact ⟨_, _, hpg, hrest, rfl⟩

theorem getElemAppend_lt {α : Type} {l1 l2 : List α} {n : Nat} (h : n < l1.length) :
    (l1 ++ l2)[n]? = l1[n]? := by
  rw [List.getElem?_append, if_pos h]

theorem allocPage_spec {s : PagerS} {fl : List Nat} {cf : Nat → List Nat}
    {extra : List Nat} (hP : Partition2 s fl cf extra) (hpos : 0 < s.pages.length)
    (hbody : ∀ pg ∈ s.pages, pg.body.length = capPerPage) :
    ∃ s1 pid tr fl1, allocPage s = some (s1, pid, tr) ∧
      Partition2 s1 fl1 cf (pid :: extra) ∧
      0 < s1.pages.length ∧ (∀ pg ∈ s1.pages, pg.body.length = capPerPage) ∧
      s.pages.length ≤ s1.pages.length ∧ pid < s1.pages.length ∧
      (∀ q, q < s.pages.length → q ≠ pid → s1.pages[q]? = s.pages[q]?) := by
  obtain ⟨hfl, hcf, hflnd, hcfnd, hexnd, hfc, hcc, hef, hec, hcov⟩ := hP
  by_cases hfz : s.freeList ≠ 0
  · obtain ⟨pg, fl', hpg, hrest, hfleq⟩ := chain_head hfl hfz
    subst hfleq
    have hlt : s.freeList < s.pages.length := by
      by_contra hge
      rw [List.getElem?_eq_none (by omega)] at hpg
      exact Option.noConfusion hpg
    have hndc := List.nodup_cons.mp hflnd
    set s1 : PagerS := { s with pages := (s.pages.set s.freeList ({ pg with next := 0 })), freeList := pg.next } with hs1
    have hW : writePage { s with freeList := pg.next } s.freeList { pg with next := 0 } =
        some s1 := by
      simp only [writePage]
      rw [if_pos hlt]
    have hred : allocPage s = some (s1, s.freeList, [Ev.pageWrite s.freeList]) := by
      simp only [allocPage]
      rw [if_pos hfz]
      rw [show readPage s s.freeList = some pg from hpg]
      show (match writePage { s with freeList := pg.next } s.freeList
          { pg with next := 0 } with
        | none => none
        | some s1 => some (s1, s.freeList, [Ev.pageWrite s.freeList])) = _
      rw [hW]
    have hlen : s1.pages.length = s.pages.length :=
      List.length_set s.pages s.freeList ({ pg with next := 0 })
    have hframe : ∀ q, q ≠ s.freeList → s1.pages[q]? = s.pages[q]? := by
      intro q hq
      exact List.getElem?_set_ne (fun he => hq he.symm)
    have hchainframe : ∀ (h0 : Nat) (l0 : List Nat), Chain s.pages h0 l0 →
        s.freeList ∉ l0 → Chain s1.pages h0 l0 := by
      intro h0 l0 hc hnotin
      refine chain_frame ?_ hc
      intro r hr
      exact hframe r (fun he => hnotin (he ▸ hr))
    refine ⟨s1, s.freeList, [Ev.pageWrite s.freeList], fl', hred, ?_, by omega, ?_,
      by omega, by omega, ?_⟩
    · refine ⟨?_, ?_, hndc.2, hcfnd, ?_, ?_, hcc, ?_, ?_, ?_⟩
      · exact hchainframe pg.next fl' hrest hndc.1
      · intro tid
        exact hchainframe _ _ (hcf tid)
          (fun hmem => hfc tid s.freeList (List.mem_cons_self _ _) hmem)
      · rw [List.nodup_cons]
        exact ⟨fun hmem => hef s.freeList hmem (List.mem_cons_self _ _), hexnd⟩
      · intro tid p hp hpc
        exact hfc tid p (List.mem_cons_of_mem _ hp) hpc
      · intro p hp hpf
        rcases List.mem_cons.mp hp with rfl | hp2
        · exact hndc.1 hpf
        · exact hef p hp2 (List.mem_cons_of_mem _ hpf)
      · intro tid p hp hpc
        rcases List.mem_cons.mp hp with rfl | hp2
        · exact hfc tid s.freeList (List.mem_cons_self _ _) hpc
        · exact hec tid p hp2 hpc
      · intro p
        rw [hlen]
        constructor
        · intro hmem
          rcases hmem with hp | hp | hp
          · exact (hcov p).mp (Or.inl (List.mem_cons_of_mem _ hp))
          · rcases List.mem_cons.mp hp with rfl | hp2
            · exact (hcov s.freeList).mp (Or.inl (List.mem_cons_self _ _))
            · exact (hcov p).mp (Or.inr (Or.inl hp2))
          · exact (hcov p).mp (Or.inr (Or.inr hp))
        · intro hrng
          rcases (hcov p).mpr hrng with hp | hp | hp
          · rcases List.mem_cons.mp hp with rfl | hp2
            · exact Or.inr (Or.inl (List.mem_cons_self _ _))
            · exact Or.inl hp2
          · exact Or.inr (Or.inl (List.mem_cons_of_mem _ hp))
          · exact Or.inr (Or.inr hp)
    · intro pg2 hmem
      rcases List.mem_or_eq_of_mem_set hmem with hmem2 | rfl
      · exact hbody pg2 hmem2
      · exact hbody pg (List.getElem?_mem hpg)
    · intro q hqlt hqne
      exact hframe q hqne
  · push_neg at hfz
    have hfl0 : fl = [] := chain_zero (hfz ▸ hfl)
    subst hfl0
    set s1 : PagerS := { s with pages := s.pages ++ [zeroPage] } with hs1
    have hred : allocPage s = some (s1, s.pages.length, [Ev.fileExtend]) := by
      simp only [allocPage]
      rw [if_neg (fun hc => hc hfz)]
    have hlen1 : s1.pages.length = s.pages.length + 1 := by
      show (s.pages ++ [zeroPage]).length = _
      simp
    have hframe : ∀ q, q < s.pages.length → s1.pages[q]? = s.pages[q]? := by
      intro q hq
      exact getElemAppend_lt hq
    have hchainframe : ∀ (h0 : Nat) (l0 : List Nat), Chain s.pages h0 l0 →
        Chain s1.pages h0 l0 := by
      intro h0 l0 hc
      refine chain_frame ?_ hc
      intro r hr
      exact hframe r (chain_valid hc r hr).2
    refine ⟨s1, s.pages.length, [Ev.fileExtend], [], hred, ?_, by omega, ?_, by omega,
      by omega, fun q hq _ => hframe q hq⟩
    · refine ⟨?_, ?_, List.nodup_nil, hcfnd, ?_, ?_, hcc, ?_, ?_, ?_⟩
      · have hfl1 : s1.freeList = 0 := hfz
        rw [hfl1]
        exact Chain.nil
      · intro tid
        exact hchainframe _ _ (hcf tid)
      · rw [List.nodup_cons]
        refine ⟨fun hmem => ?_, hexnd⟩
        have := ((hcov s.pages.length).mp (Or.inr (Or.inl hmem))).2
        omega
      · intro tid p hp hpc
        simp at hp
      · intro p hp hpf
        simp at hpf
      · intro tid p hp hpc
        rcases List.mem_cons.mp hp with rfl | hp2
        · have := ((hcov s.pages.length).mp (Or.inr (Or.inr ⟨tid, hpc⟩))).2
          omega
        · exact hec tid p hp2 hpc
      · intro p
        rw [hlen1]
        constructor
        · intro hmem
          rcases hmem with hp | hp | hp
          · simp at hp
          · rcases List.mem_cons.mp hp with rfl | hp2
            · exact ⟨by omega, by omega⟩
            · have := (hcov p).mp (Or.inr (Or.inl hp2))
              exact ⟨this.1, by omega⟩
          · have := (hcov p).mp (Or.inr (Or.inr hp))
            exact ⟨this.1, by omega⟩
        · intro hrng
          by_cases hpl : p < s.pages.length
          · rcases (hcov p).mpr ⟨hrng.1, hpl⟩ with hp | hp | hp
            · simp at hp
            · exact Or.inr (Or.inl (List.mem_cons_of_mem _ hp))
            · exact Or.inr (Or.inr hp)
          · have hpe : p = s.pages.length := by omega
            subst hpe
            exact Or.inr (Or.inl (List.mem_cons_self _ _))
    · intro pg2 hmem
      rcases List.mem_append.mp hmem with hmem2 | hmem2
      · exact hbody pg2 hmem2
      · have hz : pg2 = zeroPage := by simpa using hmem2
        subst hz
        simp [zeroPage]

theorem partition2_perm_extra {s : PagerS} {fl : List Nat} {cf : Nat → List Nat}
    {e1 e2 : List Nat} (hperm : e1.Perm e2) (hP : Partition2 s fl cf e1) :
    Partition2 s fl cf e2 := by
  obtain ⟨h1, h2, h3, h4, h5, h6, h7, h8, h9, h10⟩ := hP
  refine ⟨h1, h2, h3, h4, (hperm.nodup_iff).mp h5, h6, h7, ?_, ?_, ?_⟩
  · intro p hp hpf
    exact h8 p (hperm.mem_iff.mpr hp) hpf
  · intro tid p hp hpc
    exact h9 tid p (hperm.mem_iff.mpr hp) hpc
  · intro p
    constructor
    · rintro (hp | hp | hp)
      · exact (h10 p).mp (Or.inl hp)
      · exact (h10 p).mp (Or.inr (Or.inl (hperm.mem_iff.mpr hp)))
      · exact (h10 p).mp (Or.inr (Or.inr hp))
    · intro hr
      rcases (h10 p).mpr hr with hp | hp | hp
      · exact Or.inl hp
      · exact Or.inr (Or.inl (hperm.mem_iff.mp hp))
      · exact Or.inr (Or.inr hp)

/-- The allocate-and-write loop of `StoreTableBlob`: every chunk gets a fresh
page holding it (next pointer zero), the pages outside the returned list are
untouched, and the ownership partition keeps the new pages in the `extra`
pool. -/
theorem writeBlobPages_spec : ∀ (cs : List (List Nat)) (s : PagerS) (fl : List Nat)
    (cf : Nat → List Nat) (extra : List Nat),
    Partition2 s fl cf extra → 0 < s.pages.length →
    (∀ pg ∈ s.pages, pg.body.length = capPerPage) →
    (∀ c ∈ cs, c.length ≤ capPerPage) →
    ∃ s3 pids tr fl3, writeBlobPages s cs = some (s3, pids, tr) ∧
      Partition2 s3 fl3 cf (pids ++ extra) ∧
      0 < s3.pages.length ∧ (∀ pg ∈ s3.pages, pg.body.length = capPerPage) ∧
      s.pages.length ≤ s3.pages.length ∧
      pids.length = cs.length ∧
      List.Forall₂ (fun p c => s3.pages[p]? =
        some { next := 0, dataLen := c.length, body := padChunk c }) pids cs ∧
      (∀ q, q < s.pages.length → q ∉ pids → s3.pages[q]? = s.pages[q]?)
  | [], s, fl, cf, extra => by
    intro hP hpos hbody _
    exact ⟨s, [], [], fl, rfl, hP, hpos, hbody, Nat.le_refl _, rfl, List.Forall₂.nil,
      fun q _ _ => rfl⟩
  | c :: cs, s, fl, cf, extra => by
    intro hP hpos hbody hclen
    obtain ⟨s1, pid, tr1, fl1, halloc, hprt1, hpos1, hbody1, hle1, hpidlt1, hframe1⟩ :=
      allocPage_spec hP hpos hbody
    set s2 : PagerS := { s1 with pages := (s1.pages.set pid ({ next := 0, dataLen := c.length, body := padChunk c } : Page)) } with hs2
    have hW : writePage s1 pid { next := 0, dataLen := c.length, body := padChunk c } =
        some s2 := by
      simp only [writePage]
      rw [if_pos hpidlt1]
    have hlen2 : s2.pages.length = s1.pages.length :=
      List.length_set s1.pages pid _
    have hframe2 : ∀ q, q ≠ pid → s2.pages[q]? = s1.pages[q]? := by
      intro q hq
      exact List.getElem?_set_ne (fun he => hq he.symm)
    have hprt2 : Partition2 s2 fl1 cf (pid :: extra) := by
      obtain ⟨h1, h2, h3, h4, h5, h6, h7, h8, h9, h10⟩ := hprt1
      refine ⟨?_, ?_, h3, h4, h5, h6, h7, h8, h9, ?_⟩
      · refine chain_frame ?_ h1
        intro r hr
        exact hframe2 r (fun he => h8 pid (List.mem_cons_self _ _) (he ▸ hr))
      · intro tid
        refine chain_frame ?_ (h2 tid)
        intro r hr
        exact hframe2 r (fun he => h9 tid pid (List.mem_cons_self _ _) (he ▸ hr))
      · intro p
        rw [show s2.pages.length = s1.pages.length from hlen2]
        exact h10 p
    have hbody2 : ∀ pg ∈ s2.pages, pg.body.length = capPerPage := by
      intro pg hmem
      rcases List.mem_or_eq_of_mem_set hmem with hmem2 | rfl
      · exact hbody1 pg hmem2
      · exact padChunk_length (hclen c (List.mem_cons_self _ _))
    obtain ⟨s3, pids', tr', fl3, hrec, hprt3, hpos3, hbody3, hle3, hplen, hfa, hframe3⟩ :=
      writeBlobPages_spec cs s2 fl1 cf (pid :: extra) hprt2 (by omega) hbody2
        (fun c2 hc2 => hclen c2 (List.mem_cons_of_mem _ hc2))
    have hpidnot : pid ∉ pids' := by
      have h5 := hprt3.2.2.2.2.1
      have hd := (List.nodup_append.mp h5).2.2
      exact fun hp => hd hp (List.mem_cons_self _ _)
    have hred : writeBlobPages s (c :: cs) =
        some (s3, pid :: pids', tr1 ++ Ev.pageWrite pid :: tr') := by
      show (match allocPage s with
        | none => none
        | some (s1, pid, tr1) =>
          match writePage s1 pid { next := 0, dataLen := c.length, body := padChunk c } with
          | none => none
          | some s2 =>
            match writeBlobPages s2 cs with
            | none => none
            | some (s3, pids, tr) =>
              some (s3, pid :: pids, tr1 ++ Ev.pageWrite pid :: tr)) = _
      rw [halloc]
      show (match writePage s1 pid { next := 0, dataLen := c.length, body := padChunk c } with
        | none => none
        | some s2 =>
          match writeBlobPages s2 cs with
          | none => none
          | some (s3, pids, tr) =>
            some (s3, pid :: pids, tr1 ++ Ev.pageWrite pid :: tr)) = _
      rw [hW]
      show (match writeBlobPages s2 cs with
        | none => none
        | some (s3, pids, tr) =>
          some (s3, pid :: pids, tr1 ++ Ev.pageWrite pid :: tr)) = _
      rw [hrec]
    refine ⟨s3, pid :: pids', tr1 ++ Ev.pageWrite pid :: tr', fl3, hred, ?_, hpos3,
      hbody3, by omega, by simpa using hplen, ?_, ?_⟩
    · refine partition2_perm_extra ?_ hprt3
      show (pids' ++ pid :: extra).Perm ((pid :: pids') ++ extra)
      exact List.perm_middle
    · refine List.Forall₂.cons ?_ hfa
      rw [hframe3 pid (by omega) hpidnot]
      exact getElemSet_self hpidlt1
    · intro q hqlt hqnot
      have hq1 : q ≠ pid := fun he => hqnot (he ▸ List.mem_cons_self _ _)
      have hq2 : q ∉ pids' := fun hh => hqnot (List.mem_cons_of_mem _ hh)
      rw [hframe3 q (by omega) hq2, hframe2 q hq1, hframe1 q hqlt hq1]

theorem forall₂_frame {ps1 ps2 : List Page} : ∀ {pids : List Nat} {cs : List (List Nat)},
    (∀ q ∈ pids, ps2[q]? = ps1[q]?) →
    List.Forall₂ (fun p c => ps1[p]? =
      some { next := 0, dataLen := c.length, body := padChunk c }) pids cs →
    List.Forall₂ (fun p c => ps2[p]? =
      some { next := 0, dataLen := c.length, body := padChunk c }) pids cs := by
  intro pids cs hfr hfa
  induction hfa with
  | nil => exact List.Forall₂.nil
  | cons hhead htail ih =>
    refine List.Forall₂.cons ?_ (ih (fun q hq => hfr q (List.mem_cons_of_mem _ hq)))
    rw [hfr _ (List.mem_cons_self _ _)]
    exact hhead

/-- The linking loop of `StoreTableBlob`: after rewriting each written page
with the pointer to its successor, the page ids form a chain holding exactly
the chunks; pages outside the list are untouched. -/
theorem linkPages_spec : ∀ (pids : List Nat) (cs : List (List Nat)) (s : PagerS),
    pids.Nodup →
    List.Forall₂ (fun p c => s.pages[p]? =
      some { next := 0, dataLen := c.length, body := padChunk c }) pids cs →
    (∀ p ∈ pids, p ≠ 0) →
    (∀ c ∈ cs, c.length ≤ capPerPage) →
    ∃ s2 tr, linkPages s pids = some (s2, tr) ∧
      s2.pages.length = s.pages.length ∧
      (∀ q, q ∉ pids → s2.pages[q]? = s.pages[q]?) ∧
      (∀ (q : Nat) (pg2 : Page), s2.pages[q]? = some pg2 → ∃ pg : Page,
        s.pages[q]? = some pg ∧ pg2.body = pg.body ∧ pg2.dataLen = pg.dataLen) ∧
      Chain s2.pages (pids.headD 0) pids ∧
      ChainData s2.pages (pids.headD 0) cs
  | [], cs, s => by
    intro _ hfa _ _
    cases hfa
    exact ⟨s, [], rfl, rfl, fun q _ => rfl, fun q pg2 hq => ⟨pg2, hq, rfl, rfl⟩,
      Chain.nil, ChainData.nil⟩
  | p :: rest, cs, s => by
    intro hnd hfa hnz hclen
    cases hfa with
    | cons hhead htail =>
      rename_i c cs'
      have hplt : p < s.pages.length := by
        by_contra hge
        rw [List.getElem?_eq_none (by omega)] at hhead
        exact Option.noConfusion hhead
      have hW : ∀ nx : Nat, writePage s p
          { next := nx, dataLen := c.length, body := padChunk c } =
          some { s with pages := (s.pages.set p ({ next := nx, dataLen := c.length, body := padChunk c } : Page)) } := by
        intro nx
        simp only [writePage]
        rw [if_pos hplt]
      have hred : linkPages s (p :: rest) =
          (match linkPages { s with pages := (s.pages.set p ({ next := rest.headD 0, dataLen := c.length, body := padChunk c } : Page)) } rest with
            | none => none
            | some (s2, tr) => some (s2, Ev.pageWrite p :: tr)) := by
        cases rest with
        | nil =>
          show (match readPage s p with
            | none => none
            | some pg =>
              match writePage s p { pg with next := 0 } with
              | none => none
              | some s1 =>
                match linkPages s1 [] with
                | none => none
                | some (s2, tr) => some (s2, Ev.pageWrite p :: tr)) = _
          rw [show readPage s p =
            some ({ next := 0, dataLen := c.length, body := padChunk c } : Page) from hhead]
          show (match writePage s p
              { next := 0, dataLen := c.length, body := padChunk c } with
            | none => none
            | some s1 =>
              match linkPages s1 [] with
              | none => none
              | some (s2, tr) => some (s2, Ev.pageWrite p :: tr)) = _
          rw [hW 0]
          rfl
        | cons q rest' =>
          show (match readPage s p with
            | none => none
            | some pg =>
              match writePage s p { pg with next := q } with
              | none => none
              | some s1 =>
                match linkPages s1 (q :: rest') with
                | none => none
                | some (s2, tr) => some (s2, Ev.pageWrite p :: tr)) = _
          rw [show readPage s p =
            some ({ next := 0, dataLen := c.length, body := padChunk c } : Page) from hhead]
          show (match writePage s p
              { next := q, dataLen := c.length, body := padChunk c } with
            | none => none
            | some s1 =>
              match linkPages s1 (q :: rest') with
              | none => none
              | some (s2, tr) => some (s2, Ev.pageWrite p :: tr)) = _
          rw [hW q]
          rfl
      set s1 : PagerS := { s with pages := (s.pages.set p ({ next := rest.headD 0, dataLen := c.length, body := padChunk c } : Page)) } with hs1
      have hndc := List.nodup_cons.mp hnd
      have hframe1 : ∀ q, q ≠ p → s1.pages[q]? = s.pages[q]? := by
        intro q hq
        exact List.getElem?_set_ne (fun he => hq he.symm)
      obtain ⟨s2, tr, hrec, hlen, hframe, hbodyfr, hchain, hdata⟩ :=
        linkPages_spec rest cs' s1 hndc.2
          (forall₂_frame (fun q hq => hframe1 q (fun he => hndc.1 (he ▸ hq))) htail)
          (fun q hq => hnz q (List.mem_cons_of_mem _ hq))
          (fun c2 hc2 => hclen c2 (List.mem_cons_of_mem _ hc2))
      have hp_s2 : s2.pages[p]? =
          some ({ next := rest.headD 0, dataLen := c.length, body := padChunk c } : Page) := by
        rw [hframe p hndc.1]
        exact getElemSet_self hplt
      have hcap : headerSize + capPerPage = PageSize := by decide
      have hfit : headerSize + c.length ≤ PageSize := by
        have := hclen c (List.mem_cons_self _ _)
        omega
      refine ⟨s2, Ev.pageWrite p :: tr, by rw [hred, hrec], ?_, ?_, ?_, ?_, ?_⟩
      · rw [hlen]
        exact List.length_set s.pages p _
      · intro q hqnot
        have hq1 : q ≠ p := fun he => hqnot (he ▸ List.mem_cons_self _ _)
        have hq2 : q ∉ rest := fun hh => hqnot (List.mem_cons_of_mem _ hh)
        rw [hframe q hq2]
        exact hframe1 q hq1
      · intro q pg2 hq
        obtain ⟨pgm, hm, hbeq, hdeq⟩ := hbodyfr q pg2 hq
        by_cases hqp : q = p
        · subst hqp
          have hm2 : (s.pages.set q ({ next := rest.headD 0, dataLen := c.length, body := padChunk c } : Page))[q]? = some pgm := hm
          rw [getElemSet_self hplt] at hm2
          cases hm2
          refine ⟨_, hhead, ?_, ?_⟩
          · rw [hbeq]
          · rw [hdeq]
        · have hm2 : s1.pages[q]? = some pgm := hm
          rw [hframe1 q hqp] at hm2
          exact ⟨pgm, hm2, hbeq, hdeq⟩
      · exact Chain.cons (hnz p (List.mem_cons_self _ _)) hp_s2 hchain
      · exact ChainData.cons (hnz p (List.mem_cons_self _ _)) hp_s2 rfl
          (padChunk_take c) hfit hdata

theorem partitionW_to_2 {s : PagerS} {fl : List Nat} {cf : Nat → List Nat}
    (h : PartitionW s fl cf) : Partition2 s fl cf [] := by
  obtain ⟨h1, h2, h3, h4, h5, h6, h7⟩ := h
  refine ⟨h1, h2, h3, h4, List.nodup_nil, h5, h6, ?_, ?_, ?_⟩
  · intro p hp _
    simp at hp
  · intro tid p hp _
    simp at hp
  · intro p
    constructor
    · rintro (hp | hp | hp)
      · exact (h7 p).mp (Or.inl hp)
      · simp at hp
      · exact (h7 p).mp (Or.inr hp)
    · intro hr
      rcases (h7 p).mpr hr with hp | hp
      · exact Or.inl hp
      · exact Or.inr (Or.inr hp)

theorem partition2_to_W {s : PagerS} {fl : List Nat} {cf : Nat → List Nat}
    (h : Partition2 s fl cf []) : PartitionW s fl cf := by
  obtain ⟨h1, h2, h3, h4, _, h6, h7, _, _, h10⟩ := h
  refine ⟨h1, h2, h3, h4, h6, h7, ?_⟩
  intro p
  constructor
  · rintro (hp | hp)
    · exact (h10 p).mp (Or.inl hp)
    · exact (h10 p).mp (Or.inr (Or.inr hp))
  · intro hr
    rcases (h10 p).mpr hr with hp | hp | hp
    · exact Or.inl hp
    · simp at hp
    · exact Or.inr hp

theorem bodies_of_frame {sOld sNew : List Page}
    (hb : ∀ (q : Nat) (pg2 : Page), sNew[q]? = some pg2 → ∃ pg : Page,
      sOld[q]? = some pg ∧ pg2.body = pg.body ∧ pg2.dataLen = pg.dataLen)
    (hold : ∀ pg ∈ sOld, pg.body.length = capPerPage) :
    ∀ pg ∈ sNew, pg.body.length = capPerPage := by
  intro pg hmem
  obtain ⟨i, hi⟩ := List.mem_iff_getElem?.mp hmem
  obtain ⟨pg0, h0, hbeq, _⟩ := hb i pg hi
  rw [hbeq]
  exact hold pg0 (List.getElem?_mem h0)

/-- The write-and-link tail of `storeCore` on a non-empty blob: it succeeds,
re-establishes the store invariant with the new pages as the chain of `tid`,
and a load of `tid` afterwards returns the blob. -/
theorem storeCore_tail_spec {sF : PagerS} (tid : Nat) (blob : List Nat)
    {flF : List Nat} {cfF : Nat → List Nat}
    (hpos : 0 < sF.pages.length) (hbody : ∀ pg ∈ sF.pages, pg.body.length = capPerPage)
    (hkeys : (sF.tableHead.map Prod.fst).Nodup)
    (hP : PartitionW sF flF cfF) (hcfnil : cfF tid = [])
    (hne : blob ≠ []) :
    ∃ s2 pids tr2 s3 tr3 p0 pr,
      writeBlobPages sF (chunkList blob) = some (s2, pids, tr2) ∧
      linkPages s2 pids = some (s3, tr3) ∧
      pids = p0 :: pr ∧
      Inv ({ s3 with tableHead := headSet s3.tableHead tid p0 }) ∧
      loadTableBlob ({ s3 with tableHead := headSet s3.tableHead tid p0 }) tid =
        some (some blob) := by
  obtain ⟨s2, pids, tr2, fl2, hwrite, hprt2, hpos2, hbody2, hle2, hplen, hfa, hframe2⟩ :=
    writeBlobPages_spec (chunkList blob) sF flF cfF [] (partitionW_to_2 hP) hpos hbody
      (chunkList_lengths blob)
  rw [List.append_nil] at hprt2
  obtain ⟨g1, g2, g3, g4, g5, g6, g7, g8, g9, g10⟩ := hprt2
  have hpidnz : ∀ p ∈ pids, p ≠ 0 := by
    intro p hp
    exact ((g10 p).mp (Or.inr (Or.inl hp))).1
  obtain ⟨s3, tr3, hlink, hlen3, hframe3, hbodyfr3, hchain3, hdata3⟩ :=
    linkPages_spec pids (chunkList blob) s2 g5 hfa hpidnz (chunkList_lengths blob)
  have hble := writeBlobPages_events _ _ _ _ _ hwrite
  have hlle := linkPages_events _ _ _ _ hlink
  have hpidsne : pids ≠ [] := by
    intro hnil
    rw [hnil] at hplen
    exact chunkList_ne_nil hne (List.length_eq_zero.mp hplen.symm)
  obtain ⟨p0, pr, rfl⟩ : ∃ p0 pr, pids = p0 :: pr := by
    cases pids with
    | nil => exact absurd rfl hpidsne
    | cons a b => exact ⟨a, b, rfl⟩
  have hchain3h : Chain s3.pages p0 (p0 :: pr) := hchain3
  have hdata3h : ChainData s3.pages p0 (chunkList blob) := hdata3
  have hlink_frame_chain : ∀ (h0 : Nat) (l0 : List Nat), Chain s2.pages h0 l0 →
      (∀ p ∈ l0, p ∈ p0 :: pr → False) → Chain s3.pages h0 l0 := by
    intro h0 l0 hc hdisj
    refine chain_frame ?_ hc
    intro r hr
    exact hframe3 r (fun hmem => hdisj r hr hmem)
  set s4 : PagerS := { s3 with tableHead := headSet s3.tableHead tid p0 } with hs4
  have hkeys3 : (s3.tableHead.map Prod.fst).Nodup := by
    rw [hlle.1, hble.1]
    exact hkeys
  have hpos4 : 0 < s4.pages.length := by
    show 0 < s3.pages.length
    omega
  have hcov4len : s3.pages.length = s2.pages.length := hlen3
  refine ⟨s2, p0 :: pr, tr2, s3, tr3, p0, pr, hwrite, hlink, rfl, ?_, ?_⟩
  · -- the invariant at the final state
    refine ⟨hpos4, ?_, headSet_keys_nodup _ _ _ hkeys3, fl2,
      (fun t => if t = tid then p0 :: pr else cfF t), ?_, ?_, g3, ?_, ?_, ?_, ?_⟩
    · exact bodies_of_frame hbodyfr3 hbody2
    · -- Chain s4.pages s4.freeList fl2
      show Chain s3.pages s3.freeList fl2
      rw [hlle.2.2.2.2.1]
      exact hlink_frame_chain _ _ g1 (fun p hp hmem => g8 p hmem hp)
    · -- per-table chains
      intro t
      by_cases ht : t = tid
      · subst ht
        show Chain s3.pages (headLookup (headSet s3.tableHead t p0) t)
          (if t = t then p0 :: pr else cfF t)
        rw [headLookup_headSet_self, if_pos rfl]
        exact hchain3h
      · show Chain s3.pages (headLookup (headSet s3.tableHead tid p0) t)
          (if t = tid then p0 :: pr else cfF t)
        rw [headLookup_headSet_ne _ _ _ _ ht, if_neg ht, hlle.1]
        exact hlink_frame_chain _ _ (g2 t) (fun p hp hmem => g9 t p hmem hp)
    · -- per-table nodup
      intro t
      show (if t = tid then p0 :: pr else cfF t).Nodup
      by_cases ht : t = tid
      · rw [if_pos ht]
        exact g5
      · rw [if_neg ht]
        exact g4 t
    · -- free list vs chains
      intro t p hp hpc
      have hpc2 : p ∈ (if t = tid then p0 :: pr else cfF t) := hpc
      by_cases ht : t = tid
      · rw [if_pos ht] at hpc2
        exact g8 p hpc2 hp
      · rw [if_neg ht] at hpc2
        exact g6 t p hp hpc2
    · -- chains pairwise
      intro t1 t2 hne12 p hp1 hp2
      have hp1b : p ∈ (if t1 = tid then p0 :: pr else cfF t1) := hp1
      have hp2b : p ∈ (if t2 = tid then p0 :: pr else cfF t2) := hp2
      by_cases h1 : t1 = tid
      · rw [if_pos h1] at hp1b
        rw [if_neg (fun he => hne12 (h1.trans he.symm))] at hp2b
        exact g9 t2 p hp1b hp2b
      · rw [if_neg h1] at hp1b
        by_cases h2 : t2 = tid
        · rw [if_pos h2] at hp2b
          exact g9 t1 p hp2b hp1b
        · rw [if_neg h2] at hp2b
          exact g7 t1 t2 hne12 p hp1b hp2b
    · -- coverage
      intro p
      show (p ∈ fl2 ∨ ∃ t, p ∈ (if t = tid then p0 :: pr else cfF t)) ↔
        (p ≠ 0 ∧ p < s3.pages.length)
      rw [hcov4len]
      constructor
      · rintro (hp | ⟨t, hp⟩)
        · exact (g10 p).mp (Or.inl hp)
        · by_cases ht : t = tid
          · rw [if_pos ht] at hp
            exact (g10 p).mp (Or.inr (Or.inl hp))
          · rw [if_neg ht] at hp
            exact (g10 p).mp (Or.inr (Or.inr ⟨t, hp⟩))
      · intro hr
        rcases (g10 p).mpr hr with hp | hp | ⟨t, hp⟩
        · exact Or.inl hp
        · exact Or.inr ⟨tid, by rw [if_pos rfl]; exact hp⟩
        · by_cases ht : t = tid
          · rw [ht, hcfnil] at hp
            simp at hp
          · exact Or.inr ⟨t, by rw [if_neg ht]; exact hp⟩
  · -- the load returns the blob
    have hp0nz : p0 ≠ 0 := hpidnz p0 (List.mem_cons_self _ _)
    have hhl : headLookup s4.tableHead tid = p0 := headLookup_headSet_self _ _ _
    unfold loadTableBlob loadTableBlobF
    rw [hhl, if_neg hp0nz]
    have hfuel : (chunkList blob).length ≤ s4.pages.length := by
      have hlt := chain_length_lt hchain3h g5 (by omega)
      have hcl : (chunkList blob).length = (p0 :: pr).length := hplen.symm
      have hs4len : s4.pages.length = s3.pages.length := rfl
      omega
    have := walkChain_of_chainData (chunkList blob) p0 hdata3h s4.pages.length hfuel
    rw [this, chunkList_flatten]

/-- After freeing the chain of `tid` onto the free list and dropping `tid`
from the head map, the ownership partition holds again with `tid` owning no
pages. -/
theorem freed_partition {s sA : PagerS} {tid : Nat} {fl : List Nat}
    {cf : Nat → List Nat} {th2 : List (Nat × Nat)}
    (hchainA : Chain sA.pages sA.freeList ((cf tid).reverse ++ fl))
    (hframeA : ∀ q, q ∉ cf tid → sA.pages[q]? = s.pages[q]?)
    (hlenA : sA.pages.length = s.pages.length)
    (hth : sA.tableHead = th2)
    (h2 : ∀ t, Chain s.pages (headLookup s.tableHead t) (cf t))
    (h3 : fl.Nodup) (h4 : ∀ t, (cf t).Nodup)
    (h6 : ∀ t p, p ∈ fl → p ∈ cf t → False)
    (h7 : ∀ t1 t2, t1 ≠ t2 → ∀ p, p ∈ cf t1 → p ∈ cf t2 → False)
    (h10 : ∀ p, (p ∈ fl ∨ ∃ t, p ∈ cf t) ↔ (p ≠ 0 ∧ p < s.pages.length))
    (hl0 : headLookup th2 tid = 0)
    (hlne : ∀ t, t ≠ tid → headLookup th2 t = headLookup s.tableHead t) :
    PartitionW sA ((cf tid).reverse ++ fl) (fun t => if t = tid then [] else cf t) := by
  refine ⟨hchainA, ?_, ?_, ?_, ?_, ?_, ?_⟩
  · intro t
    by_cases ht : t = tid
    · subst ht
      show Chain sA.pages (headLookup sA.tableHead t) (if t = t then [] else cf t)
      rw [hth, hl0, if_pos rfl]
      exact Chain.nil
    · show Chain sA.pages (headLookup sA.tableHead t) (if t = tid then [] else cf t)
      rw [hth, hlne t ht, if_neg ht]
      refine chain_frame ?_ (h2 t)
      intro r hr
      exact hframeA r (fun hmem => h7 t tid ht r hr hmem)
  · rw [List.nodup_append]
    refine ⟨List.nodup_reverse.mpr (h4 tid), h3, ?_⟩
    intro p hp hpf
    exact h6 tid p hpf (List.mem_reverse.mp hp)
  · intro t
    show (if t = tid then [] else cf t).Nodup
    by_cases ht : t = tid
    · rw [if_pos ht]
      exact List.nodup_nil
    · rw [if_neg ht]
      exact h4 t
  · intro t p hp hpc
    have hpc2 : p ∈ (if t = tid then [] else cf t) := hpc
    by_cases ht : t = tid
    · rw [if_pos ht] at hpc2
      simp at hpc2
    · rw [if_neg ht] at hpc2
      rcases List.mem_append.mp hp with hp2 | hp2
      · exact h7 tid t (fun he => ht he.symm) p (List.mem_reverse.mp hp2) hpc2
      · exact h6 t p hp2 hpc2
  · intro t1 t2 hne12 p hp1 hp2
    have hp1b : p ∈ (if t1 = tid then [] else cf t1) := hp1
    have hp2b : p ∈ (if t2 = tid then [] else cf t2) := hp2
    by_cases hx1 : t1 = tid
    · rw [if_pos hx1] at hp1b
      simp at hp1b
    · rw [if_neg hx1] at hp1b
      by_cases hx2 : t2 = tid
      · rw [if_pos hx2] at hp2b
        simp at hp2b
      · rw [if_neg hx2] at hp2b
        exact h7 t1 t2 hne12 p hp1b hp2b
  · intro p
    show (p ∈ (cf tid).reverse ++ fl ∨ ∃ t, p ∈ (if t = tid then [] else cf t)) ↔
      (p ≠ 0 ∧ p < sA.pages.length)
    rw [hlenA]
    constructor
    · rintro (hp | ⟨t, hp⟩)
      · rcases List.mem_append.mp hp with hp2 | hp2
        · exact (h10 p).mp (Or.inr ⟨tid, List.mem_reverse.mp hp2⟩)
        · exact (h10 p).mp (Or.inl hp2)
      · by_cases ht : t = tid
        · rw [if_pos ht] at hp
          simp at hp
        · rw [if_neg ht] at hp
          exact (h10 p).mp (Or.inr ⟨t, hp⟩)
    · intro hr
      rcases (h10 p).mpr hr with hp | ⟨t, hp⟩
      · exact Or.inl (List.mem_append.mpr (Or.inr hp))
      · by_cases ht : t = tid
        · subst ht
          exact Or.inl (List.mem_append.mpr (Or.inl (List.mem_reverse.mpr hp)))
        · exact Or.inr ⟨t, by rw [if_neg ht]; exact hp⟩

/-- The freeing prologue succeeds under the store invariant, re-establishes
it, and leaves the chain of `tid` empty. -/
theorem storeFree_spec {s : PagerS} (tid : Nat) (hInv : Inv s) :
    ∃ sF trF, storeFree s tid = some (sF, trF) ∧
      0 < sF.pages.length ∧ (∀ pg ∈ sF.pages, pg.body.length = capPerPage) ∧
      (sF.tableHead.map Prod.fst).Nodup ∧
      (∃ flF cfF, PartitionW sF flF cfF ∧ cfF tid = []) ∧ sF.wal = s.wal := by
  obtain ⟨hpos, hbody, hkeys, fl, cf, hP⟩ := hInv
  obtain ⟨h1, h2, h3, h4, h6, h7, h10⟩ := hP
  unfold storeFree
  by_cases hh : headLookup s.tableHead tid ≠ 0
  · rw [if_pos hh]
    have hlen : (cf tid).length ≤ s.pages.length :=
      le_of_lt (chain_length_lt (h2 tid) (h4 tid) hpos)
    obtain ⟨sA, trA, hfeq, hlenA, hframeA, hbodyA, hchainA⟩ :=
      freeChainF_spec (cf tid) s.pages.length s (headLookup s.tableHead tid) fl
        (h2 tid) (h4 tid) h1 (fun p hp hpf => h6 tid p hpf hp) hlen
    rw [hfeq]
    have hfe := freeChainF_events _ _ _ _ _ hfeq
    refine ⟨{ sA with tableHead := headSet sA.tableHead tid 0 }, trA, rfl,
      by show 0 < sA.pages.length; omega,
      bodies_of_frame hbodyA hbody,
      headSet_keys_nodup _ _ _ (by rw [hfe.1]; exact hkeys), ?_, hfe.2.1⟩
    refine ⟨(cf tid).reverse ++ fl, (fun t => if t = tid then [] else cf t), ?_, if_pos rfl⟩
    exact freed_partition hchainA hframeA hlenA rfl h2 h3 h4 h6 h7 h10
      (headLookup_headSet_self _ _ _)
      (fun t ht => by rw [headLookup_headSet_ne _ _ _ _ ht, hfe.1])
  · rw [if_neg hh]
    push_neg at hh
    refine ⟨s, [], rfl, hpos, hbody, hkeys,
      ⟨fl, cf, ⟨h1, h2, h3, h4, h6, h7, h10⟩, chain_zero (hh ▸ h2 tid)⟩, rfl⟩

/-- `storeCore` under the invariant: it succeeds, preserves the invariant
and the WAL, and for a non-empty blob a load of `tid` afterwards returns
exactly the blob. -/
theorem storeCore_spec {s : PagerS} (tid : Nat) (blob : List Nat) (hInv : Inv s) :
    ∃ s1 tr, storeCore s tid blob = some (s1, tr) ∧ Inv s1 ∧ s1.wal = s.wal ∧
      (blob ≠ [] → loadTableBlob s1 tid = some (some blob)) := by
  obtain ⟨sF, trF, hfreed, hposF, hbodyF, hkeysF, ⟨flF, cfF, hPF, hcfnil⟩, hwalF⟩ :=
    storeFree_spec tid hInv
  by_cases hemp : blob.isEmpty
  · have hbe : blob = [] := by
      cases blob with
      | nil => rfl
      | cons a b => simp [List.isEmpty] at hemp
    refine ⟨sF, trF, ?_, ⟨hposF, hbodyF, hkeysF, flF, cfF, hPF⟩, hwalF, ?_⟩
    · simp only [storeCore]
      rw [hfreed]
      have h2 : (if blob.isEmpty then some (sF, trF)
        else match writeBlobPages sF (chunkList blob) with
          | none => none
          | some (s2, pids, tr2) =>
            match linkPages s2 pids with
            | none => none
            | some (s3, tr3) =>
              match pids with
              | [] => none
              | p0 :: _ => some ({ s3 with tableHead := headSet s3.tableHead tid p0 },
                  trF ++ tr2 ++ tr3)) = some (sF, trF) := by
        rw [if_pos hemp]
      exact h2
    · intro hne
      exact absurd hbe hne
  · have hne : blob ≠ [] := by
      intro he
      rw [he] at hemp
      exact hemp rfl
    obtain ⟨s2, pids, tr2, s3, tr3, p0, pr, hwrite, hlink, hpideq, hInv4, hload4⟩ :=
      storeCore_tail_spec tid blob hposF hbodyF hkeysF hPF hcfnil hne
    subst hpideq
    refine ⟨_, trF ++ tr2 ++ tr3, ?_, hInv4, ?_, fun _ => hload4⟩
    · simp only [storeCore]
      rw [hfreed]
      have h2 : (if blob.isEmpty then some (sF, trF)
        else match writeBlobPages sF (chunkList blob) with
          | none => none
          | some (s2, pids, tr2) =>
            match linkPages s2 pids with
            | none => none
            | some (s3, tr3) =>
              match pids with
              | [] => none
              | p0 :: _ => some ({ s3 with tableHead := headSet s3.tableHead tid p0 },
                  trF ++ tr2 ++ tr3)) =
          some (({ s3 with tableHead := headSet s3.tableHead tid p0 } : PagerS),
            trF ++ tr2 ++ tr3) := by
        rw [if_neg hemp, hwrite]
        have h3 : (match linkPages s2 (p0 :: pr) with
          | none => none
          | some (s3, tr3) =>
            match p0 :: pr with
            | [] => none
            | p1 :: _ => some ({ s3 with tableHead := headSet s3.tableHead tid p1 },
                trF ++ tr2 ++ tr3)) =
            some (({ s3 with tableHead := headSet s3.tableHead tid p0 } : PagerS),
              trF ++ tr2 ++ tr3) := by
          rw [hlink]
        exact h3
      exact h2
    · show s3.wal = s.wal
      rw [(linkPages_events _ _ _ _ hlink).2.1,
        (writeBlobPages_events _ _ _ _ _ hwrite).2.1, hwalF]

/-- `StoreTableBlob` under the invariant: it succeeds, its trace is the WAL
append, then page work, then meta flush, data fsync(s) and a final WAL fsync
(never a WAL truncation), the record stays in the WAL, and for a non-empty
blob the stored bytes can be read back. -/
theorem storeTableBlob_spec {s : PagerS} (tid : Nat) (blob : List Nat) (hInv : Inv s) :
    ∃ s2 trm, storeTableBlob s tid blob =
        some (s2, Ev.walAppendStore tid blob.length :: trm ++
          (if blob.isEmpty then [Ev.metaFlush, Ev.dataFsync, Ev.walFsync]
           else [Ev.metaFlush, Ev.dataFsync, Ev.dataFsync, Ev.walFsync])) ∧
      Inv s2 ∧ s2.wal = s.wal ++ [WalRec.store tid blob] ∧
      (∀ e ∈ trm, e = Ev.fileExtend ∨ ∃ p, e = Ev.pageWrite p) ∧
      (blob ≠ [] → loadTableBlob s2 tid = some (some blob)) := by
  have hInv' : Inv { s with wal := s.wal ++ [WalRec.store tid blob] } := hInv
  obtain ⟨s1, tr, hsc, hInv1, hwal1, hload⟩ := storeCore_spec tid blob hInv'
  have hev := storeCore_events hsc
  refine ⟨s1, tr, ?_, hInv1, by rw [hwal1], hev.2.2.2, hload⟩
  simp only [storeTableBlob]
  rw [hsc]

/-- `DeleteTableBlob` under the invariant: it succeeds, preserves the
invariant, and appends its record to the WAL (no truncation). -/
theorem deleteTableBlob_spec {s : PagerS} (tid : Nat) (hInv : Inv s) :
    ∃ s2 tr, deleteTableBlob s tid = some (s2, tr) ∧ Inv s2 ∧
      s2.wal = s.wal ++ [WalRec.delete tid] := by
  obtain ⟨hpos, hbody, hkeys, fl, cf, hP⟩ := hInv
  obtain ⟨h1, h2, h3, h4, h6, h7, h10⟩ := hP
  simp only [deleteTableBlob]
  by_cases hh : headLookup s.tableHead tid = 0
  · rw [if_pos hh]
    exact ⟨_, _, rfl, ⟨hpos, hbody, hkeys, fl, cf, h1, h2, h3, h4, h6, h7, h10⟩, rfl⟩
  · rw [if_neg hh]
    have hlen : (cf tid).length ≤ s.pages.length :=
      le_of_lt (chain_length_lt (h2 tid) (h4 tid) hpos)
    obtain ⟨sA, trA, hfeq, hlenA, hframeA, hbodyA, hchainA⟩ :=
      freeChainF_spec (cf tid)
        ({ s with wal := s.wal ++ [WalRec.delete tid] } : PagerS).pages.length
        ({ s with wal := s.wal ++ [WalRec.delete tid] } : PagerS)
        (headLookup ({ s with wal := s.wal ++ [WalRec.delete tid] } : PagerS).tableHead tid)
        fl (h2 tid) (h4 tid) h1 (fun p hp hpf => h6 tid p hpf hp) hlen
    have hfe := freeChainF_events _ _ _ _ _ hfeq
    refine ⟨{ sA with tableHead := headDel sA.tableHead tid },
      Ev.walAppendDelete tid :: trA ++ [Ev.metaFlush, Ev.dataFsync, Ev.walFsync],
      ?_, ?_, ?_⟩
    · rw [hfeq]
    · refine ⟨by show 0 < sA.pages.length; rw [hlenA]; exact hpos,
        bodies_of_frame hbodyA hbody,
        headDel_keys_nodup _ _ (by rw [hfe.1]; exact hkeys),
        (cf tid).reverse ++ fl, (fun t => if t = tid then [] else cf t), ?_⟩
      refine freed_partition hchainA hframeA hlenA rfl h2 h3 h4 h6 h7 h10
        (headLookup_headDel_self _ _) ?_
      intro t ht
      rw [headLookup_headDel_ne _ _ _ ht, hfe.1]
    · show sA.wal = s.wal ++ [WalRec.delete tid]
      exact hfe.2.1

/-- The `STORE` branch of `replayWAL` under the invariant. -/
theorem applyStore_spec {s : PagerS} (tid : Nat) (blob : List Nat) (hInv : Inv s) :
    ∃ s1 tr, applyStore s tid blob = some (s1, tr) ∧ Inv s1 ∧
      (blob ≠ [] → loadTableBlob s1 tid = some (some blob)) := by
  obtain ⟨s1, tr, hsc, hInv1, _, hload⟩ := storeCore_spec tid blob hInv
  refine ⟨s1, tr ++ [Ev.metaFlush, Ev.dataFsync], ?_, hInv1, hload⟩
  simp only [applyStore]
  rw [hsc]

/-- The `DELETE` branch of `replayWAL` under the invariant. -/
theorem applyDelete_spec {s : PagerS} (tid : Nat) (hInv : Inv s) :
    ∃ s1 tr, applyDelete s tid = some (s1, tr) ∧ Inv s1 := by
  obtain ⟨hpos, hbody, hkeys, fl, cf, hP⟩ := hInv
  obtain ⟨h1, h2, h3, h4, h6, h7, h10⟩ := hP
  simp only [applyDelete]
  by_cases hh : headLookup s.tableHead tid ≠ 0
  · rw [if_pos hh]
    have hlen : (cf tid).length ≤ s.pages.length :=
      le_of_lt (chain_length_lt (h2 tid) (h4 tid) hpos)
    obtain ⟨sA, trA, hfeq, hlenA, hframeA, hbodyA, hchainA⟩ :=
      freeChainF_spec (cf tid) s.pages.length s (headLookup s.tableHead tid) fl
        (h2 tid) (h4 tid) h1 (fun p hp hpf => h6 tid p hpf hp) hlen
    have hfe := freeChainF_events _ _ _ _ _ hfeq
    rw [hfeq]
    refine ⟨{ sA with tableHead := headDel sA.tableHead tid },
      trA ++ [Ev.metaFlush, Ev.dataFsync], rfl, ?_⟩
    refine ⟨by show 0 < sA.pages.length; rw [hlenA]; exact hpos,
      bodies_of_frame hbodyA hbody,
      headDel_keys_nodup _ _ (by rw [hfe.1]; exact hkeys),
      (cf tid).reverse ++ fl, (fun t => if t = tid then [] else cf t), ?_⟩
    refine freed_partition hchainA hframeA hlenA rfl h2 h3 h4 h6 h7 h10
      (headLookup_headDel_self _ _) ?_
    intro t ht
    rw [headLookup_headDel_ne _ _ _ ht, hfe.1]
  · rw [if_neg hh]
    push_neg at hh
    have hnil : cf tid = [] := chain_zero (hh ▸ h2 tid)
    refine ⟨{ s with tableHead := headDel s.tableHead tid }, [Ev.metaFlush, Ev.dataFsync],
      rfl, hpos, hbody, headDel_keys_nodup _ _ hkeys,
      (cf tid).reverse ++ fl, (fun t => if t = tid then [] else cf t), ?_⟩
    refine @freed_partition s ({ s with tableHead := headDel s.tableHead tid }) tid fl cf
      (headDel s.tableHead tid) ?_ (fun q _ => rfl) rfl rfl h2 h3 h4 h6 h7 h10
      (headLookup_headDel_self _ _) ?_
    · rw [hnil]
      exact h1
    · intro t ht
      rw [headLookup_headDel_ne _ _ _ ht]

/-- The replay loop preserves the invariant and never fails under it. -/
theorem replayRecs_spec : ∀ (rs : List WalRec) (s : PagerS), Inv s →
    ∃ s1 tr, replayRecs s rs = some (s1, tr) ∧ Inv s1
  | [], s, hInv => ⟨s, [], rfl, hInv⟩
  | WalRec.store tid blob :: rs, s, hInv => by
    obtain ⟨s1, tr1, ha, hInv1, _⟩ := applyStore_spec tid blob hInv
    obtain ⟨s2, tr2, hrec, hInv2⟩ := replayRecs_spec rs s1 hInv1
    refine ⟨s2, tr1 ++ tr2, ?_, hInv2⟩
    show (match applyStore s tid blob with
      | none => none
      | some (s1, tr1) =>
        match replayRecs s1 rs with
        | none => none
        | some (s2, tr2) => some (s2, tr1 ++ tr2)) = some (s2, tr1 ++ tr2)
    rw [ha]
    show (match replayRecs s1 rs with
      | none => none
      | some (s2, tr2) => some (s2, tr1 ++ tr2)) = some (s2, tr1 ++ tr2)
    rw [hrec]
  | WalRec.delete tid :: rs, s, hInv => by
    obtain ⟨s1, tr1, ha, hInv1⟩ := applyDelete_spec tid hInv
    obtain ⟨s2, tr2, hrec, hInv2⟩ := replayRecs_spec rs s1 hInv1
    refine ⟨s2, tr1 ++ tr2, ?_, hInv2⟩
    show (match applyDelete s tid with
      | none => none
      | some (s1, tr1) =>
        match replayRecs s1 rs with
        | none => none
        | some (s2, tr2) => some (s2, tr1 ++ tr2)) = some (s2, tr1 ++ tr2)
    rw [ha]
    show (match replayRecs s1 rs with
      | none => none
      | some (s2, tr2) => some (s2, tr1 ++ tr2)) = some (s2, tr1 ++ tr2)
    rw [hrec]

theorem replayRecs_append : ∀ (rs1 rs2 : List WalRec) (s s1 : PagerS) (t1 : List Ev)
    (s2 : PagerS) (t2 : List Ev),
    replayRecs s rs1 = some (s1, t1) → replayRecs s1 rs2 = some (s2, t2) →
    replayRecs s (rs1 ++ rs2) = some (s2, t1 ++ t2)
  | [], rs2, s, s1, t1, s2, t2 => by
    intro h1 h2
    have h3 : some (s, ([] : List Ev)) = some (s1, t1) := h1
    cases h3
    simpa using h2
  | WalRec.store tid blob :: rs1, rs2, s, s1, t1, s2, t2 => by
    intro h1 h2
    have h1b : (match applyStore s tid blob with
      | none => none
      | some (sa, ta) =>
        match replayRecs sa rs1 with
        | none => none
        | some (sb, tb) => some (sb, ta ++ tb)) = some (s1, t1) := h1
    clear h1
    cases ha : applyStore s tid blob with
    | none => rw [ha] at h1b; exact Option.noConfusion h1b
    | some p =>
      obtain ⟨sa, ta⟩ := p
      rw [ha] at h1b
      have h1c : (match replayRecs sa rs1 with
        | none => none
        | some (sb, tb) => some (sb, ta ++ tb)) = some (s1, t1) := h1b
      clear h1b
      cases hb : replayRecs sa rs1 with
      | none => rw [hb] at h1c; exact Option.noConfusion h1c
      | some q =>
        obtain ⟨sb, tb⟩ := q
        rw [hb] at h1c
        have h1d : some (sb, ta ++ tb) = some (s1, t1) := h1c
        cases h1d
        have hih := replayRecs_append rs1 rs2 sa s1 tb s2 t2 hb h2
        show (match applyStore s tid blob with
          | none => none
          | some (sa, ta) =>
            match replayRecs sa (rs1 ++ rs2) with
            | none => none
            | some (sc, tc) => some (sc, ta ++ tc)) = some (s2, ta ++ tb ++ t2)
        rw [ha]
        show (match replayRecs sa (rs1 ++ rs2) with
          | none => none
          | some (sc, tc) => some (sc, ta ++ tc)) = some (s2, ta ++ tb ++ t2)
        rw [hih, List.append_assoc]
  | WalRec.delete tid :: rs1, rs2, s, s1, t1, s2, t2 => by
    intro h1 h2
    have h1b : (match applyDelete s tid with
      | none => none
      | some (sa, ta) =>
        match replayRecs sa rs1 with
        | none => none
        | some (sb, tb) => some (sb, ta ++ tb)) = some (s1, t1) := h1
    clear h1
    cases ha : applyDelete s tid with
    | none => rw [ha] at h1b; exact Option.noConfusion h1b
    | some p =>
      obtain ⟨sa, ta⟩ := p
      rw [ha] at h1b
      have h1c : (match replayRecs sa rs1 with
        | none => none
        | some (sb, tb) => some (sb, ta ++ tb)) = some (s1, t1) := h1b
      clear h1b
      cases hb : replayRecs sa rs1 with
      | none => rw [hb] at h1c; exact Option.noConfusion h1c
      | some q =>
        obtain ⟨sb, tb⟩ := q
        rw [hb] at h1c
        have h1d : some (sb, ta ++ tb) = some (s1, t1) := h1c
        cases h1d
        have hih := replayRecs_append rs1 rs2 sa s1 tb s2 t2 hb h2
        show (match applyDelete s tid with
          | none => none
          | some (sa, ta) =>
            match replayRecs sa (rs1 ++ rs2) with
            | none => none
            | some (sc, tc) => some (sc, ta ++ tc)) = some (s2, ta ++ tb ++ t2)
        rw [ha]
        show (match replayRecs sa (rs1 ++ rs2) with
          | none => none
          | some (sc, tc) => some (sc, ta ++ tc)) = some (s2, ta ++ tb ++ t2)
        rw [hih, List.append_assoc]

/-- `Open` replay: when the last WAL record is a successful non-empty store
of `tid`, the reopened state still returns that blob for `tid`. -/
theorem reopen_spec {s : PagerS} {w : List WalRec} {tid : Nat} {blob : List Nat}
    (hInv : Inv s) (hwal : s.wal = w ++ [WalRec.store tid blob]) (hne : blob ≠ []) :
    ∃ s3 tr3, reopen s = some (s3, tr3) ∧ loadTableBlob s3 tid = some (some blob) := by
  obtain ⟨sm, t1, hrep1, hInvm⟩ := replayRecs_spec w s hInv
  obtain ⟨sf, t2, happly, hInvf, hload⟩ := applyStore_spec tid blob hInvm
  have hsingle : replayRecs sm [WalRec.store tid blob] = some (sf, t2 ++ []) := by
    show (match applyStore sm tid blob with
      | none => none
      | some (s1, tr1) =>
        match replayRecs s1 [] with
        | none => none
        | some (s2, tr2) => some (s2, tr1 ++ tr2)) = some (sf, t2 ++ [])
    rw [happly]
    rfl
  have hall : replayRecs s s.wal = some (sf, t1 ++ (t2 ++ [])) := by
    rw [hwal]
    exact replayRecs_append w [WalRec.store tid blob] s sm t1 sf (t2 ++ []) hrep1 hsingle
  refine ⟨{ sf with wal := [] }, t1 ++ (t2 ++ []) ++ [Ev.walTruncate], ?_, ?_⟩
  · simp only [reopen]
    rw [hall]
  · show loadTableBlob { sf with wal := [] } tid = some (some blob)
    exact hload hne

/-- The invariant holds for a freshly created one-page store. -/
theorem inv_init : Inv initState := by
  refine ⟨by decide, ?_, by simp [initState], [], (fun _ => []), Chain.nil,
    fun tid => Chain.nil, List.nodup_nil, fun _ => List.nodup_nil, ?_, ?_, ?_⟩
  · intro pg hmem
    have hz : pg = zeroPage := by simpa [initState] using hmem
    subst hz
    show (List.replicate capPerPage 0).length = capPerPage
    exact List.length_replicate capPerPage 0
  · intro t p hp _
    simp at hp
  · intro t1 t2 _ p hp _
    simp at hp
  · intro p
    constructor
    · rintro (hp | ⟨t, hp⟩) <;> simp at hp
    · rintro ⟨h1, h2⟩
      have : p = 0 := by
        have : initState.pages.length = 1 := rfl
        omega
      exact absurd this h1

/-- Every state reachable by successful store/delete calls satisfies the
store invariant. -/
theorem reachable_inv {s : PagerS} (h : Reachable s) : Inv s := by
  induction h with
  | init => exact inv_init
  | store hprev hst ih =>
    rename_i s0 s2 tid blob tr
    obtain ⟨s2', trm, hst', hInv', _, _, _⟩ := storeTableBlob_spec tid blob ih
    rw [hst'] at hst
    cases hst
    exact hInv'
  | delete hprev hdel ih =>
    rename_i s0 s2 tid tr
    obtain ⟨s2', tr', hdel', hInv', _⟩ := deleteTableBlob_spec tid ih
    rw [hdel'] at hdel
    cases hdel
    exact hInv'

/-! ## The leaf forward links of the two split paths -/

theorem nxtLookup_del_self (m : List (Nat × Nat)) (i : Nat) :
    nxtLookup (m.filter (fun e => e.1 != i)) i = none := by
  unfold nxtLookup
  cases hf : List.find? (fun e => e.1 == i) (m.filter (fun e => e.1 != i)) with
  | none => rfl
  | some e =>
    have hmem := List.mem_of_find?_eq_some hf
    have hp := List.find?_some hf
    rw [List.mem_filter] at hmem
    simp only [beq_iff_eq] at hp
    simp only [bne_iff_ne, ne_eq, decide_eq_true_eq] at hmem
    exact absurd hp hmem.2

theorem nxtLookup_nxtSet_self_opt (m : List (Nat × Nat)) (i : Nat) (w : Option Nat) :
    nxtLookup (nxtSet m i w) i = w := by
  cases w with
  | none => exact nxtLookup_del_self m i
  | some v => exact nxtLookup_nxtSet_self m i v

theorem splitLeafL_nxt {lid : Nat} {ks vs : List Str} {st : LState}
    {l r : NodeL} {sep : Str} {st1 : LState}
    (h : splitLeafL lid ks vs st = some (l, sep, r, st1)) :
    st1.nxt = st.nxt ∧ r = .leaf st.ctr (ks.drop (ks.length/2)) (vs.drop (ks.length/2)) ∧
      st1.ctr = st.ctr + 1 := by
  simp only [splitLeafL] at h
  by_cases hmid : ks.length / 2 ≤ vs.length
  · rw [if_pos hmid] at h
    cases hx : (ks.drop (ks.length/2))[0]? with
    | none => rw [hx] at h; exact Option.noConfusion h
    | some sep2 =>
      rw [hx] at h
      have h2 : some ((NodeL.leaf lid (ks.take (ks.length/2)) (vs.take (ks.length/2)) : NodeL),
          sep2, (NodeL.leaf st.ctr (ks.drop (ks.length/2)) (vs.drop (ks.length/2)) : NodeL),
          ({ st with ctr := st.ctr + 1 } : LState)) = some (l, sep, r, st1) := h
      cases h2
      exact ⟨rfl, rfl, rfl⟩
  · rw [if_neg hmid] at h
    exact Option.noConfusion h

/-- Go `splitLeafReturnRight` threads the new right leaf into the forward
chain directly after the split leaf: `old.Next` becomes the new leaf and the
new leaf points at whatever `old.Next` was; no other link changes. -/
theorem splitLeafRR_links {lid : Nat} {ks vs : List Str} {st : LState}
    {l r : NodeL} {sep : Str} {st1 : LState}
    (hne : lid ≠ st.ctr)
    (h : splitLeafRR lid ks vs st = some (l, sep, r, st1)) :
    nxtLookup st1.nxt lid = some st.ctr ∧
    nxtLookup st1.nxt st.ctr = nxtLookup st.nxt lid ∧
    (∀ j, j ≠ lid → j ≠ st.ctr → nxtLookup st1.nxt j = nxtLookup st.nxt j) ∧
    r = .leaf st.ctr (ks.drop (ks.length/2)) (vs.drop (ks.length/2)) := by
  simp only [splitLeafRR] at h
  cases hx : splitLeafL lid ks vs st with
  | none => rw [hx] at h; exact Option.noConfusion h
  | some p =>
    obtain ⟨l2, sep2, r2, st2⟩ := p
    rw [hx] at h
    have h2 : some (l2, sep2, r2, ({ st2 with
        nxt := nxtSet (nxtSet st2.nxt st.ctr (nxtLookup st2.nxt lid)) lid
          (some st.ctr) } : LState)) = some (l, sep, r, st1) := h
    cases h2
    obtain ⟨hstnxt, hr, hctr⟩ := splitLeafL_nxt hx
    refine ⟨?_, ?_, ?_, hr⟩
    · exact nxtLookup_nxtSet_self _ _ _
    · rw [nxtLookup_nxtSet_ne _ _ _ _ (Ne.symm hne), nxtLookup_nxtSet_self_opt, hstnxt]
    · intro j hj1 hj2
      rw [nxtLookup_nxtSet_ne _ _ _ _ hj1, nxtLookup_nxtSet_ne _ _ _ _ hj2, hstnxt]

/-! ## The specification claims

One theorem per claim, each followed by its witness (and, for claims the
code refutes as stated, preceded by a concrete counterexample theorem).
-/

/-- Counterexample to C1 as stated: storing the EMPTY blob and loading it
back yields the absent result (Go's `(nil, false)`), not the present empty
string, because an empty blob stores no chain and `TableHead` keeps 0. -/
theorem c1_empty_blob_cex :
    (storeTableBlob initState 1 []).map (fun p => loadTableBlob p.1 1) =
      some (some none) := by decide

/-- C1 (corrected): for every NON-empty blob, under the store invariant a
successful `StoreTableBlob(i, b)` followed by `LoadTableBlob(i)` returns
`Some b`, and the same blob is still returned after a restart that replays
the WAL (`Open`). The claim's "including the empty string" fails: see
`c1_empty_blob_cex`. -/
theorem c1_store_then_load {s s2 : PagerS} {tr : List Ev} {tid : Nat}
    {blob : List Nat} (hInv : Inv s) (hne : blob ≠ [])
    (hst : storeTableBlob s tid blob = some (s2, tr)) :
    loadTableBlob s2 tid = some (some blob) ∧
    ∃ s3 tr3, reopen s2 = some (s3, tr3) ∧ loadTableBlob s3 tid = some (some blob) := by
  obtain ⟨s2', trm, hst', hInv2, hwal2, _, hload⟩ := storeTableBlob_spec tid blob hInv
  rw [hst'] at hst
  cases hst
  exact ⟨hload hne, reopen_spec hInv2 hwal2 hne⟩

/-- Witness for C1: storing `[7, 8]` for table 1 on a fresh store. -/
theorem c1_witness :
    Inv initState ∧ ([7, 8] : List Nat) ≠ [] ∧
    storeTableBlob initState 1 [7, 8] = some (storeDemo.1, storeDemo.2) ∧
    (loadTableBlob storeDemo.1 1 = some (some [7, 8]) ∧
     ∃ s3 tr3, reopen storeDemo.1 = some (s3, tr3) ∧
       loadTableBlob s3 1 = some (some [7, 8])) :=
  have hst : storeTableBlob initState 1 [7, 8] = some (storeDemo.1, storeDemo.2) := rfl
  ⟨inv_init, by decide, hst, c1_store_then_load inv_init (by decide) hst⟩

/-- Counterexample to C2 as stated: in the concrete trace of storing
`[7, 8]` the WAL fsync is the final event — after the page writes, the meta
flush and the data fsyncs — no WAL truncation occurs, and the WAL is
non-empty when the call returns. -/
theorem c2_wal_order_cex :
    storeDemo.2 = [Ev.walAppendStore 1 2, Ev.fileExtend, Ev.pageWrite 1,
      Ev.pageWrite 1, Ev.metaFlush, Ev.dataFsync, Ev.dataFsync, Ev.walFsync] ∧
    Ev.walTruncate ∉ storeDemo.2 ∧ storeDemo.1.wal ≠ [] := by decide

/-- C2 (corrected): the effect order of a successful `StoreTableBlob` is
WAL append, then the page mutations (file extensions and page writes), then
the meta-page flush and the data fsyncs, and the WAL fsync comes LAST — not
before the page mutations as claimed — and the call never truncates the
WAL: its record is still appended when the call returns. -/
theorem c2_store_effect_order {s s2 : PagerS} {tr : List Ev} {tid : Nat}
    {blob : List Nat} (hst : storeTableBlob s tid blob = some (s2, tr)) :
    ∃ trm, tr = Ev.walAppendStore tid blob.length :: trm ++
        (if blob.isEmpty then [Ev.metaFlush, Ev.dataFsync, Ev.walFsync]
         else [Ev.metaFlush, Ev.dataFsync, Ev.dataFsync, Ev.walFsync]) ∧
      (∀ e ∈ trm, e = Ev.fileExtend ∨ ∃ p, e = Ev.pageWrite p) ∧
      Ev.walTruncate ∉ tr ∧ (∃ pre, tr = pre ++ [Ev.walFsync]) ∧
      s2.wal = s.wal ++ [WalRec.store tid blob] := by
  simp only [storeTableBlob] at hst
  cases hsc : storeCore { s with wal := s.wal ++ [WalRec.store tid blob] } tid blob with
  | none => rw [hsc] at hst; exact Option.noConfusion hst
  | some p =>
    obtain ⟨s1, trm⟩ := p
    rw [hsc] at hst
    have h2 : some (s1, Ev.walAppendStore tid blob.length :: trm ++
        (if blob.isEmpty then [Ev.metaFlush, Ev.dataFsync, Ev.walFsync]
         else [Ev.metaFlush, Ev.dataFsync, Ev.dataFsync, Ev.walFsync])) = some (s2, tr) := hst
    cases h2
    have hev := storeCore_events hsc
    refine ⟨trm, rfl, hev.2.2.2, ?_, ?_, by rw [hev.1]⟩
    · intro hmem
      rcases List.mem_cons.mp hmem with h | h
      · exact Ev.noConfusion h
      · rcases List.mem_append.mp h with h | h
        · rcases hev.2.2.2 _ h with h2 | ⟨p2, h2⟩
          · exact Ev.noConfusion h2
          · exact Ev.noConfusion h2
        · by_cases hemp : blob.isEmpty
          · rw [if_pos hemp] at h
            exact absurd h (by decide)
          · rw [if_neg hemp] at h
            exact absurd h (by decide)
    · refine ⟨Ev.walAppendStore tid blob.length :: trm ++
        (if blob.isEmpty then [Ev.metaFlush, Ev.dataFsync]
         else [Ev.metaFlush, Ev.dataFsync, Ev.dataFsync]), ?_⟩
      by_cases hemp : blob.isEmpty
      · rw [if_pos hemp, if_pos hemp]
        simp
      · rw [if_neg hemp, if_neg hemp]
        simp

/-- Witness for C2 at the concrete store of `[7, 8]`. -/
theorem c2_witness :
    storeTableBlob initState 1 [7, 8] = some (storeDemo.1, storeDemo.2) ∧
    ∃ trm, storeDemo.2 = Ev.walAppendStore 1 ([7, 8] : List Nat).length :: trm ++
        (if ([7, 8] : List Nat).isEmpty then [Ev.metaFlush, Ev.dataFsync, Ev.walFsync]
         else [Ev.metaFlush, Ev.dataFsync, Ev.dataFsync, Ev.walFsync]) ∧
      (∀ e ∈ trm, e = Ev.fileExtend ∨ ∃ p, e = Ev.pageWrite p) ∧
      Ev.walTruncate ∉ storeDemo.2 ∧ (∃ pre, storeDemo.2 = pre ++ [Ev.walFsync]) ∧
      storeDemo.1.wal = initState.wal ++ [WalRec.store 1 [7, 8]] :=
  have hst : storeTableBlob initState 1 [7, 8] = some (storeDemo.1, storeDemo.2) := rfl
  ⟨hst, c2_store_effect_order hst⟩

/-- Counterexample to C3 as stated: after the five inserts of scenario B
the root carries two keys, not exactly one. -/
theorem c3_root_keys_cex :
    (insertAll BPTree.new scenarioB).map rootKeyCount = some 2 ∧ (2 : Nat) ≠ 1 := by
  decide

/-- C3 (corrected): inserting `a b c d e` in order (with any values) into a
fresh order-4 tree yields height 1, and an unbounded scan from the empty
key returns the five keys in lexicographic order — but the root holds TWO
keys, not one: the preemptive split of the full leaf root lifts `b`, and
the split during the fifth insert adds `d`. -/
theorem c3_five_inserts : ∀ v1 v2 v3 v4 v5 : Str,
    (insertAll BPTree.new
        [([97], v1), ([98], v2), ([99], v3), ([100], v4), ([101], v5)]).map
      (fun t => (t.height, rootKeyCount t, (t.rangeFrom [] 0).map Prod.fst)) =
    some (1, 2, [[97], [98], [99], [100], [101]]) :=
  fun _ _ _ _ _ => rfl

/-- Witness for C3 at the concrete values `A B C D E`. -/
theorem c3_witness :
    (insertAll BPTree.new
        [([97], [65]), ([98], [66]), ([99], [67]), ([100], [68]), ([101], [69])]).map
      (fun t => (t.height, rootKeyCount t, (t.rangeFrom [] 0).map Prod.fst)) =
    some (1, 2, [[97], [98], [99], [100], [101]]) :=
  c3_five_inserts [65] [66] [67] [68] [69]

/-- Counterexample to C4 as stated: in the corrupt store the `TableHead`
entry for table 1 is non-zero, yet the load returns the absent result — the
oversized payload length is not reported as a distinct `Corruption` error,
breaking both the "if and only if" and the distinct-error part. -/
theorem c4_corruption_cex :
    headLookup corruptState.tableHead 1 ≠ 0 ∧
    loadTableBlob corruptState 1 = some none := by decide

/-- C4 (corrected): `LoadTableBlob` returns the absent result whenever the
`TableHead` entry is missing or zero; but an oversized declared payload
length produces the SAME absent `(nil, false)` result rather than a
distinguishable `Corruption` error, so absence is not equivalent to a
missing head (see `c4_corruption_cex`). -/
theorem c4_absent_and_oversize :
    (∀ (s : PagerS) (tid : Nat), headLookup s.tableHead tid = 0 →
      loadTableBlob s tid = some none) ∧
    (∀ (s : PagerS) (tid : Nat) (pg : Page), headLookup s.tableHead tid ≠ 0 →
      s.pages[headLookup s.tableHead tid]? = some pg →
      PageSize < headerSize + pg.dataLen →
      loadTableBlob s tid = some none) :=
  ⟨fun _ _ h => loadTableBlob_absent h,
   fun _ _ _ h1 h2 h3 => loadTableBlob_corrupt h1 h2 h3⟩

/-- Witness for C4: a fresh store with no entry for table 5, and the
corrupt two-page store whose table 1 page declares an oversized payload. -/
theorem c4_witness :
    (headLookup initState.tableHead 5 = 0 ∧ loadTableBlob initState 5 = some none) ∧
    (headLookup corruptState.tableHead 1 ≠ 0 ∧
     corruptState.pages[headLookup corruptState.tableHead 1]? =
       some { next := 0, dataLen := capPerPage + 1, body := [] } ∧
     PageSize < headerSize +
       ({ next := 0, dataLen := capPerPage + 1, body := [] } : Page).dataLen ∧
     loadTableBlob corruptState 1 = some none) :=
  ⟨⟨rfl, c4_absent_and_oversize.1 initState 5 rfl⟩,
   ⟨by decide, rfl, by decide,
    c4_absent_and_oversize.2 corruptState 1
      { next := 0, dataLen := capPerPage + 1, body := [] } (by decide) rfl (by decide)⟩⟩

/-- Counterexample to C5 as stated: on a self-looping chain the load does
not fail with a bound error — it returns nothing at all, both with the
default budget (the page count) and with the larger budget 300; the Go loop
would run forever. -/
theorem c5_cycle_cex :
    loadTableBlob cyclicState 1 = none ∧ loadTableBlobF cyclicState 1 300 = none ∧
    headLookup cyclicState.tableHead 1 ≠ 0 := by decide

/-- C5 (corrected): `LoadTableBlob` does terminate on every actual
(zero-terminated) chain, one walk step per chain page; but it has NO
visited-set or hop bound: on a self-looping chain the walk never returns,
no matter the budget — there is no `Corruption` failure at the file size
(see `c5_cycle_cex`). -/
theorem c5_walk_termination :
    (∀ (s : PagerS) (tid : Nat) (l : List Nat),
      Chain s.pages (headLookup s.tableHead tid) l → l.length ≤ s.pages.length →
      ∃ r, loadTableBlob s tid = some r) ∧
    (∀ (s : PagerS) (tid : Nat) (pg : Page), headLookup s.tableHead tid ≠ 0 →
      s.pages[headLookup s.tableHead tid]? = some pg →
      pg.next = headLookup s.tableHead tid →
      headerSize + pg.dataLen ≤ PageSize →
      ∀ fuel, loadTableBlobF s tid fuel = none) := by
  constructor
  · intro s tid l hc hlen
    by_cases hh : headLookup s.tableHead tid = 0
    · exact ⟨none, loadTableBlob_absent hh⟩
    · unfold loadTableBlob loadTableBlobF
      rw [if_neg hh]
      exact walkChain_total_of_chain l _ hc _ hlen
  · intro s tid pg h1 h2 h3 h4 fuel
    exact loadTableBlobF_cycle h1 h2 h3 h4 fuel

/-- Witness for C5: the corrupt store's one-page chain terminates, and the
self-looping store returns nothing even with budget 300. -/
theorem c5_witness :
    (Chain corruptState.pages (headLookup corruptState.tableHead 1) [1] ∧
     ([1] : List Nat).length ≤ corruptState.pages.length ∧
     ∃ r, loadTableBlob corruptState 1 = some r) ∧
    (headLookup cyclicState.tableHead 1 ≠ 0 ∧
     cyclicState.pages[headLookup cyclicState.tableHead 1]? =
       some { next := 1, dataLen := 0, body := [] } ∧
     loadTableBlobF cyclicState 1 300 = none) := by
  constructor
  · have hch : Chain corruptState.pages (headLookup corruptState.tableHead 1) [1] :=
      Chain.cons (by decide)
        (rfl : corruptState.pages[(1 : Nat)]? =
          some { next := 0, dataLen := capPerPage + 1, body := [] })
        Chain.nil
    exact ⟨hch, by decide, c5_walk_termination.1 corruptState 1 [1] hch (by decide)⟩
  · exact ⟨by decide, rfl,
      c5_walk_termination.2 cyclicState 1 { next := 1, dataLen := 0, body := [] }
        (by decide) rfl rfl (by decide) 300⟩

/-- C6: in every state reachable from a fresh store by successful
store/delete calls, the free-list chain and the per-table chains are
duplicate-free and pairwise disjoint, and together they cover exactly the
non-meta page ids `{1, …, pageCount − 1}`: the ownership partition of the
file's pages. -/
theorem c6_page_ownership {s : PagerS} (h : Reachable s) :
    ∃ fl cf, PartitionW s fl cf :=
  (reachable_inv h).2.2.2

/-- Witness for C6 at the initial state. -/
theorem c6_witness : Reachable initState ∧ ∃ fl cf, PartitionW initState fl cf :=
  ⟨Reachable.init, c6_page_ownership Reachable.init⟩

/-- Counterexample to C7 as stated: after inserting `a b c d` the tree has
two leaves but the forward chain from the leftmost leaf reaches only the
first — the preemptive root split created leaf 1 without linking it. -/
theorem c7_chain_gap_cex :
    leafChain treeAfter4L = [0] ∧ treeLeafIds treeAfter4L = [0, 1] ∧
    leafChain treeAfter4L ≠ treeLeafIds treeAfter4L := by decide

/-- C7 (corrected): `splitLeafReturnRight` does link the new right leaf
directly after the split leaf — the old leaf's `Next` becomes the new leaf,
the new leaf inherits the old `Next`, and no other link changes — but the
preemptive root split in `Insert` uses the plain `splitLeaf`, which writes
no `Next` pointer at all, so the forward chain can miss leaves (see
`c7_chain_gap_cex`) and the claim that it always visits all leaves fails. -/
theorem c7_split_link_behaviour {lid : Nat} {ks vs : List Str} {st : LState}
    {l r : NodeL} {sep : Str} {st1 : LState}
    (hne : lid ≠ st.ctr)
    (h : splitLeafRR lid ks vs st = some (l, sep, r, st1)) :
    (nxtLookup st1.nxt lid = some st.ctr ∧
     nxtLookup st1.nxt st.ctr = nxtLookup st.nxt lid ∧
     (∀ j, j ≠ lid → j ≠ st.ctr → nxtLookup st1.nxt j = nxtLookup st.nxt j)) ∧
    (∀ l2 sep2 r2 st2, splitLeafL lid ks vs st = some (l2, sep2, r2, st2) →
      st2.nxt = st.nxt) := by
  obtain ⟨h1, h2, h3, _⟩ := splitLeafRR_links hne h
  exact ⟨⟨h1, h2, h3⟩, fun l2 sep2 r2 st2 hL => (splitLeafL_nxt hL).1⟩

/-- Witness for C7: splitting the full leaf `a b c d` with identity 0 when
the next fresh identity is 1. -/
theorem c7_witness :
    ((0 : Nat) ≠ (⟨[], 1⟩ : LState).ctr ∧
     splitLeafRR 0 [[97], [98], [99], [100]] [[1], [2], [3], [4]] ⟨[], 1⟩ =
       some (.leaf 0 [[97], [98]] [[1], [2]], [99],
             .leaf 1 [[99], [100]] [[3], [4]], ⟨[(0, 1)], 2⟩)) ∧
    ((nxtLookup (⟨[(0, 1)], 2⟩ : LState).nxt 0 = some (⟨[], 1⟩ : LState).ctr ∧
      nxtLookup (⟨[(0, 1)], 2⟩ : LState).nxt (⟨[], 1⟩ : LState).ctr =
        nxtLookup (⟨[], 1⟩ : LState).nxt 0 ∧
      (∀ j, j ≠ 0 → j ≠ (⟨[], 1⟩ : LState).ctr →
        nxtLookup (⟨[(0, 1)], 2⟩ : LState).nxt j = nxtLookup (⟨[], 1⟩ : LState).nxt j)) ∧
     (∀ l2 sep2 r2 st2,
        splitLeafL 0 [[97], [98], [99], [100]] [[1], [2], [3], [4]] ⟨[], 1⟩ =
          some (l2, sep2, r2, st2) → st2.nxt = (⟨[], 1⟩ : LState).nxt)) :=
  have h : splitLeafRR 0 [[97], [98], [99], [100]] [[1], [2], [3], [4]] ⟨[], 1⟩ =
      some (.leaf 0 [[97], [98]] [[1], [2]], [99],
            .leaf 1 [[99], [100]] [[3], [4]], ⟨[(0, 1)], 2⟩) := rfl
  ⟨⟨by decide, h⟩, c7_split_link_behaviour (by decide) h⟩

/-- Counterexample to C8 as stated: the key `b` is present in the full-leaf
root `a b c`, yet inserting `b` again changes the tree shape — the height
goes from 0 to 1, because `Insert` preemptively splits the full root before
descending. -/
theorem c8_shape_change_cex :
    ([98] : Str) ∈ (treePairs treeAfter3).map Prod.fst ∧
    BPTree.height treeAfter3 = 0 ∧
    (BPTree.insert treeAfter3 [98] [70]).map BPTree.height = some 1 := by decide

/-- C8 (corrected): inserting a key already present replaces exactly that
key's value — the pair list changes by `replacePair` only — and when the
root is not a full leaf the node structure is unchanged; but the claim's
unconditional "node structure is unchanged" fails: with a full leaf root
the preemptive split reshapes the tree before the in-place replacement
(see `c8_shape_change_cex`). -/
theorem c8_insert_existing {t : BPTree} {key : Str} (val : Str)
    (hb : treeBounded t = true) (hmem : key ∈ (treePairs t).map Prod.fst) :
    ∃ t2, BPTree.insert t key val = some t2 ∧
      treePairs t2 = replacePair key val (treePairs t) ∧
      (rootFullLeaf t = false → stripT t2 = stripT t) :=
  insert_present val hb hmem

/-- Witness for C8: replacing the value of `a` in the five-key tree. -/
theorem c8_witness :
    treeBounded treeAfter5 = true ∧
    ([97] : Str) ∈ (treePairs treeAfter5).map Prod.fst ∧
    ∃ t2, BPTree.insert treeAfter5 [97] [9] = some t2 ∧
      treePairs t2 = replacePair [97] [9] (treePairs treeAfter5) ∧
      (rootFullLeaf treeAfter5 = false → stripT t2 = stripT treeAfter5) :=
  ⟨by decide, by decide, c8_insert_existing [9] (by decide) (by decide)⟩

/-- C9: for every tree reachable from the empty tree by insert/delete
operations, decoding the canonical encoding returns a structurally equal
tree: the same key/value pairs, in the same order. -/
theorem c9_codec_roundtrip {t : BPTree} (h : TreeReach t) :
    decTree (encTree t) = some t :=
  decTree_encTree (treeReach_lenOK h)

/-- Witness for C9 at the empty tree. -/
theorem c9_witness : TreeReach BPTree.new ∧
    decTree (encTree BPTree.new) = some BPTree.new :=
  ⟨TreeReach.new, c9_codec_roundtrip TreeReach.new⟩

/-- C10: under the structural length invariant the modelled `Get`, `Insert`
and `Delete` never take the `none` (out-of-range) exit, `upperBound`
returns at most the number of keys — so the child at that index always
exists — and on a nil root `Get` returns not-found and `Delete` returns
`false` instead of failing. -/
theorem c10_ops_safe (t : BPTree) (key val : Str) (h : treeLenOK t = true) :
    (∀ ks : List Str, upperBound ks key ≤ ks.length) ∧
    (t.get key).isSome = true ∧ (BPTree.insert t key val).isSome = true ∧
    (t.delete key).isSome = true ∧
    BPTree.get ⟨none⟩ key = some ([], false) ∧
    BPTree.delete ⟨none⟩ key = some (⟨none⟩, false) :=
  ⟨fun ks => upperBound_le ks key, get_isSome key h, insert_isSome key val h,
   delete_isSome key h, rfl, rfl⟩

/-- Witness for C10 at the five-key tree and key `a`. -/
theorem c10_witness :
    treeLenOK treeAfter5 = true ∧
    ((∀ ks : List Str, upperBound ks [97] ≤ ks.length) ∧
     (treeAfter5.get [97]).isSome = true ∧
     (BPTree.insert treeAfter5 [97] [9]).isSome = true ∧
     (treeAfter5.delete [97]).isSome = true ∧
     BPTree.get ⟨none⟩ [97] = some ([], false) ∧
     BPTree.delete ⟨none⟩ [97] = some (⟨none⟩, false)) :=
  ⟨by decide, c10_ops_safe treeAfter5 [97] [9] (by decide)⟩

end SharkDB
